import Mathlib

/-!
Verification of the core algorithms of the apetest crawler against its
specification: the robots.txt policy engine (scanning is out of scope here;
rule lookup, path matching and percent-escape handling are covered), the
text-decoding cascade, the canonical Request model with its URL parsing and
serialization, and the Spider frontier with its per-page query budget.

Python strings are modelled as lists of Unicode code points (List Nat),
byte strings as lists of naturals below 256.  Fallible Python functions
(ones that raise) return Option or Except values.  Python builtins used by
the source (str.casefold, str.lower, urllib.parse functions, the codecs
registry) are modelled explicitly; each model carries a comment naming the
builtin it embeds and any deliberate restriction of the model.
-/

/-! ## Python string model -/

/-- A Python string: a sequence of Unicode code points. -/
abbrev PyStr := List Nat

/-- Embed a Lean string literal as a PyStr. -/
def pys (s : String) : PyStr := s.data.map Char.toNat

/-- Model of str.casefold.  Python case folding agrees with ASCII
lowercasing on ASCII input, which is the only input the robots engine
feeds it in this development. -/
def casefold (s : PyStr) : PyStr :=
  s.map (fun c => if 65 ≤ c ∧ c ≤ 90 then c + 32 else c)

/-- Model of str.lower, restricted (like casefold above) to its ASCII
behaviour; the URL code only lowercases strings made of scheme characters,
which are ASCII. -/
def pyLower (s : PyStr) : PyStr :=
  s.map (fun c => if 65 ≤ c ∧ c ≤ 90 then c + 32 else c)

/-! ## Robots engine: rule lookup and path matching

Source: src/apetest/robots.py.  A rule is an (allowed, url path) pair; a
rules map associates a case-folded user-agent name with its rule list,
in insertion order, as produced by parse_robots_txt. -/

/-- One allow/disallow rule: the flag is true iff visiting is allowed. -/
abbrev RobotsRule := Bool × PyStr

/-- A rules mapping as produced by parse_robots_txt: the keys are
case-folded user-agent names in insertion order (Python dict order). -/
abbrev RulesMap := List (PyStr × List RobotsRule)

/-- The for loop of lookup_robots_rules: return the rules of the first
entry whose name starts with the (already case-folded) user agent. -/
def lookupMatch (ua : PyStr) : RulesMap → Option (List RobotsRule)
  | [] => none
  | (name, rules) :: rest =>
    if ua.isPrefixOf name then some rules else lookupMatch ua rest

/-- Model of dict.get with a default: first entry with the given key. -/
def dictGetRules (m : RulesMap) (key : PyStr) : List RobotsRule :=
  match m.find? (fun e => e.1 == key) with
  | some e => e.2
  | none => []

/-- lookup_robots_rules from robots.py: case-fold the user agent, scan the
map for the first entry whose name starts with it, fall back to the star
entry or to no rules at all. -/
def lookup_robots_rules (rules_map : RulesMap) (user_agent : PyStr) :
    List RobotsRule :=
  match lookupMatch (casefold user_agent) rules_map with
  | some rules => rules
  | none => dictGetRules rules_map (pys "*")

/-- The loop of path_allowed: carries the current result and the length of
the longest prefix matched so far. -/
def pathAllowedGo (path : PyStr) : List RobotsRule → Bool → Nat → Bool
  | [], result, _ => result
  | (allow, pfx) :: rest, result, longest =>
    if pfx.isPrefixOf path ∧ longest < pfx.length then
      pathAllowedGo path rest allow pfx.length
    else
      pathAllowedGo path rest result longest

/-- path_allowed from robots.py: longest matching prefix wins, default is
allowed. -/
def path_allowed (path : PyStr) (rules : List RobotsRule) : Bool :=
  pathAllowedGo path rules true 0

/-- Final value of the longest variable of the path_allowed loop: the
greatest length of a rule path that is a prefix of the path and longer
than the starting bound (zero if none is). -/
def maxMatchFrom (path : PyStr) (longest : Nat) : List RobotsRule → Nat
  | [] => longest
  | (_, pfx) :: rest =>
    maxMatchFrom path
      (if pfx.isPrefixOf path ∧ longest < pfx.length then pfx.length
       else longest) rest

/-- Specification reading of claim C1 as literally stated: pick the first
map entry whose name is a prefix of the case-folded user agent. -/
def lookupClaimC1 (rules_map : RulesMap) (user_agent : PyStr) :
    List RobotsRule :=
  match rules_map.find? (fun e => e.1.isPrefixOf (casefold user_agent)) with
  | some e => e.2
  | none => dictGetRules rules_map (pys "*")

/-- Specification reading of claim C2 as literally stated: the result is
true when no rule path is a prefix of the path, and otherwise it is the
flag of a matching rule of maximal path length. -/
def pathAllowedClaimC2 (path : PyStr) (rules : List RobotsRule) : Prop :=
  ((∀ r ∈ rules, ¬ r.2.isPrefixOf path) → path_allowed path rules = true) ∧
  ((∃ r ∈ rules, r.2.isPrefixOf path = true) →
    ∃ r ∈ rules, r.2.isPrefixOf path = true ∧
      (∀ q ∈ rules, q.2.isPrefixOf path = true → q.2.length ≤ r.2.length) ∧
      path_allowed path rules = r.1)

/-- The star rules of the worked example in the spec and the test suite. -/
def exampleRules : List RobotsRule :=
  [ (false, pys "/org/plans.html"), (true, pys "/org/"),
    (true, pys "/serv"), (true, pys "/~mak"), (false, pys "/") ]

/-- The rules map of the worked example in the spec and the test suite. -/
def exampleRulesMap : RulesMap :=
  [ (pys "*", exampleRules),
    (pys "unhipbot", [(false, pys "/")]),
    (pys "webcrawler", []),
    (pys "excite", []) ]

/-- A one-entry rules map separating the two readings of the lookup
direction: the stored name is longer than the queried user agent. -/
def directionRulesMap : RulesMap :=
  [ (pys "webcrawler", [(true, pys "/w")]) ]

/-! ## UTF-8 coding

Model of CPython utf-8 byte handling: the strict decoder used by
bytes.decode() (rejecting malformed structure, overlong forms, surrogates
and out-of-range values), the encoder used by str.encode(), and later a
decoder with the replace error handler for urllib unquote. -/

/-- A UTF-8 continuation byte, 0x80 to 0xBF. -/
def isUtf8Cont (b : Nat) : Bool := 128 ≤ b ∧ b ≤ 191

/-- Valid ranges of the first continuation byte of a three-byte sequence,
depending on the lead byte (excludes overlong forms and surrogates). -/
def utf8Cont3First (b b1 : Nat) : Bool :=
  if b == 224 then 160 ≤ b1 ∧ b1 ≤ 191
  else if b == 237 then 128 ≤ b1 ∧ b1 ≤ 159
  else isUtf8Cont b1

/-- Valid ranges of the first continuation byte of a four-byte sequence,
depending on the lead byte (excludes overlong forms and values beyond
U+10FFFF). -/
def utf8Cont4First (b b1 : Nat) : Bool :=
  if b == 240 then 144 ≤ b1 ∧ b1 ≤ 191
  else if b == 244 then 128 ≤ b1 ∧ b1 ≤ 143
  else isUtf8Cont b1

/-- Model of bytes.decode() with the default strict error handling:
returns the code points, or none if the bytes are not valid UTF-8. -/
def utf8DecodeStrict : List Nat → Option (List Nat)
  | [] => some []
  | b :: rest =>
    if b < 128 then (utf8DecodeStrict rest).map (fun t => b :: t)
    else if 194 ≤ b ∧ b ≤ 223 then
      match rest with
      | b1 :: r =>
        if isUtf8Cont b1 then
          (utf8DecodeStrict r).map (fun t => ((b - 192) * 64 + (b1 - 128)) :: t)
        else none
      | [] => none
    else if 224 ≤ b ∧ b ≤ 239 then
      match rest with
      | b1 :: b2 :: r =>
        if utf8Cont3First b b1 ∧ isUtf8Cont b2 then
          (utf8DecodeStrict r).map (fun t =>
            ((b - 224) * 4096 + (b1 - 128) * 64 + (b2 - 128)) :: t)
        else none
      | _ => none
    else if 240 ≤ b ∧ b ≤ 244 then
      match rest with
      | b1 :: b2 :: b3 :: r =>
        if utf8Cont4First b b1 ∧ isUtf8Cont b2 ∧ isUtf8Cont b3 then
          (utf8DecodeStrict r).map (fun t =>
            ((b - 240) * 262144 + (b1 - 128) * 4096 +
              (b2 - 128) * 64 + (b3 - 128)) :: t)
        else none
      | _ => none
    else none

/-! ## Percent-escape handling of robots rule paths

Source: unescape_path in src/apetest/robots.py.  The Python function
raises ValueError on malformed escapes; the model returns Except with one
error constructor per raise site (the decode failure of bytes.decode is a
UnicodeDecodeError, which is a ValueError in Python). -/

/-- The distinct failure modes of unescape_path. -/
inductive EscapeError where
  /-- Fewer than two characters follow the percent sign. -/
  | incomplete : EscapeError
  /-- The two characters after the percent are not hex digits. -/
  | badHex : PyStr → EscapeError
  /-- First escaped byte is not a valid UTF-8 lead byte. -/
  | badLead : Nat → EscapeError
  /-- Later escaped byte is not a UTF-8 continuation byte. -/
  | badCont : Nat → EscapeError
  /-- Input ended while more escaped continuation bytes were expected. -/
  | truncated : Nat → EscapeError
  /-- The collected bytes are not valid UTF-8 (UnicodeDecodeError). -/
  | badUtf8 : EscapeError
deriving DecidableEq

/-- ASCII whitespace accepted and stripped by the Python int constructor
(the model omits the rarely relevant non-ASCII whitespace). -/
def isPySpace (c : Nat) : Bool :=
  c == 32 || c == 9 || c == 10 || c == 13 || c == 12 || c == 11

/-- Strip leading and trailing whitespace, as int() does. -/
def stripPySpace (s : PyStr) : PyStr :=
  ((s.dropWhile isPySpace).reverse.dropWhile isPySpace).reverse

/-- Hexadecimal digit value. -/
def hexDigitVal (c : Nat) : Option Nat :=
  if 48 ≤ c ∧ c ≤ 57 then some (c - 48)
  else if 65 ≤ c ∧ c ≤ 70 then some (c - 55)
  else if 97 ≤ c ∧ c ≤ 102 then some (c - 87)
  else none

/-- Model of int(s, 16) on non-negative input: whitespace is stripped, a
leading plus sign is allowed, the remainder must be nonempty hex digits
(a digit-group underscore cannot occur in the two-character slices the
caller passes). -/
def pyIntHex (s : PyStr) : Option Nat :=
  let t0 := stripPySpace s
  let t := match t0 with
    | c :: rest => if c == 43 then rest else t0
    | [] => t0
  if t ≠ [] ∧ t.all (fun c => (hexDigitVal c).isSome) then
    some (t.foldl (fun acc c => 16 * acc + (hexDigitVal c).getD 0) 0)
  else none

/-- Model of str.find(ch, start): index of the first occurrence of the
character at or after start. -/
def pyFind (ch : Nat) (s : PyStr) (start : Nat) : Option Nat :=
  ((s.drop start).findIdx? (· == ch)).map (· + start)

/-- One escaped byte: the two characters after the percent at idx, parsed
as in the source (length check, dash check, then int(hex, 16)). -/
def readEscapeByte (path : PyStr) (idx : Nat) : Except EscapeError Nat :=
  let hexNum := (path.drop (idx + 1)).take 2
  if hexNum.length ≠ 2 then .error .incomplete
  else if hexNum.contains 45 then .error (.badHex hexNum)
  else
    match pyIntHex hexNum with
    | none => .error (.badHex hexNum)
    | some v => .ok v

/-- The continuation iterations of the inner loop of unescape_path: with
remaining continuation bytes still expected, the character at idx is
already known to be a percent.  Returns the updated path and scan index
exactly as the source maintains them. -/
def unescapeCont (path : PyStr) (start : Nat) :
    Nat → Nat → List Nat → Except EscapeError (PyStr × Nat)
  | remaining, idx, data =>
    match readEscapeByte path idx with
    | .error e => .error e
    | .ok v =>
      let idx := idx + 3
      if v &&& 192 == 128 then
        match remaining with
        | 0 => .error .badUtf8
        | 1 =>
          match utf8DecodeStrict (data ++ [v]) with
          | some chars => .ok (path.take start ++ chars ++ path.drop idx, idx)
          | none => .error .badUtf8
        | r + 2 =>
          match path.drop idx with
          | 37 :: _ => unescapeCont path start (r + 1) idx (data ++ [v])
          | _ => .error (.truncated (r + 1))
      else .error (.badCont v)

/-- The inner loop of unescape_path for one escape sequence starting at a
percent character at position start: the remaining case of zero expected
continuation bytes in unescapeCont is unreachable, lead bytes always
demand at least one. -/
def unescapeOne (path : PyStr) (start : Nat) :
    Except EscapeError (PyStr × Nat) :=
  match readEscapeByte path start with
  | .error e => .error e
  | .ok v =>
    let idx := start + 3
    if v == 47 then .ok (path.take start ++ pys "%2f" ++ path.drop idx, idx)
    else if v < 128 then .ok (path.take start ++ [v] ++ path.drop idx, idx)
    else if v < 192 ∨ 248 ≤ v then .error (.badLead v)
    else
      let remaining := if v < 224 then 1 else if v < 240 then 2 else 3
      match path.drop idx with
      | 37 :: _ => unescapeCont path start remaining idx [v]
      | _ => .error (.truncated remaining)

/-- The outer loop of unescape_path, driven by fuel.  Every iteration that
recurses consumed at least one escape: with k escapes consumed at found
position s in a path of length L, the new path has length L - 3k + r with
replacement length r at most 3k, and the new scan index is s + 3k, so the
difference of path length and scan index shrinks by at least 3k each
round.  Hence at most length / 3 + 1 iterations happen, and fuel of
length + 1 can never run out (the fuel-exhausted branch returns the path
unchanged but is unreachable). -/
def unescapeGo : Nat → PyStr → Nat → Except EscapeError PyStr
  | 0, path, _ => .ok path
  | fuel + 1, path, idx =>
    match pyFind 37 path idx with
    | none => .ok path
    | some start =>
      match unescapeOne path start with
      | .error e => .error e
      | .ok (path', idx') => unescapeGo fuel path' idx'

/-- unescape_path from robots.py: decode percent escapes, keeping the
escaped path separator as the literal three characters percent-2-f. -/
def unescape_path (path : PyStr) : Except EscapeError PyStr :=
  unescapeGo (path.length + 1) path 0

/-! ## Text decoding

Source: src/apetest/decode.py.  The Python codecs registry is modelled by
the two codecs this development exercises (ascii and utf-8) together with
their common aliases; standard_codec_name is translated in full from the
source. -/

/-- The codecs of the modelled registry. -/
inductive PyCodec where
  | ascii : PyCodec
  | utf8 : PyCodec
deriving DecidableEq

/-- Model of codecs.lookup, restricted to the ascii and utf-8 codecs and
their common lowercase aliases; unknown names yield none (LookupError). -/
def lookup_codec (enc : PyStr) : Option PyCodec :=
  if enc == pys "ascii" || enc == pys "us-ascii" || enc == pys "646" then
    some .ascii
  else if enc == pys "utf-8" || enc == pys "utf8" || enc == pys "u8" ||
      enc == pys "utf_8" then
    some .utf8
  else none

/-- The CodecInfo.name attribute of each codec. -/
def codecName : PyCodec → PyStr
  | .ascii => pys "ascii"
  | .utf8 => pys "utf-8"

/-- Model of CodecInfo.decode with strict error handling: the decoded
text and the number of consumed bytes, or none on UnicodeDecodeError. -/
def codecDecode : PyCodec → List Nat → Option (PyStr × Nat)
  | .ascii, data =>
    if data.all (· < 128) then some (data, data.length) else none
  | .utf8, data => (utf8DecodeStrict data).map (fun t => (t, data.length))

/-- standard_codec_name from decode.py: map a codec name to the preferred
IANA name (the dict lookup is rendered as an if chain). -/
def standard_codec_name (name : PyStr) : PyStr :=
  if (pys "iso8859").isPrefixOf name then pys "iso-8859" ++ name.drop 7
  else if name == pys "ascii" then pys "us-ascii"
  else if name == pys "euc_jp" then pys "euc-jp"
  else if name == pys "euc_kr" then pys "euc-kr"
  else if name == pys "iso2022_jp" then pys "iso-2022-jp"
  else if name == pys "iso2022_jp_2" then pys "iso-2022-jp-2"
  else if name == pys "iso2022_kr" then pys "iso-2022-kr"
  else name

/-- Short form for the standardized name of a codec. -/
def stdName (c : PyCodec) : PyStr := standard_codec_name (codecName c)

/-- Model of the Python dict assignment d[k] = v: an existing key keeps
its position and gets the new value, a new key is appended. -/
def dictUpsert (m : List (PyStr × PyCodec)) (k : PyStr) (v : PyCodec) :
    List (PyStr × PyCodec) :=
  match m with
  | [] => [(k, v)]
  | (k0, v0) :: rest =>
    if k0 == k then (k0, v) :: rest else (k0, v0) :: dictUpsert rest k v

/-- The codec-collection loop of try_decode: build the dict from
standardized name to codec, skipping unknown encodings. -/
def buildCodecs (encodings : List PyStr) : List (PyStr × PyCodec) :=
  encodings.foldl (fun acc enc =>
    match lookup_codec enc with
    | none => acc
    | some c => dictUpsert acc (stdName c) c) []

/-- The decoding loop of try_decode: first codec that decodes the whole
input wins; the error value models the ValueError raised when none does. -/
def tryDecodeLoop (data : List Nat) :
    List (PyStr × PyCodec) → Except Unit (PyStr × PyStr)
  | [] => .error ()
  | (name, codec) :: rest =>
    match codecDecode codec data with
    | none => tryDecodeLoop data rest
    | some (text, consumed) =>
      if consumed == data.length then .ok (text, name)
      else tryDecodeLoop data rest

/-- try_decode from decode.py. -/
def try_decode (data : List Nat) (encodings : List PyStr) :
    Except Unit (PyStr × PyStr) :=
  tryDecodeLoop data (buildCodecs encodings)

/-- First-occurrence deduplication with an explicit list of names seen so
far; used by the specification reading of claim C6. -/
def dedupSeen (seen : List PyStr) : List PyStr → List PyStr
  | [] => []
  | x :: rest =>
    if seen.contains x then dedupSeen seen rest
    else x :: dedupSeen (seen ++ [x]) rest

/-- Specification reading of claim C6, step one: the candidate encodings
mapped to canonical names, each distinct canonical name kept once at its
first occurrence, unknown encodings dropped. -/
def claimCanonicalList (encodings : List PyStr) : List PyStr :=
  dedupSeen [] (encodings.filterMap (fun e => (lookup_codec e).map stdName))

/-- The registry codec belonging to a canonical name. -/
def codecOfStd (n : PyStr) : Option PyCodec :=
  if n == pys "us-ascii" then some .ascii
  else if n == pys "utf-8" then some .utf8
  else none

/-- Decode the whole input under the codec of a canonical name. -/
def stdDecodeFull (n : PyStr) (data : List Nat) : Option PyStr :=
  match codecOfStd n with
  | none => none
  | some c =>
    match codecDecode c data with
    | some (text, consumed) =>
      if consumed == data.length then some text else none
    | none => none

/-- Specification reading of claim C6: the first distinct canonical
candidate that decodes the entire byte sequence wins; error if none. -/
def claimTryDecode (data : List Nat) (encodings : List PyStr) :
    Except Unit (PyStr × PyStr) :=
  match (claimCanonicalList encodings).find?
      (fun n => (stdDecodeFull n data).isSome) with
  | some n => .ok ((stdDecodeFull n data).getD [], n)
  | none => .error ()

/-- The log records decode_and_report can emit, each carrying the source
description of the encoding option it concerns. -/
inductive DecodeLog where
  /-- Warning: the option names an encoding unknown to the registry. -/
  | warnUnknown : PyStr → PyStr → DecodeLog
  /-- Warning: the option's canonical name differs from the encoding
  actually used (source, option spelling, used encoding). -/
  | warnMismatch : PyStr → PyStr → PyStr → DecodeLog
  /-- Info: canonical name agrees with the used encoding but the option
  spelled it non-canonically (source, option spelling, used encoding). -/
  | infoNonCanonical : PyStr → PyStr → PyStr → DecodeLog
deriving DecidableEq

/-- True for the warning-level log records. -/
def isWarnLog : DecodeLog → Bool
  | .warnUnknown _ _ => true
  | .warnMismatch _ _ _ => true
  | .infoNonCanonical _ _ _ => false

/-- True for the info-level log records. -/
def isInfoLog : DecodeLog → Bool
  | .infoNonCanonical _ _ _ => true
  | _ => false

/-- The body of the reporting loop of decode_and_report for one retained
encoding option: an unknown-encoding warning, a mismatch warning, an
info note about non-canonical spelling, or nothing. -/
def reportLog1 (opt : PyStr × PyStr) (used : PyStr) : List DecodeLog :=
  match lookup_codec opt.1 with
  | none => [.warnUnknown opt.2 opt.1]
  | some c =>
    if (stdName c == used) = false then [.warnMismatch opt.2 opt.1 used]
    else if (stdName c == opt.1) = false then
      [.infoNonCanonical opt.2 opt.1 used]
    else []

/-- The reporting loop of decode_and_report, run after a winner is
chosen: one record (or none) per retained encoding option, in order. -/
def reportLogs (options : List (PyStr × PyStr)) (used : PyStr) :
    List DecodeLog :=
  options.flatMap (reportLog1 · used)

/-- Drop the options whose encoding is the None placeholder, keeping
(encoding, source) pairs, as the list comprehension in the source does. -/
def retainedOptions (encoding_options : List (Option PyStr × PyStr)) :
    List (PyStr × PyStr) :=
  encoding_options.filterMap (fun o => o.1.map (fun e => (e, o.2)))

/-- decode_and_report from decode.py: append utf-8 as the final fallback
candidate, decode, then report on each non-None encoding option. -/
def decode_and_report (data : List Nat)
    (encoding_options : List (Option PyStr × PyStr)) :
    Except Unit ((PyStr × PyStr) × List DecodeLog) :=
  let options := retainedOptions encoding_options
  let encodings := options.map (·.1) ++ [pys "utf-8"]
  match try_decode data encodings with
  | .error e => .error e
  | .ok (text, used) => .ok ((text, used), reportLogs options used)

/-- The canonical name of an encoding spelling, none when unknown. -/
def canonicalNameOf (enc : PyStr) : Option PyStr :=
  (lookup_codec enc).map stdName

/-! ## URL parsing and query coding

Models of the urllib.parse builtins the Request class uses: urlsplit,
urlunsplit, quote_plus and unquote_plus, following the current CPython
implementations (tab, carriage return and newline removal; a scheme must
start with an ASCII letter and consist of scheme characters; bracketed
netloc validation is reduced to the bracket-pairing ValueError, since no
claim involves bracketed hosts). -/

/-- The URL-unsafe characters CPython removes up front: tab, CR, LF. -/
def isTabCrLf (c : Nat) : Bool := c == 9 || c == 13 || c == 10

/-- Removal of the unsafe characters from a URL. -/
def removeUnsafe (s : PyStr) : PyStr := s.filter (fun c => !(isTabCrLf c))

/-- Characters allowed in a URL scheme. -/
def isSchemeChar (c : Nat) : Bool :=
  (65 ≤ c ∧ c ≤ 90) || (97 ≤ c ∧ c ≤ 122) || (48 ≤ c ∧ c ≤ 57) ||
  c == 43 || c == 45 || c == 46

/-- An ASCII letter. -/
def isAsciiAlpha (c : Nat) : Bool := (65 ≤ c ∧ c ≤ 90) || (97 ≤ c ∧ c ≤ 122)

/-- Model of s.split(sep, 1) for a single-character separator: the part
before the first occurrence and the part after it (everything, when the
separator does not occur). -/
def splitFirstAt (sep : Nat) (s : PyStr) : PyStr × PyStr :=
  (s.takeWhile (· != sep), (s.dropWhile (· != sep)).drop 1)

/-- The result of urlsplit. -/
structure SplitUrl where
  scheme : PyStr
  netloc : PyStr
  path : PyStr
  query : PyStr
  fragment : PyStr
deriving DecidableEq

/-- The scheme phase of urlsplit: split off a scheme when a colon is
preceded by an ASCII letter followed by scheme characters, lowercasing
the scheme. -/
def splitScheme (url1 : PyStr) : PyStr × PyStr :=
  match url1.findIdx? (· == 58) with
  | some i =>
    if 0 < i ∧ isAsciiAlpha (url1.headD 0) ∧ (url1.take i).all isSchemeChar
    then (pyLower (url1.take i), url1.drop (i + 1))
    else ([], url1)
  | none => ([], url1)

/-- A character that does not terminate the netloc: not a slash, question
mark or hash. -/
def notNetlocEnd (c : Nat) : Bool := !(c == 47 || c == 63 || c == 35)

/-- The netloc phase of urlsplit: after a double slash, take the run up
to the first slash, question mark or hash; none models the ValueError on
unbalanced brackets. -/
def splitNetloc (url2 : PyStr) : Option (PyStr × PyStr) :=
  if url2.take 2 == [47, 47] then
    let rest2 := url2.drop 2
    let netloc := rest2.takeWhile notNetlocEnd
    if (netloc.contains 91 && !(netloc.contains 93)) ||
        (netloc.contains 93 && !(netloc.contains 91)) then none
    else some (netloc, rest2.dropWhile notNetlocEnd)
  else some ([], url2)

/-- The fragment and query phase of urlsplit: split at the first hash,
then at the first question mark, returning path, query, fragment. -/
def splitFragQuery (url3 : PyStr) : PyStr × PyStr × PyStr :=
  let fr : PyStr × PyStr :=
    if url3.contains 35 then splitFirstAt 35 url3 else (url3, [])
  let qr : PyStr × PyStr :=
    if fr.1.contains 63 then splitFirstAt 63 fr.1 else (fr.1, [])
  (qr.1, qr.2, fr.2)

/-- Model of urllib.parse.urlsplit (with fragments allowed): remove
unsafe characters, split off the scheme, the netloc after a double slash
(failing like the ValueError on unbalanced brackets), then fragment and
query.  The result is none exactly when Python raises. -/
def urlsplit (url0 : PyStr) : Option SplitUrl :=
  let url1 := removeUnsafe url0
  let p := splitScheme url1
  match splitNetloc p.2 with
  | none => none
  | some nl =>
    let fq := splitFragQuery nl.2
    some ⟨p.1, nl.1, fq.1, fq.2.1, fq.2.2⟩

/-- Model of urllib.parse.urlunsplit. -/
def urlunsplit (scheme netloc url query fragment : PyStr) : PyStr :=
  let url :=
    if netloc ≠ [] ∨ (url ≠ [] ∧ url.take 2 = [47, 47]) then
      [47, 47] ++ netloc ++
        (if url ≠ [] ∧ url.take 1 ≠ [47] then 47 :: url else url)
    else url
  let url := if scheme ≠ [] then scheme ++ 58 :: url else url
  let url := if query ≠ [] then url ++ 63 :: query else url
  if fragment ≠ [] then url ++ 35 :: fragment else url

/-- UTF-8 encoding of one code point (the model of str.encode is applied
only to valid scalar values; see the validity hypotheses where used). -/
def utf8EncodeChar (c : Nat) : List Nat :=
  if c < 128 then [c]
  else if c < 2048 then [192 + c / 64, 128 + c % 64]
  else if c < 65536 then [224 + c / 4096, 128 + (c / 64) % 64, 128 + c % 64]
  else [240 + c / 262144, 128 + (c / 4096) % 64, 128 + (c / 64) % 64,
    128 + c % 64]

/-- Model of str.encode with utf-8. -/
def utf8Encode (s : PyStr) : List Nat := s.flatMap utf8EncodeChar

/-- A valid Unicode scalar value: what a Python str element denotes,
excluding the lone surrogates Python tolerates but cannot utf-8 encode. -/
def validScalar (c : Nat) : Prop := c < 55296 ∨ (57344 ≤ c ∧ c < 1114112)

/-- All code points of a string are valid scalar values. -/
def ValidStr (s : PyStr) : Prop := ∀ c ∈ s, validScalar c

/-- The bytes urllib quote never escapes: ASCII letters, digits, and the
four characters underscore, dot, dash, tilde. -/
def isAlwaysSafe (b : Nat) : Bool :=
  (65 ≤ b ∧ b ≤ 90) || (97 ≤ b ∧ b ≤ 122) || (48 ≤ b ∧ b ≤ 57) ||
  b == 95 || b == 46 || b == 45 || b == 126

/-- Uppercase hex digit of a value below sixteen. -/
def hexUpper (n : Nat) : Nat := if n < 10 then 48 + n else 55 + n

/-- Model of urllib quote_from_bytes: keep safe bytes, escape the rest as
percent and two uppercase hex digits. -/
def quoteBytes (safe : List Nat) (bs : List Nat) : PyStr :=
  bs.flatMap (fun b =>
    if isAlwaysSafe b || safe.contains b then [b]
    else [37, hexUpper (b / 16), hexUpper (b % 16)])

/-- Model of urllib.parse.quote on a str argument: utf-8 encode, then
escape bytes. -/
def pyQuote (s : PyStr) (safe : List Nat) : PyStr :=
  quoteBytes safe (utf8Encode s)

/-- Model of urllib.parse.quote_plus: like quote with no extra safe
characters, except that a space becomes a plus sign. -/
def quote_plus (s : PyStr) : PyStr :=
  if s.contains 32 then
    (pyQuote s [32]).map (fun c => if c == 32 then 43 else c)
  else pyQuote s []

/-- Model of urllib.parse.unquote_to_bytes, written as the equivalent
scan: a percent followed by two hex digits yields that byte, any other
percent stays literal (CPython phrases the same computation as a split on
the percent character with a hex table lookup per chunk). -/
def unquote_to_bytes : PyStr → List Nat
  | [] => []
  | c :: rest =>
    if c == 37 then
      match hr : rest with
      | a :: b :: r =>
        match hexDigitVal a, hexDigitVal b with
        | some ha, some hb => (16 * ha + hb) :: unquote_to_bytes r
        | _, _ => 37 :: unquote_to_bytes rest
      | _ => 37 :: unquote_to_bytes rest
    else c :: unquote_to_bytes rest
termination_by s => s.length
decreasing_by all_goals (subst_vars; simp only [List.length_cons]; omega)

/-- Model of bytes.decode with utf-8 and the replace error handler,
following the maximal-subpart policy of the CPython decoder: an invalid
or truncated sequence contributes one replacement character for the
longest valid prefix consumed. -/
def utf8DecodeReplace : List Nat → PyStr
  | [] => []
  | b :: rest =>
    if b < 128 then b :: utf8DecodeReplace rest
    else if 194 ≤ b ∧ b ≤ 223 then
      match hr : rest with
      | b1 :: r =>
        if isUtf8Cont b1 then
          ((b - 192) * 64 + (b1 - 128)) :: utf8DecodeReplace r
        else 65533 :: utf8DecodeReplace rest
      | [] => [65533]
    else if 224 ≤ b ∧ b ≤ 239 then
      match hr : rest with
      | b1 :: rest1 =>
        if utf8Cont3First b b1 then
          match hr1 : rest1 with
          | b2 :: r =>
            if isUtf8Cont b2 then
              ((b - 224) * 4096 + (b1 - 128) * 64 + (b2 - 128)) ::
                utf8DecodeReplace r
            else 65533 :: utf8DecodeReplace rest1
          | [] => [65533]
        else 65533 :: utf8DecodeReplace rest
      | [] => [65533]
    else if 240 ≤ b ∧ b ≤ 244 then
      match hr : rest with
      | b1 :: rest1 =>
        if utf8Cont4First b b1 then
          match hr1 : rest1 with
          | b2 :: rest2 =>
            if isUtf8Cont b2 then
              match hr2 : rest2 with
              | b3 :: r =>
                if isUtf8Cont b3 then
                  ((b - 240) * 262144 + (b1 - 128) * 4096 +
                    (b2 - 128) * 64 + (b3 - 128)) :: utf8DecodeReplace r
                else 65533 :: utf8DecodeReplace rest2
              | [] => [65533]
            else 65533 :: utf8DecodeReplace rest1
          | [] => [65533]
        else 65533 :: utf8DecodeReplace rest
      | [] => [65533]
    else 65533 :: utf8DecodeReplace rest
termination_by bs => bs.length
decreasing_by all_goals (subst_vars; simp only [List.length_cons]; omega)

/-- The run loop of urllib unquote: percent decoding applies within each
maximal ASCII run (CPython splits on an ASCII-run regular expression);
non-ASCII runs pass through unchanged. -/
def unquoteRuns : PyStr → PyStr
  | [] => []
  | c :: rest =>
    if h : c < 128 then
      utf8DecodeReplace (unquote_to_bytes ((c :: rest).takeWhile
        (fun x => decide (x < 128)))) ++
        unquoteRuns ((c :: rest).dropWhile (fun x => decide (x < 128)))
    else
      (c :: rest).takeWhile (fun x => !(decide (x < 128))) ++
        unquoteRuns ((c :: rest).dropWhile (fun x => !(decide (x < 128))))
termination_by s => s.length
decreasing_by
  · rw [List.dropWhile_cons, if_pos (decide_eq_true h)]
    simp only [List.length_cons]
    exact Nat.lt_succ_of_le (List.dropWhile_sublist _).length_le
  · rw [List.dropWhile_cons, if_pos (by simp [h])]
    simp only [List.length_cons]
    exact Nat.lt_succ_of_le (List.dropWhile_sublist _).length_le

/-- Model of urllib.parse.unquote on a str: strings without a percent
pass through untouched, otherwise decode run by run. -/
def pyUnquote (s : PyStr) : PyStr :=
  if s.contains 37 then unquoteRuns s else s

/-- Model of urllib.parse.unquote_plus: plus becomes space, then
unquote. -/
def unquote_plus (s : PyStr) : PyStr :=
  pyUnquote (s.map (fun c => if c == 43 then 32 else c))

/-! ## The Request model

Source: src/apetest/request.py.  Equality, ordering and hashing read only
page_url and query; from_url never sets maybe_bad, so on the values the
claims quantify over, structural equality coincides with Python equality. -/

/-- Strict lexicographic comparison of Python strings (the builtin
comparison of str, over code points). -/
def strLtB : PyStr → PyStr → Bool
  | [], [] => false
  | [], _ :: _ => true
  | _ :: _, [] => false
  | a :: xs, b :: ys =>
    if a < b then true else if b < a then false else strLtB xs ys

/-- Strict comparison of query pairs: Python tuple comparison, string
component by string component. -/
def pairLtB (p q : PyStr × PyStr) : Bool :=
  strLtB p.1 q.1 || (p.1 == q.1 && strLtB p.2 q.2)

/-- The non-strict pair order used for sorting: not greater. -/
def pairLe (p q : PyStr × PyStr) : Prop := pairLtB q p = false

instance : DecidableRel pairLe := fun p q =>
  inferInstanceAs (Decidable (pairLtB q p = false))

/-- Model of sorted() on query pairs: any stable sort of a sequence under
a total antisymmetric order yields the same list, so insertion sort
stands in for timsort. -/
def pySorted (l : List (PyStr × PyStr)) : List (PyStr × PyStr) :=
  List.insertionSort pairLe l

/-- A resource request: page URL, query pairs, speculative flag. -/
structure Request where
  page_url : PyStr
  query : List (PyStr × PyStr)
  maybe_bad : Bool
deriving DecidableEq

/-- The Request initializer: stores the query sorted. -/
def Request.make (page_url : PyStr) (query : List (PyStr × PyStr))
    (maybe_bad : Bool) : Request :=
  ⟨page_url, pySorted query, maybe_bad⟩

/-- The split loop of str.split for a single-character separator, driven
by fuel; each round removes the separator occurrence it split at, so the
string length bounds the number of rounds and the zero-fuel branch is
unreachable from queryPairs below. -/
def queryPairsGo (sep : Nat) : Nat → PyStr → List PyStr
  | 0, s => [s]
  | fuel + 1, s =>
    if s.contains sep then
      (splitFirstAt sep s).1 :: queryPairsGo sep fuel (splitFirstAt sep s).2
    else [s]

/-- Model of str.split(sep) for a single-character separator, as the
query loop of Request.from_url uses it. -/
def queryPairs (sep : Nat) (s : PyStr) : List PyStr :=
  queryPairsGo sep (s.length + 1) s

/-- Model of sep.join for a single-character separator. -/
def joinSep (sep : Nat) : List PyStr → PyStr
  | [] => []
  | [x] => x
  | x :: y :: rest => x ++ sep :: joinSep sep (y :: rest)

/-- Sequence a fallible function over a list, failing when any element
fails, as the query loop of from_url does (the first bad segment
raises). -/
def mapOrNone {α β : Type} (f : α → Option β) : List α → Option (List β)
  | [] => some []
  | x :: rest =>
    match f x with
    | none => none
    | some b =>
      match mapOrNone f rest with
      | none => none
      | some bs => some (b :: bs)

/-- Decoding of one query segment: it must contain an equals sign (else
ValueError), and is split at the first one, both halves percent-decoded
with plus as space. -/
def decodeSegment (elem : PyStr) : Option (PyStr × PyStr) :=
  if elem.contains 61 then
    some (unquote_plus (splitFirstAt 61 elem).1,
          unquote_plus (splitFirstAt 61 elem).2)
  else none

/-- Decode the split query segments; none models the ValueError raised on
a segment without an equals sign. -/
def decodeQuery (query_str : PyStr) : Option (List (PyStr × PyStr)) :=
  mapOrNone decodeSegment (queryPairs 38 query_str)

/-- Request.from_url from request.py: split the URL, normalize an empty
path to a slash, rebuild the page URL without query and fragment, parse
the query pairs; none models the ValueError paths. -/
def Request.from_url (url : PyStr) : Option Request :=
  (urlsplit url).bind fun su =>
    let path := if su.path = [] then pys "/" else su.path
    let page_url := urlunsplit su.scheme su.netloc path [] []
    (if su.query ≠ [] then decodeQuery su.query else some []).map
      fun query => Request.make page_url query false

/-- One encoded query pair, as the urlencode call of Request.__str__
produces it: key and value percent-encoded with quote_plus, joined by an
equals sign. -/
def encodePair (p : PyStr × PyStr) : PyStr :=
  quote_plus p.1 ++ 61 :: quote_plus p.2

/-- The str() form of a Request: page URL, and when a query is present a
question mark and the ampersand-joined percent-encoded pairs. -/
def Request.toStr (r : Request) : PyStr :=
  if r.query ≠ [] then
    r.page_url ++ 63 :: joinSep 38 (r.query.map encodePair)
  else r.page_url

/-- The character set quote_plus can emit: bytes it never escapes, the
percent sign (hex digits are themselves never-escaped bytes), and the
plus sign of an encoded space. -/
def quoteOutChar (c : Nat) : Bool := isAlwaysSafe c || c == 37 || c == 43

/-- The scheme condition of splitScheme fails on this string followed by
any colon-free tail: re-splitting such a string starts no scheme. -/
def NoSchemeApp (p : PyStr) : Prop :=
  ∀ tail : PyStr, (∀ c ∈ tail, c ≠ 58) →
    ∀ i, (p ++ tail).findIdx? (· == 58) = some i →
      ¬(0 < i ∧ isAsciiAlpha ((p ++ tail).headD 0) = true ∧
        ((p ++ tail).take i).all isSchemeChar = true)

/-- The invariants urlsplit guarantees about its result, used to prove
that re-splitting the unsplit page URL restores the components. -/
def UrlFacts (su : SplitUrl) : Prop :=
  su.scheme.all isSchemeChar = true ∧
  (su.scheme ≠ [] → isAsciiAlpha (su.scheme.headD 0) = true) ∧
  pyLower su.scheme = su.scheme ∧
  su.netloc.all notNetlocEnd = true ∧
  ((su.netloc.contains 91 && !(su.netloc.contains 93)) ||
    (su.netloc.contains 93 && !(su.netloc.contains 91))) = false ∧
  su.path.all (fun c => !(c == 63 || c == 35)) = true ∧
  (su.netloc ++ su.path).all (fun c => !(isTabCrLf c)) = true ∧
  (su.netloc ≠ [] → su.path = [] ∨ su.path.take 1 = [47]) ∧
  (su.scheme = [] → su.netloc = [] →
    NoSchemeApp (if su.path = [] then [47] else su.path))

/-- Model of Request.__hash__: it reads exactly page_url and query, via
the opaque Python hashes of a string and of a tuple of pairs, xor-ed.
The hash functions themselves are parameters of the model. -/
def requestHash (hs : PyStr → Nat) (hq : List (PyStr × PyStr) → Nat)
    (r : Request) : Nat :=
  hs r.page_url ^^^ hq r.query

/-! ## The Spider model

Source: src/apetest/spider.py.  Python sets of requests become
duplicate-free lists under Python request equality (which ignores
maybe_bad), dicts become association lists in insertion order, and the
ways the code can raise (the ValueError paths inside referrer_allowed
via urlsplit and rindex, and the assertion in add_requests) are
modelled as none. -/

/-- Model of Request.__eq__: page URL and query, ignoring maybe_bad. -/
def reqEq (a b : Request) : Bool :=
  a.page_url == b.page_url && a.query == b.query

/-- Membership in a request set, under Python request equality. -/
def reqMem (r : Request) (l : List Request) : Bool :=
  l.any (fun x => reqEq x r)

/-- Strict comparison of query tuples: Python tuple comparison, pair by
pair. -/
def queryLtB : List (PyStr × PyStr) → List (PyStr × PyStr) → Bool
  | [], [] => false
  | [], _ :: _ => true
  | _ :: _, [] => false
  | p :: ps, q :: qs =>
    if pairLtB p q then true
    else if pairLtB q p then false
    else queryLtB ps qs

/-- Model of Request.__lt__: compare the pairs (page_url, query)
lexicographically. -/
def reqLtB (a b : Request) : Bool :=
  strLtB a.page_url b.page_url ||
    (a.page_url == b.page_url && queryLtB a.query b.query)

/-- Model of min() over a request set. -/
def minReq? : List Request → Option Request
  | [] => none
  | r :: rest =>
    match minReq? rest with
    | none => some r
    | some m => some (if reqLtB m r then m else r)

/-- Removal of a request from a set: drop the equal element. -/
def reqRemove (r : Request) (l : List Request) : List Request :=
  l.filter (fun x => !(reqEq x r))

/-- A duplicate-free request list: the representation invariant of a
Python set of requests. -/
def reqNodup : List Request → Bool
  | [] => true
  | r :: rest => !(reqMem r rest) && reqNodup rest

/-- Disjointness of two request sets. -/
def reqDisjoint (a b : List Request) : Bool :=
  a.all (fun r => !(reqMem r b))

/-- Modelled from the spec: referrer.py is not part of the source
snapshot; the spec describes a Referrer as a polymorphic provider of a
page URL together with the requests discovered for that page, with
membership lookup.  The model carries that capability set directly as
data. -/
structure Referrer where
  page_url : PyStr
  requests : List Request
deriving DecidableEq

/-- Lookup in the per-page query counter (a defaultdict(int)). -/
def qppGet (m : List (PyStr × Nat)) (url : PyStr) : Nat :=
  match m.find? (fun p => p.1 == url) with
  | some p => p.2
  | none => 0

/-- Increment in the per-page query counter. -/
def qppInc : List (PyStr × Nat) → PyStr → List (PyStr × Nat)
  | [], url => [(url, 1)]
  | p :: rest, url =>
    if p.1 == url then (p.1, p.2 + 1) :: rest else p :: qppInc rest url

/-- Membership of a source request in the site graph (a dict keyed by
requests under Python request equality). -/
def sgMem (g : List (Request × List Referrer)) (src : Request) : Bool :=
  g.any (fun p => reqEq p.1 src)

/-- Addition to the page-to-referring-requests map (defaultdict(set)). -/
def prfAdd : List (PyStr × List Request) → PyStr → Request →
    List (PyStr × List Request)
  | [], url, src => [(url, [src])]
  | p :: rest, url, src =>
    if p.1 == url then
      (p.1, if reqMem src p.2 then p.2 else src :: p.2) :: rest
    else p :: prfAdd rest url src

/-- The Spider state: base URL, robots rules, the to-check and checked
request sets, the per-page query counter, the site graph and the
reverse page map. -/
structure SpiderState where
  base_url : PyStr
  rules : List RobotsRule
  requests_to_check : List Request
  requests_checked : List Request
  queries_per_page : List (PyStr × Nat)
  site_graph : List (Request × List Referrer)
  page_referred_from : List (PyStr × List Request)
deriving DecidableEq

/-- Spider.max_queries_per_page. -/
def max_queries_per_page : Nat := 100

/-- Spider.__init__: start with exactly the first request to check. -/
def spiderInit (first_req : Request) (rules : List RobotsRule) :
    SpiderState :=
  ⟨first_req.page_url, rules, [first_req], [], [], [], []⟩

/-- The last index of a character in a string (str.rindex); none models
the ValueError when the character is absent. -/
def rindexOf (c : Nat) (s : PyStr) : Option Nat :=
  match s.reverse.findIdx? (· == c) with
  | some i => some (s.length - 1 - i)
  | none => none

/-- Spider.referrer_allowed: the page path of the referrer must satisfy
the robots rules; under a file: base URL it must also fall below the
base directory and is made relative to it first.  none models the
ValueError paths (urlsplit failure, rindex failure). -/
def referrer_allowed (st : SpiderState) (ref : Referrer) : Option Bool :=
  (urlsplit ref.page_url).bind fun sp =>
    let path := if sp.path = [] then pys "/" else sp.path
    if (pys "file:").isPrefixOf st.base_url then
      (urlsplit st.base_url).bind fun bsp =>
        let base_path := if bsp.path = [] then pys "/" else bsp.path
        if base_path.isPrefixOf path then
          match rindexOf 47 base_path with
          | some i => some (path_allowed (path.drop i) st.rules)
          | none => none
        else some false
    else some (path_allowed path st.rules)

/-- The referrer filtering list comprehension of add_requests; none
when some referrer_allowed call raises. -/
def filterAllowed (st : SpiderState) : List Referrer →
    Option (List Referrer)
  | [] => some []
  | r :: rest =>
    match referrer_allowed st r with
    | none => none
    | some b =>
      match filterAllowed st rest with
      | none => none
      | some l => some (if b then r :: l else l)

/-- The inner request loop of add_requests: skip known requests, stop
at the per-page cap, otherwise count and enqueue. -/
def addReqLoop (maxq : Nat) (url : PyStr) :
    List Request → SpiderState → SpiderState
  | [], st => st
  | req :: rest, st =>
    if reqMem req st.requests_checked || reqMem req st.requests_to_check
    then addReqLoop maxq url rest st
    else if maxq ≤ qppGet st.queries_per_page url then st
    else
      addReqLoop maxq url rest
        { st with
          queries_per_page := qppInc st.queries_per_page url,
          requests_to_check := req :: st.requests_to_check }

/-- The outer referrer loop of add_requests: record the back reference,
then process the requests of the referrer. -/
def addRefLoop (maxq : Nat) (source : Request) :
    List Referrer → SpiderState → SpiderState
  | [], st => st
  | ref :: rest, st =>
    addRefLoop maxq source rest
      (addReqLoop maxq ref.page_url ref.requests
        { st with
          page_referred_from :=
            prfAdd st.page_referred_from ref.page_url source })

/-- Spider.add_requests: filter the referrers, fail like the assertion
if the source request was already finalized, record the graph entry and
enqueue the new requests. -/
def add_requests (st : SpiderState) (source : Request)
    (referrers : List Referrer) : Option SpiderState :=
  match filterAllowed st referrers with
  | none => none
  | some allowed =>
    if sgMem st.site_graph source then none
    else
      some (addRefLoop max_queries_per_page source allowed
        { st with site_graph := st.site_graph ++ [(source, allowed)] })

/-- One step of Spider.__iter__: pick the minimal request to check,
move it from the to-check set to the checked set and yield it; none
when the frontier is empty. -/
def iterStep (st : SpiderState) : Option (Request × SpiderState) :=
  match minReq? st.requests_to_check with
  | none => none
  | some request =>
    some (request,
      { st with
        requests_to_check := reqRemove request st.requests_to_check,
        requests_checked := request :: st.requests_checked })

/-- An observable spider operation: one iteration step, or one
add_requests call (requests may be added while iterating). -/
inductive SpiderOp where
  | check : SpiderOp
  | add : Request → List Referrer → SpiderOp
deriving DecidableEq

/-- Run a sequence of spider operations, collecting the yielded
requests; none when an operation raises. -/
def spiderRun : List SpiderOp → SpiderState →
    Option (List Request × SpiderState)
  | [], st => some ([], st)
  | SpiderOp.check :: rest, st =>
    match iterStep st with
    | none => spiderRun rest st
    | some rs =>
      match spiderRun rest rs.2 with
      | none => none
      | some p => some (rs.1 :: p.1, p.2)
  | SpiderOp.add src refs :: rest, st =>
    match add_requests st src refs with
    | none => none
    | some st2 => spiderRun rest st2

/-- Concrete request for the spider run witnesses. -/
def rqW9 : Request := ⟨pys "http://h/a", [], false⟩

/-- The spider state left after the witness run has checked rqW9. -/
def stW9 : SpiderState :=
  ⟨pys "http://h/a", [], [], [rqW9], [], [], []⟩

/-- 150 pairwise distinct single-query requests, all for one page. -/
def reqsW8 : List Request :=
  (List.range 150).map (fun i => ⟨pys "http://h/p", [(pys "q", [i])], false⟩)

/-- An empty spider witness state. -/
def stW8 : SpiderState := ⟨pys "http://h/p", [], [], [], [], [], []⟩

-- ===== THEOREMS =====

/-- Helper: lookup_robots_rules agrees with a find-based description of
its loop, matching map entries whose name starts with the folded agent. -/
theorem lookupMatch_eq_find (ua : PyStr) (m : RulesMap) :
    lookupMatch ua m = (m.find? (fun e => ua.isPrefixOf e.1)).map (·.2) := by
  induction m with
  | nil => rfl
  | cons e rest ih =>
    obtain ⟨name, rules⟩ := e
    by_cases h : ua.isPrefixOf name
    · simp [lookupMatch, List.find?, h]
    · simp only [lookupMatch, if_neg h, ih, List.find?]
      simp [h]

/-- Helper: lookup_robots_rules described through List.find?. -/
theorem lookup_robots_rules_eq_find (m : RulesMap) (ua : PyStr) :
    lookup_robots_rules m ua =
      match m.find? (fun e => (casefold ua).isPrefixOf e.1) with
      | some e => e.2
      | none => dictGetRules m (pys "*") := by
  unfold lookup_robots_rules
  rw [lookupMatch_eq_find]
  cases m.find? (fun e => (casefold ua).isPrefixOf e.1) <;> rfl

/-- Helper: the starting bound never exceeds the final value of the
longest variable of the path_allowed loop. -/
theorem le_maxMatchFrom (path : PyStr) :
    ∀ (rules : List RobotsRule) (longest : Nat),
      longest ≤ maxMatchFrom path longest rules := by
  intro rules
  induction rules with
  | nil => intro longest; exact Nat.le_refl longest
  | cons r rest ih =>
    intro longest
    obtain ⟨a, pfx⟩ := r
    show longest ≤ maxMatchFrom path (if _ then _ else _) rest
    by_cases hc : pfx.isPrefixOf path ∧ longest < pfx.length
    · rw [if_pos hc]
      exact Nat.le_trans (Nat.le_of_lt hc.2) (ih pfx.length)
    · rw [if_neg hc]
      exact ih longest

/-- Helper: full characterisation of the path_allowed loop.  Writing F for
the final value of the longest variable: every matching rule path has
length at most F; if F stays at the starting bound the result is the
accumulator; and once F exceeds the bound, the result is the flag of the
first rule whose path matches with length exactly F. -/
theorem pathAllowedGo_master (path : PyStr) :
    ∀ (rules : List RobotsRule) (result : Bool) (longest : Nat),
      (∀ r ∈ rules, r.2.isPrefixOf path = true →
          r.2.length ≤ maxMatchFrom path longest rules) ∧
      (maxMatchFrom path longest rules = longest →
          pathAllowedGo path rules result longest = result) ∧
      (longest < maxMatchFrom path longest rules →
          ∃ e, rules.find? (fun r => r.2.isPrefixOf path &&
                 r.2.length == maxMatchFrom path longest rules) = some e ∧
               pathAllowedGo path rules result longest = e.1) := by
  intro rules
  induction rules with
  | nil =>
    intro result longest
    refine ⟨by simp, fun _ => rfl, fun h => absurd h (Nat.lt_irrefl _)⟩
  | cons r rest ih =>
    intro result longest
    obtain ⟨a, pfx⟩ := r
    by_cases hc : pfx.isPrefixOf path ∧ longest < pfx.length
    · have hmax : maxMatchFrom path longest ((a, pfx) :: rest) =
          maxMatchFrom path pfx.length rest := by
        show maxMatchFrom path (if _ then _ else _) rest = _
        rw [if_pos hc]
      have hgo : pathAllowedGo path ((a, pfx) :: rest) result longest =
          pathAllowedGo path rest a pfx.length := by
        show (if _ then _ else _) = _
        rw [if_pos hc]
      have hplen : pfx.length ≤ maxMatchFrom path pfx.length rest :=
        le_maxMatchFrom path rest pfx.length
      refine ⟨?_, ?_, ?_⟩
      · intro q hq hqpfx
        rw [hmax]
        rcases List.mem_cons.mp hq with hq | hq
        · subst hq; exact hplen
        · exact (ih a pfx.length).1 q hq hqpfx
      · intro hstay
        rw [hmax] at hstay
        omega
      · intro _
        rw [hmax, hgo]
        by_cases he : pfx.length = maxMatchFrom path pfx.length rest
        · refine ⟨(a, pfx), ?_, ?_⟩
          · apply List.find?_cons_of_pos
            simp only [Bool.and_eq_true, beq_iff_eq]
            exact ⟨hc.1, he⟩
          · exact (ih a pfx.length).2.1 he.symm
        · have hlt : pfx.length < maxMatchFrom path pfx.length rest :=
            Nat.lt_of_le_of_ne hplen he
          obtain ⟨e, hfind, hres⟩ := (ih a pfx.length).2.2 hlt
          refine ⟨e, ?_, hres⟩
          rw [List.find?_cons_of_neg, hfind]
          simp [he]
    · have hmax : maxMatchFrom path longest ((a, pfx) :: rest) =
          maxMatchFrom path longest rest := by
        show maxMatchFrom path (if _ then _ else _) rest = _
        rw [if_neg hc]
      have hgo : pathAllowedGo path ((a, pfx) :: rest) result longest =
          pathAllowedGo path rest result longest := by
        show (if _ then _ else _) = _
        rw [if_neg hc]
      refine ⟨?_, ?_, ?_⟩
      · intro q hq hqpfx
        rw [hmax]
        rcases List.mem_cons.mp hq with hq | hq
        · subst hq
          have hle : pfx.length ≤ longest := by
            by_cases h : pfx.isPrefixOf path
            · by_contra hgt
              exact hc ⟨h, Nat.lt_of_not_le hgt⟩
            · exact absurd hqpfx h
          exact Nat.le_trans hle (le_maxMatchFrom path rest longest)
        · exact (ih result longest).1 q hq hqpfx
      · intro hstay
        rw [hmax] at hstay
        rw [hgo]
        exact (ih result longest).2.1 hstay
      · intro hlt
        rw [hmax] at hlt
        rw [hgo]
        obtain ⟨e, hfind, hres⟩ := (ih result longest).2.2 hlt
        refine ⟨e, ?_, hres⟩
        rw [hmax, List.find?_cons_of_neg, hfind]
        simp only [Bool.and_eq_true, beq_iff_eq, not_and]
        intro hpre hlen
        exact hc ⟨hpre, by omega⟩

/-- Claim C1, counterexample: the lookup does not pick the first entry
whose name is a prefix of the user agent.  With a single map entry named
webcrawler and user agent web, that reading would find no match and fall
back to the empty rule set, but the code returns the webcrawler rules,
because it tests whether the entry name starts with the user agent. -/
theorem robots_lookup_direction_cex :
    lookup_robots_rules directionRulesMap (pys "web") ≠
      lookupClaimC1 directionRulesMap (pys "web") := by decide

/-- Claim C1 as amended: for every rules map and user agent,
lookup_robots_rules returns the rules of the first map entry whose
(case-folded) name the case-folded user agent is a prefix of — that is,
the entry name starts with the crawler agent, not the reverse — and falls
back to the star entry, or to an empty rule sequence when no star entry
exists.  The conjuncts after the characterisation replay the lookups of
the test suite on the worked example map. -/
theorem robots_lookup_rules_amended :
    (∀ (m : RulesMap) (ua : PyStr),
      lookup_robots_rules m ua =
        match m.find? (fun e => (casefold ua).isPrefixOf e.1) with
        | some e => e.2
        | none =>
          match m.find? (fun e => e.1 == pys "*") with
          | some e => e.2
          | none => []) ∧
    lookup_robots_rules exampleRulesMap (pys "excite") = [] ∧
    lookup_robots_rules exampleRulesMap (pys "web") = [] ∧
    lookup_robots_rules exampleRulesMap (pys "UnHipBot") =
      [(false, pys "/")] ∧
    lookup_robots_rules exampleRulesMap (pys "unknown-bot") = exampleRules := by
  refine ⟨?_, by decide, by decide, by decide, by decide⟩
  intro m ua
  rw [lookup_robots_rules_eq_find]
  cases m.find? (fun e => (casefold ua).isPrefixOf e.1) <;> simp [dictGetRules]

/-- Claim C2, counterexample: the claim as stated fails on a rule whose
path is empty.  The empty string is a prefix of every path, so under the
claim the single rule (disallow, empty) would determine the result, but
the loop requires a strictly positive prefix length and returns the
default, allowed. -/
theorem robots_path_allowed_empty_prefix_cex :
    ¬ pathAllowedClaimC2 (pys "/x") [(false, ([] : PyStr))] := by
  intro h
  obtain ⟨r, hr, -, -, hres⟩ :=
    h.2 ⟨(false, ([] : PyStr)), by decide, by decide⟩
  have hr' : r = (false, ([] : PyStr)) := by
    rcases List.mem_singleton.mp hr with h'; exact h'
  rw [hr'] at hres
  exact absurd hres (by decide)

/-- Claim C2 as amended: path_allowed returns the allow flag of a rule
whose path is the longest nonempty prefix of the path, and returns true
when no rule has a nonempty path that prefixes the path (a rule with an
empty path never matches, since the loop demands a strictly longer match;
parse_robots_txt never produces empty rule paths).  The final conjuncts
are the three worked examples of the claim. -/
theorem robots_path_allowed_longest_match (path : PyStr)
    (rules : List RobotsRule) :
    ((∀ r ∈ rules, ¬ (r.2.isPrefixOf path = true ∧ r.2 ≠ [])) →
      path_allowed path rules = true) ∧
    ((∃ r ∈ rules, r.2.isPrefixOf path = true ∧ r.2 ≠ []) →
      ∃ r ∈ rules, r.2.isPrefixOf path = true ∧
        (∀ q ∈ rules, q.2.isPrefixOf path = true →
          q.2.length ≤ r.2.length) ∧
        path_allowed path rules = r.1) ∧
    path_allowed (pys "/org/plans.html") exampleRules = false ∧
    path_allowed (pys "/org/about.html") exampleRules = true ∧
    path_allowed (pys "/index.html") exampleRules = false := by
  have master := pathAllowedGo_master path rules true 0
  refine ⟨?_, ?_, by decide, by decide, by decide⟩
  · intro hnone
    apply master.2.1
    by_contra hne
    have hlt : 0 < maxMatchFrom path 0 rules := Nat.pos_of_ne_zero hne
    obtain ⟨e, hfind, -⟩ := master.2.2 hlt
    have hmem := List.mem_of_find?_eq_some hfind
    have hpred := List.find?_some hfind
    simp only [Bool.and_eq_true, beq_iff_eq] at hpred
    refine hnone e hmem ⟨hpred.1, ?_⟩
    intro hnil
    rw [hnil] at hpred
    simp at hpred
    omega
  · rintro ⟨r0, hr0, hr0pre, hr0ne⟩
    have hr0len : 0 < r0.2.length := List.length_pos.mpr hr0ne
    have hbound := master.1 r0 hr0 hr0pre
    have hlt : 0 < maxMatchFrom path 0 rules := Nat.lt_of_lt_of_le hr0len hbound
    obtain ⟨e, hfind, hres⟩ := master.2.2 hlt
    have hpred := List.find?_some hfind
    simp only [Bool.and_eq_true, beq_iff_eq] at hpred
    refine ⟨e, List.mem_of_find?_eq_some hfind, hpred.1, ?_, hres⟩
    intro q hq hqpre
    have := master.1 q hq hqpre
    omega

/-- Witness for the amended claim C2: on the worked example, the rule with
path /org/ is the longest nonempty match for /org/about.html and its allow
flag is the result. -/
theorem robots_path_allowed_longest_match_witness :
    ∃ r ∈ exampleRules, r.2.isPrefixOf (pys "/org/about.html") = true ∧
      (∀ q ∈ exampleRules, q.2.isPrefixOf (pys "/org/about.html") = true →
        q.2.length ≤ r.2.length) ∧
      path_allowed (pys "/org/about.html") exampleRules = r.1 :=
  (robots_path_allowed_longest_match (pys "/org/about.html")
    exampleRules).2.1 (by decide)

/-- Claim C10: among matching rule paths of equal maximal length the
earliest rule in the sequence determines the result: the result is the
flag of the first rule matching with the maximal length, and in the
worked two-rule example with equal paths the earlier disallow wins. -/
theorem robots_path_allowed_tie_first_rule (path : PyStr)
    (rules : List RobotsRule) :
    (0 < maxMatchFrom path 0 rules →
      ∃ e, rules.find? (fun r => r.2.isPrefixOf path &&
             r.2.length == maxMatchFrom path 0 rules) = some e ∧
           path_allowed path rules = e.1) ∧
    path_allowed (pys "/a") [(false, pys "/a"), (true, pys "/a")] = false := by
  exact ⟨(pathAllowedGo_master path rules true 0).2.2, by decide⟩

/-- Witness for claim C10: evaluated on the two equal-length rules, the
first (disallow) rule is the one found and it gives the result. -/
theorem robots_path_allowed_tie_first_rule_witness :
    ∃ e, ([(false, pys "/a"), (true, pys "/a")] :
            List RobotsRule).find? (fun r => r.2.isPrefixOf (pys "/a") &&
             r.2.length == maxMatchFrom (pys "/a") 0
               [(false, pys "/a"), (true, pys "/a")]) = some e ∧
         path_allowed (pys "/a") [(false, pys "/a"), (true, pys "/a")] = e.1 :=
  (robots_path_allowed_tie_first_rule (pys "/a")
    [(false, pys "/a"), (true, pys "/a")]).1 (by decide)

/-- Claim C5: unescape_path leaves the escaped slash unexpanded, decodes
valid percent-encoded multibyte UTF-8 (two-, three- and four-byte forms),
and fails for each malformed-escape class: incomplete escape, non-hex
digits, invalid lead byte, invalid continuation byte, and truncated
multibyte sequences.  The inputs replay the claim examples and the test
suite. -/
theorem robots_unescape_path_behaviour :
    unescape_path (pys "/a%2fb.html") = .ok (pys "/a%2fb.html") ∧
    unescape_path (pys "/%e2%82%ac") = .ok [47, 8364] ∧
    unescape_path (pys "/a%3cd.html") = .ok (pys "/a<d.html") ∧
    unescape_path (pys "/%7Ejoe/") = .ok (pys "/~joe/") ∧
    unescape_path (pys "/%C2%A2") = .ok [47, 162] ∧
    unescape_path (pys "/%F0%90%8d%88") = .ok [47, 66376] ∧
    unescape_path (pys "/%") = .error .incomplete ∧
    unescape_path (pys "/%1") = .error .incomplete ∧
    unescape_path (pys "/%1x") = .error (.badHex (pys "1x")) ∧
    unescape_path (pys "/%-3") = .error (.badHex (pys "-3")) ∧
    unescape_path (pys "/%80") = .error (.badLead 128) ∧
    unescape_path (pys "/%e2%e3") = .error (.badCont 227) ∧
    unescape_path (pys "/%e2%82") = .error (.truncated 1) ∧
    unescape_path (pys "/%e2%82%a") = .error .incomplete ∧
    unescape_path (pys "/%e2%82ac") = .error (.truncated 1) := by
  refine ⟨rfl, rfl, rfl, rfl, rfl, rfl, rfl, rfl, rfl, rfl, rfl, rfl,
    rfl, rfl, rfl⟩

/-- Helper: the registry maps the standardized name of each codec back to
that codec. -/
theorem codecOfStd_stdName (c : PyCodec) : codecOfStd (stdName c) = some c := by
  cases c <;> rfl

/-- Helper: upserting a registry pair whose key already determines its
value either leaves the dict unchanged or appends the pair. -/
theorem dictUpsert_good (k : PyStr) (v : PyCodec)
    (hk : codecOfStd k = some v) :
    ∀ acc : List (PyStr × PyCodec),
      (∀ e ∈ acc, codecOfStd e.1 = some e.2) →
      dictUpsert acc k v =
        if (acc.map Prod.fst).contains k then acc else acc ++ [(k, v)] := by
  intro acc
  induction acc with
  | nil => intro _; rfl
  | cons e rest ih =>
    intro hgood
    obtain ⟨k0, v0⟩ := e
    have hrest := fun p hp => hgood p (List.mem_cons_of_mem _ hp)
    by_cases hkk : k0 = k
    · subst hkk
      have h1 : codecOfStd k0 = some v0 := hgood (k0, v0) (List.mem_cons_self _ _)
      have hv : v0 = v := Option.some.inj (h1.symm.trans hk)
      simp [dictUpsert, List.contains_cons, hv]
    · have hne : (k0 == k) = false := beq_eq_false_iff_ne.mpr hkk
      have hne2 : (k == k0) = false := beq_eq_false_iff_ne.mpr (Ne.symm hkk)
      simp only [dictUpsert, hne, Bool.false_eq_true, if_false]
      rw [ih hrest]
      simp only [List.map_cons, List.contains_cons, hne2, Bool.false_or]
      by_cases hc : (rest.map Prod.fst).contains k = true
      · rw [if_pos hc, if_pos hc]
      · rw [if_neg hc, if_neg hc]
        rfl

/-- Helper: the codec dict collected by try_decode is exactly the list of
first occurrences of canonical candidate names, each paired with its
registry codec. -/
theorem buildCodecs_spec (encodings : List PyStr) :
    buildCodecs encodings =
      (claimCanonicalList encodings).map
        (fun n => (n, (codecOfStd n).getD .ascii)) := by
  have main : ∀ (encs : List PyStr) (acc : List (PyStr × PyCodec)),
      (∀ e ∈ acc, codecOfStd e.1 = some e.2) →
      encs.foldl (fun acc enc =>
        match lookup_codec enc with
        | none => acc
        | some c => dictUpsert acc (stdName c) c) acc =
      acc ++ (dedupSeen (acc.map Prod.fst)
        (encs.filterMap (fun e => (lookup_codec e).map stdName))).map
        (fun n => (n, (codecOfStd n).getD .ascii)) := by
    intro encs
    induction encs with
    | nil => intro acc _; simp [dedupSeen]
    | cons e rest ih =>
      intro acc hgood
      rw [List.foldl_cons, List.filterMap_cons]
      cases hlc : lookup_codec e with
      | none => simpa [hlc] using ih acc hgood
      | some c =>
        simp only [hlc, Option.map_some]
        rw [dictUpsert_good (stdName c) c (codecOfStd_stdName c) acc hgood]
        by_cases hmem : (acc.map Prod.fst).contains (stdName c)
        · rw [if_pos hmem, ih acc hgood]
          show _ = acc ++ (dedupSeen _ (stdName c :: _)).map _
          rw [dedupSeen, if_pos hmem]
        · rw [if_neg hmem]
          have hgood2 : ∀ p ∈ acc ++ [(stdName c, c)], codecOfStd p.1 = some p.2 := by
            intro p hp
            rcases List.mem_append.mp hp with hp | hp
            · exact hgood p hp
            · rcases List.mem_singleton.mp hp with rfl
              exact codecOfStd_stdName c
          rw [ih (acc ++ [(stdName c, c)]) hgood2]
          show _ = acc ++ (dedupSeen _ (stdName c :: _)).map _
          rw [dedupSeen, if_neg hmem]
          simp [List.map_append, List.append_assoc, codecOfStd_stdName c]
  have h := main encodings [] (by intro e he; cases he)
  simpa [buildCodecs, claimCanonicalList] using h

/-- Helper: the decode loop over registry pairs agrees with searching the
name list for the first fully decoding canonical name. -/
theorem tryDecodeLoop_spec (data : List Nat) :
    ∀ names : List PyStr,
      (∀ n ∈ names, (codecOfStd n).isSome) →
      tryDecodeLoop data (names.map (fun n => (n, (codecOfStd n).getD .ascii))) =
        match names.find? (fun n => (stdDecodeFull n data).isSome) with
        | some n => .ok ((stdDecodeFull n data).getD [], n)
        | none => .error () := by
  intro names
  induction names with
  | nil => intro _; rfl
  | cons n rest ih =>
    intro hgood
    obtain ⟨c, hc⟩ :=
      Option.isSome_iff_exists.mp (hgood n (List.mem_cons_self _ _))
    have hrest := fun m hm => hgood m (List.mem_cons_of_mem _ hm)
    have hfull : stdDecodeFull n data =
        match codecDecode c data with
        | some (text, consumed) =>
          if consumed == data.length then some text else none
        | none => none := by
      rw [stdDecodeFull, hc]
    simp only [List.map_cons, hc, Option.getD_some, tryDecodeLoop]
    cases hdec : codecDecode c data with
    | none =>
      have hnone : stdDecodeFull n data = none := by rw [hfull, hdec]
      rw [List.find?_cons_of_neg _ (by simp [hnone]), ih hrest]
    | some tc =>
      obtain ⟨text, consumed⟩ := tc
      by_cases hlen : consumed = data.length
      · have hsome : stdDecodeFull n data = some text := by
          rw [hfull, hdec]
          simp [hlen]
        rw [List.find?_cons_of_pos _ (by simp [hsome])]
        simp [hsome, hlen]
      · have hnone : stdDecodeFull n data = none := by
          rw [hfull, hdec]
          simp [hlen]
        rw [List.find?_cons_of_neg _ (by simp [hnone]), ih hrest]
        simp [hlen]

/-- Claim C6: try_decode returns the text and canonical name of the first
candidate encoding, after canonical-name deduplication, that decodes the
whole byte sequence, and fails when none does; the examples check the
plain ASCII case and that a four-byte emoji forces utf-8 whatever the
candidate order. -/
theorem decode_try_decode_first_canonical :
    (∀ (data : List Nat) (encodings : List PyStr),
      try_decode data encodings = claimTryDecode data encodings) ∧
    try_decode (pys "Hello") [pys "us-ascii"] =
      .ok (pys "Hello", pys "us-ascii") ∧
    try_decode [72, 105, 32, 240, 159, 152, 128]
      [pys "us-ascii", pys "utf-8"] = .ok ([72, 105, 32, 128512], pys "utf-8") ∧
    try_decode [72, 105, 32, 240, 159, 152, 128]
      [pys "utf-8", pys "us-ascii"] = .ok ([72, 105, 32, 128512], pys "utf-8") ∧
    try_decode [72, 105, 32, 240, 159, 152, 128] [pys "us-ascii"] =
      .error () := by
  refine ⟨?_, rfl, rfl, rfl, rfl⟩
  intro data encodings
  rw [try_decode, buildCodecs_spec, claimTryDecode,
    tryDecodeLoop_spec data (claimCanonicalList encodings)]
  intro n hn
  have hsub : ∀ (seen l : List PyStr), ∀ m ∈ dedupSeen seen l, m ∈ l := by
    intro seen l
    induction l generalizing seen with
    | nil => intro m hm; cases hm
    | cons x rest ih =>
      intro m hm
      rw [dedupSeen] at hm
      by_cases hx : seen.contains x
      · rw [if_pos hx] at hm
        exact List.mem_cons_of_mem _ (ih seen m hm)
      · rw [if_neg hx] at hm
        rcases List.mem_cons.mp hm with rfl | hm
        · exact List.mem_cons_self _ _
        · exact List.mem_cons_of_mem _ (ih _ m hm)
  have hn' := hsub [] _ n hn
  obtain ⟨e, -, he⟩ := List.mem_filterMap.mp hn'
  cases hlc : lookup_codec e with
  | none => rw [hlc] at he; cases he
  | some c =>
    rw [hlc, Option.map_some'] at he
    rw [← Option.some.inj he, codecOfStd_stdName]
    rfl

/-- Helper: filtering a cons whose head satisfies the predicate, with the
predicate given explicitly. -/
theorem filterConsPos {A : Type} (p : A → Bool) (a : A) (l : List A)
    (h : p a = true) : List.filter p (a :: l) = a :: List.filter p l :=
  List.filter_cons_of_pos h

/-- Helper: filtering a cons whose head fails the predicate, with the
predicate given explicitly. -/
theorem filterConsNeg {A : Type} (p : A → Bool) (a : A) (l : List A)
    (h : p a = false) : List.filter p (a :: l) = List.filter p l :=
  List.filter_cons_of_neg (by simp [h])

/-- Helper: with all options naming known encodings, the warnings among
the emitted logs are exactly one mismatch warning per option whose
canonical name differs from the used encoding, and the info records are
exactly one note per option that names the used encoding non-canonically. -/
theorem reportLogs_filter (used : PyStr) :
    ∀ options : List (PyStr × PyStr),
      (∀ o ∈ options, (lookup_codec o.1).isSome) →
      (reportLogs options used).filter isWarnLog =
        (options.filter
          (fun o => decide (canonicalNameOf o.1 ≠ some used))).map
          (fun o => DecodeLog.warnMismatch o.2 o.1 used) ∧
      (reportLogs options used).filter isInfoLog =
        (options.filter
          (fun o => decide (canonicalNameOf o.1 = some used ∧ o.1 ≠ used))).map
          (fun o => DecodeLog.infoNonCanonical o.2 o.1 used) := by
  intro options
  induction options with
  | nil => intro _; exact ⟨rfl, rfl⟩
  | cons o rest ih =>
    intro hknown
    obtain ⟨c, hc⟩ :=
      Option.isSome_iff_exists.mp (hknown o (List.mem_cons_self _ _))
    obtain ⟨ihW, ihI⟩ := ih (fun p hp => hknown p (List.mem_cons_of_mem _ hp))
    have hcanon : canonicalNameOf o.1 = some (stdName c) := by
      rw [canonicalNameOf, hc, Option.map_some']
    have hrep : reportLogs (o :: rest) used =
        reportLog1 o used ++ reportLogs rest used := by
      rw [reportLogs, reportLogs, List.flatMap_cons]
    rw [hrep, List.filter_append, List.filter_append]
    by_cases hmis : stdName c = used
    · have hcond : decide (canonicalNameOf o.1 ≠ some used) = false := by
        rw [decide_eq_false_iff_not, hcanon, hmis]
        exact fun h => h rfl
      by_cases hsp : stdName c = o.1
      · have hblock : reportLog1 o used = [] := by
          simp only [reportLog1, hc]
          rw [if_neg (by simp [hmis]), if_neg (by simp [hsp])]
        have hcond2 :
            decide (canonicalNameOf o.1 = some used ∧ o.1 ≠ used) = false := by
          rw [decide_eq_false_iff_not, hcanon, hmis]
          rintro ⟨-, hne⟩
          exact hne (by rw [← hsp, hmis])
        rw [hblock]
        refine ⟨?_, ?_⟩
        · rw [List.filter_nil, List.nil_append,
            filterConsNeg (fun o => decide (canonicalNameOf o.1 ≠ some used))
              o rest hcond]
          exact ihW
        · rw [List.filter_nil, List.nil_append,
            filterConsNeg (fun o =>
              decide (canonicalNameOf o.1 = some used ∧ o.1 ≠ used))
              o rest hcond2]
          exact ihI
      · have hblock : reportLog1 o used =
            [DecodeLog.infoNonCanonical o.2 o.1 used] := by
          simp only [reportLog1, hc]
          rw [if_neg (by simp [hmis]),
            if_pos (beq_eq_false_iff_ne.mpr hsp)]
        have hcond2 :
            decide (canonicalNameOf o.1 = some used ∧ o.1 ≠ used) = true := by
          rw [decide_eq_true_eq, hcanon, hmis]
          exact ⟨rfl, fun h => hsp (by rw [hmis, h])⟩
        rw [hblock]
        refine ⟨?_, ?_⟩
        · rw [filterConsNeg (fun o => decide (canonicalNameOf o.1 ≠ some used))
              o rest hcond,
            show List.filter isWarnLog
              [DecodeLog.infoNonCanonical o.2 o.1 used] = [] from rfl,
            List.nil_append]
          exact ihW
        · rw [filterConsPos (fun o =>
              decide (canonicalNameOf o.1 = some used ∧ o.1 ≠ used))
              o rest hcond2, List.map_cons,
            show List.filter isInfoLog
              [DecodeLog.infoNonCanonical o.2 o.1 used] =
              [DecodeLog.infoNonCanonical o.2 o.1 used] from rfl,
            List.singleton_append, ihI]
    · have hblock : reportLog1 o used =
          [DecodeLog.warnMismatch o.2 o.1 used] := by
        simp only [reportLog1, hc]
        rw [if_pos (beq_eq_false_iff_ne.mpr hmis)]
      have hcond : decide (canonicalNameOf o.1 ≠ some used) = true := by
        rw [decide_eq_true_eq, hcanon]
        exact fun h => hmis (Option.some.inj h)
      have hcond2 :
          decide (canonicalNameOf o.1 = some used ∧ o.1 ≠ used) = false := by
        rw [decide_eq_false_iff_not, hcanon]
        rintro ⟨heq, -⟩
        exact hmis (Option.some.inj heq)
      rw [hblock]
      refine ⟨?_, ?_⟩
      · rw [filterConsPos (fun o => decide (canonicalNameOf o.1 ≠ some used))
            o rest hcond, List.map_cons,
          show List.filter isWarnLog
            [DecodeLog.warnMismatch o.2 o.1 used] =
            [DecodeLog.warnMismatch o.2 o.1 used] from rfl,
          List.singleton_append, ihW]
      · rw [filterConsNeg (fun o =>
            decide (canonicalNameOf o.1 = some used ∧ o.1 ≠ used))
            o rest hcond2,
          show List.filter isInfoLog
            [DecodeLog.warnMismatch o.2 o.1 used] = [] from rfl,
          List.nil_append]
        exact ihI

/-- Claim C7: when decode_and_report succeeds with winning encoding E and
every supplied option names a known encoding, the warnings it logs are
exactly one per option whose canonical name differs from E (carrying the
option source), and the info notes are exactly one per option that names
E non-canonically; in particular an HTTP-header claim of ascii against
bytes that need utf-8 logs exactly one warning, and agreeing hints log
nothing. -/
theorem decode_and_report_log_discipline :
    (∀ (data : List Nat) (encoding_options : List (Option PyStr × PyStr))
        (text used : PyStr) (logs : List DecodeLog),
      decode_and_report data encoding_options = .ok ((text, used), logs) →
      (∀ o ∈ retainedOptions encoding_options, (lookup_codec o.1).isSome) →
      logs.filter isWarnLog =
        ((retainedOptions encoding_options).filter
          (fun o => decide (canonicalNameOf o.1 ≠ some used))).map
          (fun o => DecodeLog.warnMismatch o.2 o.1 used) ∧
      logs.filter isInfoLog =
        ((retainedOptions encoding_options).filter
          (fun o => decide (canonicalNameOf o.1 = some used ∧ o.1 ≠ used))).map
          (fun o => DecodeLog.infoNonCanonical o.2 o.1 used)) ∧
    decode_and_report [226, 130, 172]
      [(some (pys "ascii"), pys "HTTP header")] =
      .ok (([8364], pys "utf-8"),
        [DecodeLog.warnMismatch (pys "HTTP header") (pys "ascii")
          (pys "utf-8")]) ∧
    decode_and_report (pys "Hi") [(some (pys "utf-8"), pys "HTTP header")] =
      .ok ((pys "Hi", pys "utf-8"), []) := by
  refine ⟨?_, rfl, rfl⟩
  intro data encoding_options text used logs hok hknown
  rw [decode_and_report] at hok
  cases htry : try_decode data
      ((retainedOptions encoding_options).map (·.1) ++ [pys "utf-8"]) with
  | error e =>
    rw [htry] at hok
    cases hok
  | ok tu =>
    obtain ⟨t0, u0⟩ := tu
    rw [htry] at hok
    have h1 : t0 = text ∧ u0 = used ∧
        reportLogs (retainedOptions encoding_options) u0 = logs := by
      have := Except.ok.inj hok
      refine ⟨congrArg (fun p => p.1.1) this, congrArg (fun p => p.1.2) this,
        congrArg Prod.snd this⟩
    obtain ⟨-, hu, hlogs⟩ := h1
    rw [← hlogs, hu]
    exact reportLogs_filter used (retainedOptions encoding_options) hknown

/-- Witness for claim C7: the general log discipline applied to the
HTTP-header-claims-ascii example, whose hypotheses hold concretely. -/
theorem decode_and_report_log_discipline_witness :
    ([DecodeLog.warnMismatch (pys "HTTP header") (pys "ascii")
        (pys "utf-8")].filter isWarnLog =
      ((retainedOptions [(some (pys "ascii"), pys "HTTP header")]).filter
        (fun o => decide (canonicalNameOf o.1 ≠ some (pys "utf-8")))).map
        (fun o => DecodeLog.warnMismatch o.2 o.1 (pys "utf-8"))) ∧
    ([DecodeLog.warnMismatch (pys "HTTP header") (pys "ascii")
        (pys "utf-8")].filter isInfoLog =
      ((retainedOptions [(some (pys "ascii"), pys "HTTP header")]).filter
        (fun o => decide (canonicalNameOf o.1 = some (pys "utf-8") ∧
          o.1 ≠ pys "utf-8"))).map
        (fun o => DecodeLog.infoNonCanonical o.2 o.1 (pys "utf-8"))) :=
  decode_and_report_log_discipline.1 [226, 130, 172]
    [(some (pys "ascii"), pys "HTTP header")] [8364] (pys "utf-8")
    [DecodeLog.warnMismatch (pys "HTTP header") (pys "ascii") (pys "utf-8")]
    rfl (by decide)

/-- Helper: strict string comparison is asymmetric. -/
theorem strLtB_asymm : ∀ a b : PyStr, strLtB a b = true → strLtB b a = false := by
  intro a
  induction a with
  | nil =>
    intro b hb
    cases b with
    | nil => simp [strLtB] at hb
    | cons y ys => rfl
  | cons x xs ih =>
    intro b hb
    cases b with
    | nil => simp [strLtB] at hb
    | cons y ys =>
      by_cases h1 : x < y
      · simp only [strLtB, if_neg (Nat.lt_asymm h1), if_pos h1]
      · by_cases h2 : y < x
        · simp [strLtB, h1, h2] at hb
        · simp only [strLtB, if_neg h1, if_neg h2] at hb
          simp only [strLtB, if_neg h2, if_neg h1]
          exact ih ys hb

/-- Helper: strict string comparison is irreflexive. -/
theorem strLtB_irrefl (a : PyStr) : strLtB a a = false := by
  by_cases h : strLtB a a = true
  · exact absurd ((strLtB_asymm a a h).symm.trans h) Bool.false_ne_true
  · exact Bool.eq_false_iff.mpr h

/-- Helper: two strings neither of which is less are equal. -/
theorem strLtB_connex : ∀ a b : PyStr,
    strLtB a b = false → strLtB b a = false → a = b := by
  intro a
  induction a with
  | nil =>
    intro b h1 _
    cases b with
    | nil => rfl
    | cons y ys => simp [strLtB] at h1
  | cons x xs ih =>
    intro b h1 h2
    cases b with
    | nil => simp [strLtB] at h2
    | cons y ys =>
      by_cases hxy : x < y
      · simp [strLtB, hxy] at h1
      · by_cases hyx : y < x
        · simp [strLtB, hyx] at h2
        · have hx : x = y := by omega
          simp only [strLtB, if_neg hxy, if_neg hyx] at h1
          simp only [strLtB, if_neg hyx, if_neg hxy] at h2
          rw [hx, ih ys h1 h2]

/-- Helper: strict string comparison is transitive. -/
theorem strLtB_trans : ∀ a b c : PyStr,
    strLtB a b = true → strLtB b c = true → strLtB a c = true := by
  intro a
  induction a with
  | nil =>
    intro b c h1 h2
    cases b with
    | nil => simp [strLtB] at h1
    | cons y ys =>
      cases c with
      | nil => simp [strLtB] at h2
      | cons z zs => rfl
  | cons x xs ih =>
    intro b c h1 h2
    cases b with
    | nil => simp [strLtB] at h1
    | cons y ys =>
      cases c with
      | nil => simp [strLtB] at h2
      | cons z zs =>
        by_cases hxy : x < y
        · by_cases hyz : y < z
          · simp only [strLtB, if_pos (Nat.lt_trans hxy hyz)]
          · by_cases hzy : z < y
            · simp [strLtB, hyz, hzy] at h2
            · have hyz' : y = z := by omega
              simp only [strLtB, if_pos (hyz' ▸ hxy)]
        · by_cases hyx : y < x
          · simp [strLtB, hxy, hyx] at h1
          · have hxy' : x = y := by omega
            subst hxy'
            by_cases hxz : x < z
            · simp only [strLtB, if_pos hxz]
            · by_cases hzx : z < x
              · simp [strLtB, hxz, hzx] at h2
              · simp only [strLtB, if_neg hxz, if_neg hzx] at h2 ⊢
                simp only [strLtB, if_neg hxy, if_neg hyx] at h1
                exact ih ys zs h1 h2

/-- Helper: strict pair comparison is asymmetric. -/
theorem pairLtB_asymm (p q : PyStr × PyStr) :
    pairLtB p q = true → pairLtB q p = false := by
  intro h
  simp only [pairLtB, Bool.or_eq_true, Bool.and_eq_true, beq_iff_eq] at h
  simp only [pairLtB, Bool.or_eq_false_iff, Bool.and_eq_false_iff]
  rcases h with h | ⟨heq, h2⟩
  · constructor
    · exact strLtB_asymm _ _ h
    · left
      rw [beq_eq_false_iff_ne]
      intro hqp
      rw [hqp] at h
      exact absurd ((strLtB_irrefl p.1).symm.trans h) Bool.false_ne_true
  · constructor
    · rw [← heq]
      exact strLtB_irrefl p.1
    · right
      exact strLtB_asymm _ _ h2

/-- Helper: two pairs neither of which is less are equal. -/
theorem pairLtB_connex (p q : PyStr × PyStr)
    (h1 : pairLtB p q = false) (h2 : pairLtB q p = false) : p = q := by
  simp only [pairLtB, Bool.or_eq_false_iff, Bool.and_eq_false_iff] at h1 h2
  have hfst : p.1 = q.1 := strLtB_connex _ _ h1.1 h2.1
  have hsnd : p.2 = q.2 := by
    apply strLtB_connex
    · rcases h1.2 with h | h
      · rw [beq_eq_false_iff_ne] at h
        exact absurd hfst h
      · exact h
    · rcases h2.2 with h | h
      · rw [beq_eq_false_iff_ne] at h
        exact absurd hfst.symm h
      · exact h
  exact Prod.ext hfst hsnd

/-- Helper: strict pair comparison is transitive. -/
theorem pairLtB_trans (p q r : PyStr × PyStr)
    (h1 : pairLtB p q = true) (h2 : pairLtB q r = true) :
    pairLtB p r = true := by
  simp only [pairLtB, Bool.or_eq_true, Bool.and_eq_true, beq_iff_eq] at h1 h2 ⊢
  rcases h1 with h1 | ⟨he1, h1⟩
  · rcases h2 with h2 | ⟨he2, h2⟩
    · exact Or.inl (strLtB_trans _ _ _ h1 h2)
    · exact Or.inl (he2 ▸ h1)
  · rcases h2 with h2 | ⟨he2, h2⟩
    · exact Or.inl (he1 ▸ h2)
    · exact Or.inr ⟨he1.trans he2, strLtB_trans _ _ _ h1 h2⟩

instance : IsTotal (PyStr × PyStr) pairLe :=
  ⟨fun p q => by
    by_cases h : pairLtB q p = true
    · exact Or.inr (pairLtB_asymm q p h)
    · exact Or.inl (Bool.eq_false_iff.mpr h)⟩

instance : IsTrans (PyStr × PyStr) pairLe :=
  ⟨fun a b c hab hbc => by
    by_cases h : pairLtB c a = true
    · by_cases h1 : pairLtB a b = true
      · exact absurd (pairLtB_trans c a b h h1) (Bool.eq_false_iff.mp hbc)
      · have hae : a = b := pairLtB_connex a b (Bool.eq_false_iff.mpr h1) hab
        rw [hae] at h
        exact absurd h (Bool.eq_false_iff.mp hbc)
    · exact Bool.eq_false_iff.mpr h⟩

instance : IsAntisymm (PyStr × PyStr) pairLe :=
  ⟨fun a b hab hba => pairLtB_connex a b hba hab⟩

/-- Helper: the sorted query is sorted. -/
theorem pySorted_sorted (l : List (PyStr × PyStr)) :
    List.Sorted pairLe (pySorted l) :=
  List.sorted_insertionSort pairLe l

/-- Helper: sorting permutes the input. -/
theorem pySorted_perm (l : List (PyStr × PyStr)) : (pySorted l).Perm l :=
  List.perm_insertionSort pairLe l

/-- Helper: permuted pair lists sort identically. -/
theorem pySorted_eq_of_perm {l1 l2 : List (PyStr × PyStr)}
    (h : l1.Perm l2) : pySorted l1 = pySorted l2 :=
  List.eq_of_perm_of_sorted
    ((pySorted_perm l1).trans (h.trans (pySorted_perm l2).symm))
    (pySorted_sorted l1) (pySorted_sorted l2)

/-- Helper: permuted inputs make mapOrNone fail together or produce
permuted outputs. -/
theorem mapOrNone_perm {α β : Type} (f : α → Option β) :
    ∀ {l1 l2 : List α}, l1.Perm l2 →
      (mapOrNone f l1 = none ∧ mapOrNone f l2 = none) ∨
      (∃ r1 r2, mapOrNone f l1 = some r1 ∧ mapOrNone f l2 = some r2 ∧
        r1.Perm r2) := by
  intro l1 l2 h
  induction h with
  | nil => exact Or.inr ⟨[], [], rfl, rfl, List.Perm.refl []⟩
  | cons x h ih =>
    cases hfx : f x with
    | none => exact Or.inl ⟨by simp [mapOrNone, hfx], by simp [mapOrNone, hfx]⟩
    | some b =>
      rcases ih with ⟨hn1, hn2⟩ | ⟨r1, r2, hs1, hs2, hp⟩
      · exact Or.inl ⟨by simp [mapOrNone, hfx, hn1],
          by simp [mapOrNone, hfx, hn2]⟩
      · exact Or.inr ⟨b :: r1, b :: r2, by simp [mapOrNone, hfx, hs1],
          by simp [mapOrNone, hfx, hs2], hp.cons b⟩
  | swap x y l =>
    cases hfx : f x with
    | none =>
      cases hfy : f y with
      | none => exact Or.inl ⟨by simp [mapOrNone, hfx, hfy],
          by simp [mapOrNone, hfx, hfy]⟩
      | some by_ => exact Or.inl ⟨by simp [mapOrNone, hfx, hfy],
          by simp [mapOrNone, hfx, hfy]⟩
    | some bx =>
      cases hfy : f y with
      | none => exact Or.inl ⟨by simp [mapOrNone, hfx, hfy],
          by simp [mapOrNone, hfx, hfy]⟩
      | some by_ =>
        cases hml : mapOrNone f l with
        | none => exact Or.inl ⟨by simp [mapOrNone, hfx, hfy, hml],
            by simp [mapOrNone, hfx, hfy, hml]⟩
        | some r =>
          exact Or.inr ⟨by_ :: bx :: r, bx :: by_ :: r,
            by simp [mapOrNone, hfx, hfy, hml],
            by simp [mapOrNone, hfx, hfy, hml],
            List.Perm.swap bx by_ r⟩
  | trans h12 h23 ih1 ih2 =>
    rcases ih1 with ⟨ha, hb⟩ | ⟨r1, r2, ha, hb, hp⟩
    · rcases ih2 with ⟨-, hd⟩ | ⟨r2, r3, hc, -, -⟩
      · exact Or.inl ⟨ha, hd⟩
      · rw [hb] at hc
        cases hc
    · rcases ih2 with ⟨hc, -⟩ | ⟨r2', r3, hc, hd, hp'⟩
      · rw [hb] at hc
        cases hc
      · rw [hb] at hc
        exact Or.inr ⟨r1, r3, ha, hd, hp.trans (Option.some.inj hc ▸ hp')⟩

/-- Helper: one unfolding of the split loop. -/
theorem queryPairsGo_succ (sep fuel : Nat) (s : PyStr) :
    queryPairsGo sep (fuel + 1) s =
      if s.contains sep then
        (splitFirstAt sep s).1 :: queryPairsGo sep fuel (splitFirstAt sep s).2
      else [s] := rfl

/-- Helper: the split loop yields at least one segment whatever the
fuel. -/
theorem queryPairsGo_ne_nil (sep : Nat) :
    ∀ (fuel : Nat) (s : PyStr), queryPairsGo sep fuel s ≠ [] := by
  intro fuel s
  cases fuel with
  | zero => simp [queryPairsGo]
  | succ n =>
    rw [queryPairsGo]
    split <;> simp

/-- Helper: splitting a query string always yields at least one
segment. -/
theorem queryPairs_ne_nil (sep : Nat) (s : PyStr) : queryPairs sep s ≠ [] :=
  queryPairsGo_ne_nil sep (s.length + 1) s

/-- Helper: only the empty query splits into exactly the singleton list
holding the empty segment, up to permutation. -/
theorem queryPairs_perm_single_empty {q : PyStr}
    (h : (queryPairs 38 q).Perm [[]]) : q = [] := by
  by_cases hc : (38 : Nat) ∈ q
  · exfalso
    have hc2 : List.contains q 38 = true := by simpa using hc
    have hlen := h.length_eq
    rw [queryPairs, queryPairsGo_succ, if_pos hc2] at hlen
    have hne := queryPairsGo_ne_nil 38 q.length (splitFirstAt 38 q).2
    cases hq : queryPairsGo 38 q.length (splitFirstAt 38 q).2 with
    | nil => exact hne hq
    | cons a l => rw [hq] at hlen; simp at hlen
  · have hc2 : ¬ List.contains q 38 = true := by simpa using hc
    have hq : queryPairs 38 q = [q] := by
      rw [queryPairs, queryPairsGo_succ, if_neg hc2]
    rw [hq] at h
    have hmem : ([] : PyStr) ∈ ([q] : List PyStr) := h.mem_iff.mpr (by simp)
    rcases List.mem_singleton.mp hmem with h'
    exact h'.symm

/-- Claim C3: URL strings that differ only in the order of their query
parameters (same scheme, netloc, path and fragment after splitting, and
permuted ampersand-separated query segments) produce equal Requests from
Request.from_url, with equal hash inputs under any hash functions; and
every constructed Request stores its query as the sorted decoded pairs:
the stored query is sorted, and it is exactly the sort of the decoded
segment pairs whatever their input order.  The final conjunct checks the
two concrete reorderings. -/
theorem request_from_url_query_order :
    (∀ (u1 u2 : PyStr) (s1 s2 : SplitUrl),
      urlsplit u1 = some s1 → urlsplit u2 = some s2 →
      s1.scheme = s2.scheme → s1.netloc = s2.netloc → s1.path = s2.path →
      s1.fragment = s2.fragment →
      (queryPairs 38 s1.query).Perm (queryPairs 38 s2.query) →
      Request.from_url u1 = Request.from_url u2 ∧
      ∀ (hs : PyStr → Nat) (hq : List (PyStr × PyStr) → Nat),
        (Request.from_url u1).map (requestHash hs hq) =
        (Request.from_url u2).map (requestHash hs hq)) ∧
    (∀ (u : PyStr) (r : Request), Request.from_url u = some r →
      List.Sorted pairLe r.query ∧
      ∀ (s : SplitUrl) (pairs : List (PyStr × PyStr)),
        urlsplit u = some s → s.query ≠ [] →
        decodeQuery s.query = some pairs →
        r.query = pySorted pairs ∧ r.query.Perm pairs) ∧
    Request.from_url (pys "http://h/p?b=2&a=1") =
      Request.from_url (pys "http://h/p?a=1&b=2") ∧
    Request.from_url (pys "http://h/p?b=2&a=1") =
      some ⟨pys "http://h/p", [(pys "a", pys "1"), (pys "b", pys "2")],
        false⟩ := by
  refine ⟨?_, ?_, ?_, ?_⟩
  · intro u1 u2 s1 s2 h1 h2 hsch hnl hp hf hperm
    have main : Request.from_url u1 = Request.from_url u2 := by
      rw [Request.from_url, Request.from_url, h1, h2, Option.some_bind,
        Option.some_bind]
      rw [hsch, hnl, hp]
      by_cases hq1 : s1.query = []
      · have hq2 : s2.query = [] := by
          apply queryPairs_perm_single_empty
          have hnil : queryPairs 38 s1.query = [[]] := by
            rw [hq1]
            rfl
          rw [hnil] at hperm
          exact hperm.symm
        rw [hq1, hq2]
      · have hq2 : s2.query ≠ [] := by
          intro h0
          apply hq1
          apply queryPairs_perm_single_empty
          have hnil : queryPairs 38 s2.query = [[]] := by
            rw [h0]
            rfl
          rw [hnil] at hperm
          exact hperm
        rw [if_pos hq1, if_pos hq2]
        rcases mapOrNone_perm decodeSegment hperm with ⟨hn1, hn2⟩ |
          ⟨r1, r2, hs1, hs2, hpr⟩
        · rw [decodeQuery, decodeQuery, hn1, hn2]
        · rw [decodeQuery, decodeQuery, hs1, hs2, Option.map_some',
            Option.map_some', Request.make, Request.make,
            pySorted_eq_of_perm hpr]
    exact ⟨main, fun hs hq => by rw [main]⟩
  · intro u r hur
    cases hsplit : urlsplit u with
    | none => rw [Request.from_url, hsplit] at hur; cases hur
    | some s =>
      simp only [Request.from_url, hsplit, Option.some_bind] at hur
      by_cases hq : s.query = []
      · have hopt : (if s.query ≠ [] then decodeQuery s.query
            else some []) = some [] := by
          rw [if_neg (fun hne => hne hq)]
        rw [hopt, Option.map_some'] at hur
        obtain rfl := Option.some.inj hur
        refine ⟨pySorted_sorted [], ?_⟩
        intro s' pairs hs' hne' _
        have hss : s' = s := (Option.some.inj hs').symm
        rw [hss] at hne'
        exact absurd hq hne'
      · have hopt : (if s.query ≠ [] then decodeQuery s.query
            else some []) = decodeQuery s.query := by
          rw [if_pos hq]
        rw [hopt] at hur
        cases hdec : decodeQuery s.query with
        | none => rw [hdec, Option.map_none'] at hur; cases hur
        | some pairs0 =>
          rw [hdec, Option.map_some'] at hur
          obtain rfl := Option.some.inj hur
          refine ⟨pySorted_sorted pairs0, ?_⟩
          intro s' pairs hs' hne' hdec'
          have hss : s' = s := (Option.some.inj hs').symm
          rw [hss] at hdec'
          obtain rfl := Option.some.inj (hdec'.symm.trans hdec)
          exact ⟨rfl, pySorted_perm _⟩
  · rfl
  · rfl

/-- Witness for claim C3: the general order-irrelevance statement applied
to the two concrete query orderings of the same URL. -/
theorem request_from_url_query_order_witness :
    Request.from_url (pys "http://h/p?b=2&a=1") =
      Request.from_url (pys "http://h/p?a=1&b=2") ∧
    ∀ (hs : PyStr → Nat) (hq : List (PyStr × PyStr) → Nat),
      (Request.from_url (pys "http://h/p?b=2&a=1")).map (requestHash hs hq) =
      (Request.from_url (pys "http://h/p?a=1&b=2")).map (requestHash hs hq) :=
  request_from_url_query_order.1 (pys "http://h/p?b=2&a=1")
    (pys "http://h/p?a=1&b=2")
    ⟨pys "http", pys "h", pys "/p", pys "b=2&a=1", []⟩
    ⟨pys "http", pys "h", pys "/p", pys "a=1&b=2", []⟩
    rfl rfl rfl rfl rfl rfl (by decide)

/-! ## Helper lemmas for the URL round trip (claim C4) -/

/-- Helper: takeWhile passes over a prefix whose elements all satisfy the
predicate. -/
theorem takeWhileAppend (p : Nat → Bool) (l₁ l₂ : List Nat)
    (h : ∀ x ∈ l₁, p x = true) :
    (l₁ ++ l₂).takeWhile p = l₁ ++ l₂.takeWhile p := by
  induction l₁ with
  | nil => simp
  | cons a l ih =>
    simp only [List.cons_append, List.takeWhile_cons,
      h a (List.mem_cons_self _ _)]
    simp [ih (fun x hx => h x (List.mem_cons_of_mem _ hx))]

/-- Helper: dropWhile passes over a prefix whose elements all satisfy the
predicate. -/
theorem dropWhileAppend (p : Nat → Bool) (l₁ l₂ : List Nat)
    (h : ∀ x ∈ l₁, p x = true) :
    (l₁ ++ l₂).dropWhile p = l₂.dropWhile p := by
  induction l₁ with
  | nil => simp
  | cons a l ih =>
    simp only [List.cons_append, List.dropWhile_cons,
      h a (List.mem_cons_self _ _)]
    simp [ih (fun x hx => h x (List.mem_cons_of_mem _ hx))]

/-- Helper: takeWhile keeps a list all of whose elements satisfy the
predicate. -/
theorem takeWhileAll (p : Nat → Bool) (l : List Nat)
    (h : ∀ x ∈ l, p x = true) : l.takeWhile p = l :=
  List.takeWhile_eq_self_iff.mpr h

/-- Helper: dropWhile drops a list all of whose elements satisfy the
predicate. -/
theorem dropWhileAll (p : Nat → Bool) (l : List Nat)
    (h : ∀ x ∈ l, p x = true) : l.dropWhile p = [] :=
  List.dropWhile_eq_nil_iff.mpr h

/-- Helper: splitFirstAt at a separator inserted after a clean prefix. -/
theorem splitFirstAtAppend (sep : Nat) (a b : PyStr)
    (h : ∀ x ∈ a, x ≠ sep) :
    splitFirstAt sep (a ++ sep :: b) = (a, b) := by
  unfold splitFirstAt
  rw [takeWhileAppend _ _ _ (fun x hx => by simp [h x hx]),
    dropWhileAppend _ _ _ (fun x hx => by simp [h x hx])]
  simp [List.takeWhile_cons, List.dropWhile_cons]

/-- Helper: findIdx? misses a list none of whose elements satisfy the
predicate. -/
theorem findIdxNoneOfAll (p : Nat → Bool) (l : List Nat)
    (h : ∀ x ∈ l, p x = false) : l.findIdx? p = none := by
  induction l with
  | nil => rfl
  | cons a l ih =>
    rw [List.findIdx?_cons,
      if_neg (by simp [h a (List.mem_cons_self _ _)]), List.findIdx?_succ,
      ih (fun x hx => h x (List.mem_cons_of_mem _ hx))]
    rfl

/-- Helper: findIdx? locates the first element satisfying the predicate
right after a failing prefix. -/
theorem findIdxAppend (p : Nat → Bool) (pre : List Nat) (x : Nat)
    (rest : List Nat) (hpre : ∀ y ∈ pre, p y = false) (hx : p x = true) :
    (pre ++ x :: rest).findIdx? p = some pre.length := by
  induction pre with
  | nil => simp [List.findIdx?_cons, hx]
  | cons a l ih =>
    rw [List.cons_append, List.findIdx?_cons,
      if_neg (by simp [hpre a (List.mem_cons_self _ _)]),
      List.findIdx?_succ,
      ih (fun y hy => hpre y (List.mem_cons_of_mem _ hy))]
    rfl

/-- Helper: what a successful findIdx? means: the index is in range, the
element there satisfies the predicate, everything before fails it. -/
theorem findIdxSomeFacts (p : Nat → Bool) (l : List Nat) (i : Nat)
    (h : l.findIdx? p = some i) :
    i < l.length ∧ p (l.getD i 0) = true ∧ ∀ x ∈ l.take i, p x = false := by
  induction l generalizing i with
  | nil => simp [List.findIdx?] at h
  | cons a l ih =>
    rw [List.findIdx?_cons] at h
    by_cases hpa : p a = true
    · rw [if_pos hpa] at h
      injection h with h
      subst h
      exact ⟨Nat.succ_pos _, by simpa using hpa, by simp⟩
    · rw [if_neg hpa, List.findIdx?_succ] at h
      rcases hmap : l.findIdx? p with _ | j
      · rw [hmap] at h; simp at h
      · rw [hmap] at h
        simp only [Option.map_some'] at h
        obtain rfl : j + 1 = i := Option.some.inj h
        obtain ⟨h1, h2, h3⟩ := ih j hmap
        refine ⟨by simpa using h1, by simpa using h2, ?_⟩
        intro x hx
        rw [List.take_succ_cons] at hx
        rcases List.mem_cons.mp hx with rfl | hx
        · exact Bool.eq_false_iff.mpr hpa
        · exact h3 x hx

/-- Helper: a scheme character is not a colon, slash, question mark,
hash, or an unsafe control character. -/
theorem schemeCharFacts (c : Nat) (h : isSchemeChar c = true) :
    c ≠ 58 ∧ c ≠ 47 ∧ c ≠ 63 ∧ c ≠ 35 ∧ isTabCrLf c = false := by
  simp only [isSchemeChar, Bool.or_eq_true, decide_eq_true_eq,
    beq_iff_eq] at h
  simp only [isTabCrLf, Bool.or_eq_true, beq_iff_eq, ne_eq]
  constructor
  · omega
  constructor
  · omega
  constructor
  · omega
  constructor
  · omega
  · simp only [Bool.or_eq_false_iff, beq_eq_false_iff_ne, ne_eq]
    omega

/-- Helper: a string whose first character is a slash never parses a
scheme, whatever colon-free tail follows it. -/
theorem noSchemeAppOfSlashHead (p : PyStr) (hp : p.take 1 = [47]) :
    NoSchemeApp p := by
  intro tail htail i hfind hcond
  obtain ⟨-, halpha, -⟩ := hcond
  cases p with
  | nil => simp at hp
  | cons a l =>
    have ha : a = 47 := by
      simp only [List.take_succ_cons, List.take_zero] at hp
      exact List.singleton_injective hp
    rw [List.cons_append, List.headD_cons, ha] at halpha
    exact absurd halpha (by decide)

/-- Helper: the failed scheme test of urlsplit transfers to any nonempty
prefix of the split string followed by a colon-free tail. -/
theorem noSchemeAppOfPrefix (path url1 : PyStr)
    (hpre : path <+: url1) (hne : path ≠ [])
    (hfail : ∀ i, url1.findIdx? (· == 58) = some i →
      ¬(0 < i ∧ isAsciiAlpha (url1.headD 0) = true ∧
        (url1.take i).all isSchemeChar = true)) :
    NoSchemeApp path := by
  intro tail htail i hfind hcond
  obtain ⟨hpos, halpha, hscheme⟩ := hcond
  obtain ⟨hilt, hget, hfb⟩ := findIdxSomeFacts _ _ _ hfind
  obtain ⟨rest1, rfl⟩ := hpre
  -- the found colon lies inside path, because the tail is colon-free
  have hipath : i < path.length := by
    by_contra hge
    push_neg at hge
    have htl : i - path.length < tail.length := by
      rw [List.length_append] at hilt
      omega
    have hmem : tail.getD (i - path.length) 0 ∈ tail := by
      rw [List.getD_eq_getElem tail 0 htl]
      exact List.getElem_mem htl
    have : (path ++ tail).getD i 0 = tail.getD (i - path.length) 0 :=
      List.getD_append_right _ _ _ _ hge
    rw [this] at hget
    exact absurd (by simpa using hget) (htail _ hmem)
  -- path decomposes around position i
  have hdecomp : path = path.take i ++ path.getD i 0 :: path.drop (i + 1) := by
    rw [List.getD_eq_getElem path 0 hipath]
    rw [← List.drop_eq_getElem_cons hipath, List.take_append_drop]
  -- the original string finds its first colon at the same index
  have hfb1 : ∀ y ∈ path.take i, (y == 58) = false := by
    intro y hy
    apply hfb
    rw [List.take_append_of_le_length (le_of_lt hipath)]
    exact hy
  have hgetp : ((path.getD i 0 : Nat) == 58) = true := by
    have : (path ++ tail).getD i 0 = path.getD i 0 :=
      List.getD_append _ _ _ _ hipath
    rw [this] at hget
    exact hget
  have hfind1 : (path ++ rest1).findIdx? (· == 58) = some i := by
    conv_lhs => rw [hdecomp]
    rw [List.append_assoc, List.cons_append]
    have := findIdxAppend (· == 58) (path.take i) (path.getD i 0)
      (path.drop (i + 1) ++ rest1) hfb1 hgetp
    rw [this, List.length_take]
    congr 1
    omega
  apply hfail i hfind1
  refine ⟨hpos, ?_, ?_⟩
  · cases path with
    | nil => exact absurd rfl hne
    | cons a l =>
      rw [List.cons_append, List.headD_cons]
      rw [List.cons_append, List.headD_cons] at halpha
      exact halpha
  · rw [List.take_append_of_le_length (le_of_lt hipath)] at hscheme ⊢
    exact hscheme

/-- Helper: a list containing none of a value reports contains false. -/
theorem containsFalseOfAll (l : List Nat) (a : Nat)
    (h : ∀ x ∈ l, x ≠ a) : l.contains a = false := by
  rw [← Bool.not_eq_true]
  intro hc
  exact h a (List.elem_iff.mp hc) rfl

/-- Helper: splitScheme recovers a scheme all of whose characters are
scheme characters, starting with a letter, already lowercase. -/
theorem splitSchemeOfScheme (scheme rest : PyStr) (hne : scheme ≠ [])
    (hall : scheme.all isSchemeChar = true)
    (halpha : isAsciiAlpha (scheme.headD 0) = true)
    (hlow : pyLower scheme = scheme) :
    splitScheme (scheme ++ 58 :: rest) = (scheme, rest) := by
  have hcolon : ∀ y ∈ scheme, ((y == 58) : Bool) = false := fun y hy => by
    have hy58 := (schemeCharFacts y ((List.all_eq_true.mp hall) y hy)).1
    simp [hy58]
  have hfind : (scheme ++ 58 :: rest).findIdx? (· == 58) =
      some scheme.length :=
    findIdxAppend _ _ _ _ hcolon (by simp)
  have htake : (scheme ++ 58 :: rest).take scheme.length = scheme :=
    List.take_left scheme _
  have hdrop : (scheme ++ 58 :: rest).drop (scheme.length + 1) = rest := by
    rw [List.append_cons]
    exact List.drop_left' (by simp)
  have hhead : (scheme ++ 58 :: rest).headD 0 = scheme.headD 0 := by
    cases scheme with
    | nil => exact absurd rfl hne
    | cons a l => rw [List.cons_append, List.headD_cons, List.headD_cons]
  simp only [splitScheme, hfind]
  rw [if_pos ⟨List.length_pos.mpr hne, by rw [hhead]; exact halpha,
    by rw [htake]; exact hall⟩]
  rw [htake, hdrop, hlow]

/-- Helper: splitScheme does nothing when the scheme test fails for
every candidate colon position. -/
theorem splitSchemeNone (m : PyStr)
    (h : ∀ i, m.findIdx? (· == 58) = some i →
      ¬(0 < i ∧ isAsciiAlpha (m.headD 0) = true ∧
        (m.take i).all isSchemeChar = true)) :
    splitScheme m = ([], m) := by
  rcases hf : m.findIdx? (· == 58) with _ | i
  · simp only [splitScheme, hf]
  · simp only [splitScheme, hf]
    rw [if_neg (h i hf)]

/-- Helper: splitNetloc recovers a netloc followed by a rest that is
empty or starts with a netloc-ending character. -/
theorem splitNetlocOfNetloc (netloc rest : PyStr)
    (hall : netloc.all notNetlocEnd = true)
    (hbr : ((netloc.contains 91 && !(netloc.contains 93)) ||
      (netloc.contains 93 && !(netloc.contains 91))) = false)
    (hhead : notNetlocEnd (rest.headD 47) = false) :
    splitNetloc (47 :: 47 :: (netloc ++ rest)) = some (netloc, rest) := by
  have htw : (netloc ++ rest).takeWhile notNetlocEnd = netloc := by
    rw [takeWhileAppend _ _ _ (List.all_eq_true.mp hall)]
    cases rest with
    | nil => simp
    | cons a l =>
      rw [List.headD_cons] at hhead
      rw [List.takeWhile_cons, hhead]
      simp
  have hdw : (netloc ++ rest).dropWhile notNetlocEnd = rest := by
    rw [dropWhileAppend _ _ _ (List.all_eq_true.mp hall)]
    cases rest with
    | nil => simp
    | cons a l =>
      rw [List.headD_cons] at hhead
      rw [List.dropWhile_cons, hhead]
      simp
  simp only [splitNetloc]
  rw [if_pos (by rfl)]
  simp only [List.drop_succ_cons, List.drop_zero, htw, hdw]
  rw [if_neg (by rw [hbr]; exact Bool.false_ne_true)]

/-- Helper: splitNetloc does nothing without the leading double slash. -/
theorem splitNetlocNone (m : PyStr) (h : m.take 2 ≠ [47, 47]) :
    splitNetloc m = some ([], m) := by
  simp only [splitNetloc]
  rw [if_neg (by simp [h])]

/-- Helper: splitFragQuery on a path free of separators followed by an
optional query introduced by a question mark. -/
theorem splitFragQueryClean (path Q : PyStr)
    (hp : ∀ c ∈ path, c ≠ 63 ∧ c ≠ 35)
    (hq : ∀ c ∈ Q, c ≠ 63 ∧ c ≠ 35) :
    splitFragQuery (path ++ if Q = [] then [] else 63 :: Q) =
      (path, Q, []) := by
  by_cases hQ : Q = []
  · subst hQ
    rw [if_pos rfl, List.append_nil]
    simp only [splitFragQuery]
    rw [containsFalseOfAll _ _ (fun x hx => (hp x hx).2)]
    simp only [Bool.false_eq_true, if_false]
    rw [containsFalseOfAll _ _ (fun x hx => (hp x hx).1)]
    simp
  · rw [if_neg hQ]
    simp only [splitFragQuery]
    have h35 : (path ++ 63 :: Q).contains 35 = false := by
      apply containsFalseOfAll
      intro x hx
      rcases List.mem_append.mp hx with hx | hx
      · exact (hp x hx).2
      · rcases List.mem_cons.mp hx with rfl | hx
        · omega
        · exact (hq x hx).2
    rw [h35]
    simp only [Bool.false_eq_true, if_false]
    have h63 : (path ++ 63 :: Q).contains 63 = true :=
      List.elem_iff.mpr (List.mem_append_right _ (List.mem_cons_self _ _))
    rw [h63]
    simp only [if_true]
    rw [splitFirstAtAppend _ _ _ (fun x hx => (hp x hx).1)]

/-- Helper: ASCII lowering keeps scheme characters scheme characters. -/
theorem pyLowerSchemeAll (l : PyStr) (h : l.all isSchemeChar = true) :
    (pyLower l).all isSchemeChar = true := by
  rw [List.all_eq_true] at h ⊢
  intro x hx
  rcases List.mem_map.mp hx with ⟨c, hc, rfl⟩
  have hcs := h c hc
  simp only [isSchemeChar, Bool.or_eq_true, decide_eq_true_eq,
    beq_iff_eq] at hcs ⊢
  split
  · omega
  · omega

/-- Helper: ASCII lowering keeps an initial letter a letter. -/
theorem pyLowerAlphaHead (l : PyStr) (hne : l ≠ [])
    (h : isAsciiAlpha (l.headD 0) = true) :
    isAsciiAlpha ((pyLower l).headD 0) = true := by
  cases l with
  | nil => exact absurd rfl hne
  | cons a t =>
    rw [List.headD_cons] at h
    simp only [pyLower, List.map_cons, List.headD_cons]
    simp only [isAsciiAlpha, Bool.or_eq_true, decide_eq_true_eq] at h ⊢
    split
    · omega
    · omega

/-- Helper: ASCII lowering is idempotent. -/
theorem pyLowerIdem (s : PyStr) : pyLower (pyLower s) = pyLower s := by
  unfold pyLower
  rw [List.map_map]
  apply List.map_congr_left
  intro a _
  simp only [Function.comp_apply]
  by_cases h : 65 ≤ a ∧ a ≤ 90
  · simp only [if_pos h]
    rw [if_neg (by omega : ¬(65 ≤ a + 32 ∧ a + 32 ≤ 90))]
  · simp only [if_neg h]

/-- Helper: the two possible outcomes of splitScheme, with the scheme
test information each carries. -/
theorem splitSchemeCases (m : PyStr) :
    (splitScheme m = ([], m) ∧
      (∀ i, m.findIdx? (· == 58) = some i →
        ¬(0 < i ∧ isAsciiAlpha (m.headD 0) = true ∧
          (m.take i).all isSchemeChar = true))) ∨
    (∃ i, m.findIdx? (· == 58) = some i ∧
      0 < i ∧ isAsciiAlpha (m.headD 0) = true ∧
      (m.take i).all isSchemeChar = true ∧
      splitScheme m = (pyLower (m.take i), m.drop (i + 1))) := by
  unfold splitScheme
  rcases hf : m.findIdx? (· == 58) with _ | i
  · left
    constructor
    · rfl
    · intro i hi
      cases hi
  · by_cases hc : 0 < i ∧ isAsciiAlpha (m.headD 0) = true ∧
        (m.take i).all isSchemeChar = true
    · right
      refine ⟨i, rfl, hc.1, hc.2.1, hc.2.2, ?_⟩
      exact if_pos hc
    · left
      constructor
      · exact if_neg hc
      · intro j hj
        injection hj with hj
        subst hj
        exact hc

/-- Helper: the two possible outcomes of a successful splitNetloc. -/
theorem splitNetlocCases (m : PyStr) (nl : PyStr × PyStr)
    (h : splitNetloc m = some nl) :
    (m.take 2 = [47, 47] ∧
      nl.1 = (m.drop 2).takeWhile notNetlocEnd ∧
      nl.2 = (m.drop 2).dropWhile notNetlocEnd ∧
      ((nl.1.contains 91 && !(nl.1.contains 93)) ||
        (nl.1.contains 93 && !(nl.1.contains 91))) = false) ∨
    (m.take 2 ≠ [47, 47] ∧ nl = ([], m)) := by
  by_cases h2 : (m.take 2 == [47, 47]) = true
  · left
    simp only [splitNetloc, if_pos h2] at h
    by_cases hbr : (((m.drop 2).takeWhile notNetlocEnd).contains 91 &&
        !(((m.drop 2).takeWhile notNetlocEnd).contains 93) ||
        ((m.drop 2).takeWhile notNetlocEnd).contains 93 &&
        !(((m.drop 2).takeWhile notNetlocEnd).contains 91)) = true
    · rw [if_pos hbr] at h
      cases h
    · rw [if_neg hbr] at h
      injection h with h
      subst h
      exact ⟨by simpa using h2, rfl, rfl, by simpa using hbr⟩
  · right
    simp only [splitNetloc, if_neg h2] at h
    injection h with h
    subst h
    exact ⟨by simpa using h2, rfl⟩

/-- Helper: the path of splitFragQuery is a separator-free prefix of the
input, and the query is made of input characters. -/
theorem splitFragQueryFacts (m : PyStr) :
    (splitFragQuery m).1.all (fun c => !(c == 63 || c == 35)) = true ∧
    (splitFragQuery m).1 <+: m ∧
    List.Sublist (splitFragQuery m).2.1 m := by
  simp only [splitFragQuery]
  by_cases h35 : m.contains 35 = true
  · rw [if_pos h35]
    by_cases h63 : ((splitFirstAt 35 m).1.contains 63) = true
    · rw [if_pos h63]
      refine ⟨?_, ?_, ?_⟩
      · rw [List.all_eq_true]
        intro x hx
        have hx63 := List.mem_takeWhile_imp hx
        have hx35 := List.mem_takeWhile_imp ((List.takeWhile_prefix _).sublist.mem hx)
        simp only [bne_iff_ne, ne_eq] at hx63 hx35
        simp [hx63, hx35]
      · exact (List.takeWhile_prefix _).trans (List.takeWhile_prefix _)
      · apply List.Sublist.trans (List.drop_sublist _ _)
        apply List.Sublist.trans (List.dropWhile_sublist _)
        exact (List.takeWhile_prefix _).sublist
    · rw [if_neg h63]
      refine ⟨?_, (List.takeWhile_prefix _), List.nil_sublist m⟩
      rw [List.all_eq_true]
      intro x hx
      have hx35 := List.mem_takeWhile_imp hx
      have hx63 : x ≠ 63 := by
        intro hxe
        subst hxe
        exact h63 (List.elem_iff.mpr hx)
      simp only [bne_iff_ne, ne_eq] at hx35
      simp [hx63, hx35]
  · rw [if_neg h35]
    have hno35 : ∀ x ∈ m, x ≠ 35 := by
      intro x hx hxe
      subst hxe
      exact h35 (List.elem_iff.mpr hx)
    by_cases h63 : (m.contains 63) = true
    · rw [if_pos h63]
      refine ⟨?_, (List.takeWhile_prefix _), ?_⟩
      · rw [List.all_eq_true]
        intro x hx
        have hx63 := List.mem_takeWhile_imp hx
        have hx35 := hno35 x ((List.takeWhile_prefix _).sublist.mem hx)
        simp only [bne_iff_ne, ne_eq] at hx63
        simp [hx63, hx35]
      · exact List.Sublist.trans (List.drop_sublist _ _)
          (List.dropWhile_sublist _)
    · rw [if_neg h63]
      refine ⟨?_, List.prefix_refl m, List.nil_sublist m⟩
      rw [List.all_eq_true]
      intro x hx
      have hx63 : x ≠ 63 := by
        intro hxe
        subst hxe
        exact h63 (List.elem_iff.mpr hx)
      simp [hx63, hno35 x hx]

/-- Helper: the head of the remainder of dropWhile fails the predicate. -/
theorem dropWhileHeadFalse (p : Nat → Bool) (l : List Nat) (c : Nat)
    (t : List Nat) (h : l.dropWhile p = c :: t) : p c = false := by
  induction l with
  | nil => cases h
  | cons a l ih =>
    rw [List.dropWhile_cons] at h
    by_cases hpa : p a = true
    · rw [if_pos hpa] at h
      exact ih h
    · rw [if_neg hpa] at h
      injection h with h1 h2
      subst h1
      exact Bool.eq_false_iff.mpr hpa

/-- Helper: every invariant of UrlFacts holds of a successful urlsplit,
and the query characters all come from the input URL. -/
theorem urlsplit_facts (u : PyStr) (su : SplitUrl)
    (h : urlsplit u = some su) :
    UrlFacts su ∧ ∀ c ∈ su.query, c ∈ u := by
  have hctl : ∀ x ∈ removeUnsafe u, isTabCrLf x = false := by
    intro x hx
    have hp := (List.mem_filter.mp hx).2
    simpa using hp
  have hmemu : ∀ c ∈ removeUnsafe u, c ∈ u := fun c hc =>
    (List.filter_sublist _).mem hc
  simp only [urlsplit] at h
  rcases hnl : splitNetloc (splitScheme (removeUnsafe u)).2 with _ | nl
  · rw [hnl] at h
    cases h
  · rw [hnl] at h
    injection h with h
    obtain ⟨s1, s2, s3, s4, s5⟩ := su
    injection h with h1 h2 h3 h4 h5
    subst h1
    subst h2
    subst h3
    subst h4
    subst h5
    obtain ⟨hall6, hpathpre, hquerysub⟩ :=
      splitFragQueryFacts nl.2
    have hm2sub : List.Sublist (splitScheme (removeUnsafe u)).2
        (removeUnsafe u) := by
      rcases splitSchemeCases (removeUnsafe u) with ⟨heq, -⟩ |
        ⟨i, -, -, -, -, heq⟩
      · rw [heq]
      · rw [heq]
        exact List.drop_sublist _ _
    have hnl2sub : List.Sublist nl.2 (splitScheme (removeUnsafe u)).2 := by
      rcases splitNetlocCases _ nl hnl with ⟨-, -, h2eq, -⟩ | ⟨-, heq⟩
      · rw [h2eq]
        exact (List.dropWhile_sublist _).trans (List.drop_sublist _ _)
      · rw [heq]
    refine ⟨⟨?_, ?_, ?_, ?_, ?_, ?_, ?_, ?_, ?_⟩, ?_⟩
    · -- scheme characters
      rcases splitSchemeCases (removeUnsafe u) with ⟨heq, -⟩ |
        ⟨i, -, -, -, hallsc, heq⟩
      · rw [heq]
        rfl
      · rw [heq]
        exact pyLowerSchemeAll _ hallsc
    · -- initial letter
      rcases splitSchemeCases (removeUnsafe u) with ⟨heq, -⟩ |
        ⟨i, hfi, hpos, halpha, -, heq⟩
      · rw [heq]
        intro hne
        exact absurd rfl hne
      · rw [heq]
        intro hne
        obtain ⟨hilt, -, -⟩ := findIdxSomeFacts _ _ _ hfi
        have hu1ne : removeUnsafe u ≠ [] := by
          intro he
          rw [he] at hilt
          simp at hilt
        have htne : (removeUnsafe u).take i ≠ [] := by
          cases hc : removeUnsafe u with
          | nil => exact absurd hc hu1ne
          | cons a t =>
            cases i with
            | zero => omega
            | succ j => simp [hc, List.take_succ_cons]
        apply pyLowerAlphaHead _ htne
        cases hc : removeUnsafe u with
        | nil => exact absurd hc hu1ne
        | cons a t =>
          rw [hc] at halpha
          cases i with
          | zero => omega
          | succ j =>
            rw [List.take_succ_cons, List.headD_cons]
            rw [List.headD_cons] at halpha
            exact halpha
    · -- lowercase scheme
      rcases splitSchemeCases (removeUnsafe u) with ⟨heq, -⟩ |
        ⟨i, -, -, -, -, heq⟩
      · rw [heq]
        rfl
      · rw [heq]
        exact pyLowerIdem _
    · -- netloc free of terminators
      rcases splitNetlocCases _ nl hnl with ⟨-, h1eq, -, -⟩ | ⟨-, heq⟩
      · rw [h1eq]
        rw [List.all_eq_true]
        intro x hx
        exact List.mem_takeWhile_imp hx
      · rw [heq]
        rfl
    · -- balanced brackets
      rcases splitNetlocCases _ nl hnl with ⟨-, -, -, hbr⟩ | ⟨-, heq⟩
      · exact hbr
      · rw [heq]
        rfl
    · -- path free of separators
      exact hall6
    · -- netloc and path free of removed characters
      rw [List.all_eq_true]
      intro x hx
      rcases List.mem_append.mp hx with hx | hx
      · have hxu : x ∈ removeUnsafe u := by
          rcases splitNetlocCases _ nl hnl with ⟨-, h1eq, -, -⟩ | ⟨-, heq⟩
          · rw [h1eq] at hx
            exact hm2sub.mem
              (((List.takeWhile_sublist _).trans (List.drop_sublist _ _)).mem hx)
          · rw [heq] at hx
            simp at hx
        simp [hctl x hxu]
      · have hxu : x ∈ removeUnsafe u :=
          hm2sub.mem (hnl2sub.mem (hpathpre.sublist.mem hx))
        simp [hctl x hxu]
    · -- netloc present forces a slash-led or empty path
      intro hne
      rcases splitNetlocCases _ nl hnl with ⟨-, -, h2eq, -⟩ | ⟨-, heq⟩
      · rcases hp : (splitFragQuery nl.2).1 with _ | ⟨p0, prest⟩
        · exact Or.inl rfl
        · right
          rcases hcons : nl.2 with _ | ⟨c, t⟩
          · rw [hcons] at hp
            cases hp
          · have hc : notNetlocEnd c = false := by
              apply dropWhileHeadFalse notNetlocEnd
                (((splitScheme (removeUnsafe u)).2).drop 2)
              rw [← h2eq]
              exact hcons
            have hc3 : c = 47 ∨ c = 63 ∨ c = 35 := by
              simp only [notNetlocEnd, Bool.not_eq_false',
                Bool.or_eq_true, beq_iff_eq] at hc
              tauto
            have hpre2 := hpathpre
            rw [hp, hcons] at hpre2
            have hp0 : p0 = c := (List.cons_prefix_cons.mp hpre2).1
            have hmem : p0 ∈ (splitFragQuery nl.2).1 := by
              rw [hp]
              exact List.mem_cons_self _ _
            have hppred := (List.all_eq_true.mp hall6) p0 hmem
            rcases hc3 with rfl | rfl | rfl
            · rw [List.take_succ_cons, List.take_zero, hp0]
            · rw [hp0] at hppred
              simp at hppred
            · rw [hp0] at hppred
              simp at hppred
      · rw [heq] at hne
        exact absurd rfl hne
    · -- empty scheme and netloc leave no scheme parse in the path
      intro hs hn
      rcases splitSchemeCases (removeUnsafe u) with ⟨heqs, hfail⟩ |
        ⟨i, hfi, hpos, -, -, heqs⟩
      · rcases splitNetlocCases _ nl hnl with ⟨-, -, h2eq, -⟩ | ⟨-, heqn⟩
        · -- double-slash branch: the path is empty or slash-led
          rcases hp : (splitFragQuery nl.2).1 with _ | ⟨p0, prest⟩
          · rw [if_pos rfl]
            exact noSchemeAppOfSlashHead _ rfl
          · rw [if_neg (List.cons_ne_nil _ _)]
            rcases hcons : nl.2 with _ | ⟨c, t⟩
            · rw [hcons] at hp
              cases hp
            · have hc : notNetlocEnd c = false := by
                apply dropWhileHeadFalse notNetlocEnd
                  (((splitScheme (removeUnsafe u)).2).drop 2)
                rw [← h2eq]
                exact hcons
              have hc3 : c = 47 ∨ c = 63 ∨ c = 35 := by
                simp only [notNetlocEnd, Bool.not_eq_false',
                  Bool.or_eq_true, beq_iff_eq] at hc
                tauto
              have hpre2 := hpathpre
              rw [hp, hcons] at hpre2
              have hp0 : p0 = c := (List.cons_prefix_cons.mp hpre2).1
              have hmem : p0 ∈ (splitFragQuery nl.2).1 := by
                rw [hp]
                exact List.mem_cons_self _ _
              have hppred := (List.all_eq_true.mp hall6) p0 hmem
              rcases hc3 with rfl | rfl | rfl
              · apply noSchemeAppOfSlashHead
                rw [List.take_succ_cons, List.take_zero, hp0]
              · rw [hp0] at hppred
                simp at hppred
              · rw [hp0] at hppred
                simp at hppred
        · -- no netloc: transfer the failed scheme test
          rcases hp : (splitFragQuery nl.2).1 with _ | ⟨p0, prest⟩
          · rw [if_pos rfl]
            exact noSchemeAppOfSlashHead _ rfl
          · rw [if_neg (List.cons_ne_nil _ _)]
            have hnl2e : nl.2 = removeUnsafe u := by
              rw [heqn, heqs]
            have hprefix : p0 :: prest <+: removeUnsafe u := by
              rw [← hp, ← hnl2e]
              exact hpathpre
            exact noSchemeAppOfPrefix _ _ hprefix (List.cons_ne_nil _ _) hfail
      · -- a parsed scheme cannot be empty
        exfalso
        rw [heqs] at hs
        obtain ⟨hilt, -, -⟩ := findIdxSomeFacts _ _ _ hfi
        have htake : (removeUnsafe u).take i = [] := by
          simpa [pyLower] using hs
        rw [List.take_eq_nil_iff] at htake
        rcases htake with htake | htake
        · omega
        · rw [htake] at hilt
          simp at hilt
    · -- query characters come from the URL
      intro c hc
      exact hmemu c (hm2sub.mem (hnl2sub.mem (hquerysub.mem hc)))

/-- Helper: re-splitting the unsplit page URL, with an optional appended
query, restores the scheme, netloc, normalized path and query exactly. -/
theorem urlsplit_unsplit (su : SplitUrl) (hfa : UrlFacts su) (Q : PyStr)
    (hQ : ∀ c ∈ Q, c ≠ 63 ∧ c ≠ 35 ∧ c ≠ 58 ∧ isTabCrLf c = false) :
    urlsplit (urlunsplit su.scheme su.netloc
        (if su.path = [] then pys "/" else su.path) [] [] ++
      (if Q = [] then [] else 63 :: Q)) =
      some ⟨su.scheme, su.netloc,
        if su.path = [] then pys "/" else su.path, Q, []⟩ := by
  obtain ⟨hf1, hf2, hf3, hf4, hf5, hf6, hf7, hf8, hf9⟩ := hfa
  have hpys : pys "/" = [47] := rfl
  obtain ⟨p1, hp1⟩ : ∃ p, p = (if su.path = [] then pys "/" else su.path) :=
    ⟨_, rfl⟩
  obtain ⟨qt, hqt⟩ : ∃ q, q = (if Q = [] then ([] : PyStr) else 63 :: Q) :=
    ⟨_, rfl⟩
  rw [← hp1, ← hqt]
  have hpne : p1 ≠ [] := by
    rw [hp1]
    by_cases hsp : su.path = []
    · rw [if_pos hsp, hpys]
      decide
    · rw [if_neg hsp]
      exact hsp
  have hp1no : ∀ c ∈ p1, c ≠ 63 ∧ c ≠ 35 := by
    rw [hp1]
    by_cases hsp : su.path = []
    · rw [if_pos hsp, hpys]
      intro c hc
      have hc47 : c = 47 := by simpa using hc
      subst hc47
      exact ⟨by decide, by decide⟩
    · rw [if_neg hsp]
      intro c hc
      have hcc := (List.all_eq_true.mp hf6) c hc
      simp only [Bool.not_eq_true', Bool.or_eq_false_iff,
        beq_eq_false_iff_ne, ne_eq] at hcc
      exact hcc
  have hp1ctl : ∀ c ∈ p1, isTabCrLf c = false := by
    rw [hp1]
    by_cases hsp : su.path = []
    · rw [if_pos hsp, hpys]
      intro c hc
      have hc47 : c = 47 := by simpa using hc
      subst hc47
      decide
    · rw [if_neg hsp]
      intro c hc
      have hcc := (List.all_eq_true.mp hf7) c (List.mem_append_right _ hc)
      simpa using hcc
  have hqtcolon : ∀ c ∈ qt, c ≠ 58 := by
    rw [hqt]
    by_cases hq0 : Q = []
    · rw [if_pos hq0]
      intro c hc
      cases hc
    · rw [if_neg hq0]
      intro c hc
      rcases List.mem_cons.mp hc with rfl | hc
      · omega
      · exact (hQ c hc).2.2.1
  have hqtctl : ∀ c ∈ qt, isTabCrLf c = false := by
    rw [hqt]
    by_cases hq0 : Q = []
    · rw [if_pos hq0]
      intro c hc
      cases hc
    · rw [if_neg hq0]
      intro c hc
      rcases List.mem_cons.mp hc with rfl | hc
      · decide
      · exact (hQ c hc).2.2.2
  have hschemectl : ∀ c ∈ su.scheme, isTabCrLf c = false := fun c hc =>
    (schemeCharFacts c ((List.all_eq_true.mp hf1) c hc)).2.2.2.2
  have hnetctl : ∀ c ∈ su.netloc, isTabCrLf c = false := fun c hc => by
    have hcc := (List.all_eq_true.mp hf7) c (List.mem_append_left _ hc)
    simpa using hcc
  have hctlU : ∀ c ∈ urlunsplit su.scheme su.netloc p1 [] [],
      isTabCrLf c = false := by
    have hbody : ∀ c ∈ (if su.netloc ≠ [] ∨ (p1 ≠ [] ∧ p1.take 2 = [47, 47])
        then [47, 47] ++ su.netloc ++
          (if p1 ≠ [] ∧ p1.take 1 ≠ [47] then 47 :: p1 else p1)
        else p1), isTabCrLf c = false := by
      intro c hc
      by_cases hCc : su.netloc ≠ [] ∨ (p1 ≠ [] ∧ p1.take 2 = [47, 47])
      · rw [if_pos hCc] at hc
        rcases List.mem_append.mp hc with hc | hc
        · rcases List.mem_append.mp hc with hc | hc
          · rcases (by simpa using hc : c = 47 ∨ c = 47) with rfl | rfl <;>
              decide
          · exact hnetctl c hc
        · by_cases hin : p1 ≠ [] ∧ p1.take 1 ≠ [47]
          · rw [if_pos hin] at hc
            rcases List.mem_cons.mp hc with rfl | hc
            · decide
            · exact hp1ctl c hc
          · rw [if_neg hin] at hc
            exact hp1ctl c hc
      · rw [if_neg hCc] at hc
        exact hp1ctl c hc
    intro c hc
    simp only [urlunsplit] at hc
    rw [if_neg (by simp : ¬(([] : PyStr) ≠ []))] at hc
    rw [if_neg (by simp : ¬(([] : PyStr) ≠ []))] at hc
    by_cases hs : su.scheme = []
    · rw [if_neg (fun hh => hh hs)] at hc
      exact hbody c hc
    · rw [if_pos hs] at hc
      rcases List.mem_append.mp hc with hc | hc
      · exact hschemectl c hc
      · rcases List.mem_cons.mp hc with rfl | hc
        · decide
        · exact hbody c hc
  have hrem : removeUnsafe (urlunsplit su.scheme su.netloc p1 [] [] ++ qt) =
      urlunsplit su.scheme su.netloc p1 [] [] ++ qt := by
    apply List.filter_eq_self.mpr
    intro a ha
    rcases List.mem_append.mp ha with ha | ha
    · simp [hctlU a ha]
    · simp [hqtctl a ha]
  have hfq : splitFragQuery (p1 ++ qt) = (p1, Q, []) := by
    rw [hqt]
    exact splitFragQueryClean p1 Q hp1no
      (fun c hc => ⟨(hQ c hc).1, (hQ c hc).2.1⟩)
  by_cases hC : su.netloc ≠ [] ∨ (p1 ≠ [] ∧ p1.take 2 = [47, 47])
  · -- the double-slash form
    have h1 : p1.take 1 = [47] := by
      rcases hC with hC | hC
      · rcases hf8 hC with hsp | hsp
        · rw [hp1, if_pos hsp, hpys]
          decide
        · have hspne : su.path ≠ [] := by
            intro he
            rw [he] at hsp
            cases hsp
          rw [hp1, if_neg hspne]
          exact hsp
      · obtain ⟨-, h2⟩ := hC
        cases hpc : p1 with
        | nil => exact absurd hpc hpne
        | cons a t =>
          rw [hpc] at h2
          injection h2 with h2a h2b
          rw [h2a]
          rfl
    obtain ⟨t1, hp1c⟩ : ∃ t, p1 = 47 :: t := by
      cases hpc : p1 with
      | nil => exact absurd hpc hpne
      | cons a t =>
        rw [hpc] at h1
        injection h1 with h1a h1b
        exact ⟨t, by rw [h1a]⟩
    have hinner : ¬(p1 ≠ [] ∧ p1.take 1 ≠ [47]) := by
      intro hcc
      exact hcc.2 h1
    have hU : urlunsplit su.scheme su.netloc p1 [] [] =
        if su.scheme ≠ [] then
          su.scheme ++ 58 :: ([47, 47] ++ su.netloc ++ p1)
        else [47, 47] ++ su.netloc ++ p1 := by
      simp only [urlunsplit]
      rw [if_pos hC, if_neg hinner]
      simp
    have hsch : splitScheme (urlunsplit su.scheme su.netloc p1 [] [] ++ qt) =
        (su.scheme, [47, 47] ++ su.netloc ++ p1 ++ qt) := by
      rw [hU]
      by_cases hs : su.scheme = []
      · rw [if_neg (fun hh => hh hs), hs]
        apply splitSchemeNone
        intro i hfind hcond
        obtain ⟨-, halpha, -⟩ := hcond
        rw [show ([47, 47] ++ su.netloc ++ p1) ++ qt =
          47 :: 47 :: (su.netloc ++ p1 ++ qt) from by simp] at halpha
        rw [List.headD_cons] at halpha
        exact absurd halpha (by decide)
      · rw [if_pos hs, show (su.scheme ++ 58 :: ([47, 47] ++ su.netloc ++ p1))
          ++ qt = su.scheme ++ 58 :: (([47, 47] ++ su.netloc ++ p1) ++ qt)
          from by simp]
        rw [splitSchemeOfScheme _ _ hs hf1 (hf2 hs) hf3]
    have hnet : splitNetloc ([47, 47] ++ su.netloc ++ p1 ++ qt) =
        some (su.netloc, p1 ++ qt) := by
      rw [show ([47, 47] : PyStr) ++ su.netloc ++ p1 ++ qt =
        47 :: 47 :: (su.netloc ++ (p1 ++ qt)) from by simp]
      apply splitNetlocOfNetloc _ _ hf4 hf5
      rw [hp1c, List.cons_append, List.headD_cons]
      decide
    simp only [urlsplit, hrem, hsch, hnet, hfq]
  · -- the plain form
    have hnet0 : su.netloc = [] := by
      by_contra hnn
      exact hC (Or.inl hnn)
    have htake2 : p1.take 2 ≠ [47, 47] := by
      intro he
      exact hC (Or.inr ⟨hpne, he⟩)
    have hU : urlunsplit su.scheme su.netloc p1 [] [] =
        if su.scheme ≠ [] then su.scheme ++ 58 :: p1 else p1 := by
      simp only [urlunsplit]
      rw [if_neg hC]
      simp
    have htk2q : (p1 ++ qt).take 2 ≠ [47, 47] := by
      cases hpc : p1 with
      | nil => exact absurd hpc hpne
      | cons a t =>
        cases t with
        | nil =>
          rw [hqt]
          by_cases hq0 : Q = []
          · rw [if_pos hq0]
            intro he
            injection he with he1 he2
            simp at he2
          · rw [if_neg hq0]
            intro he
            injection he with he1 he2
            injection he2 with he2 he3
            omega
        | cons b t2 =>
          intro he
          injection he with he1 he2
          injection he2 with he2 he3
          rw [hpc, he1, he2] at htake2
          exact htake2 rfl
    have hsch : splitScheme (urlunsplit su.scheme su.netloc p1 [] [] ++ qt) =
        (su.scheme, p1 ++ qt) := by
      rw [hU]
      by_cases hs : su.scheme = []
      · rw [if_neg (fun hh => hh hs), hs]
        apply splitSchemeNone
        have hns := hf9 hs hnet0
        have hpeq : (if su.path = [] then ([47] : PyStr) else su.path) = p1 := by
          rw [hp1]
          by_cases hsp : su.path = []
          · rw [if_pos hsp, if_pos hsp, hpys]
          · rw [if_neg hsp, if_neg hsp]
        rw [hpeq] at hns
        exact hns qt hqtcolon
      · rw [if_pos hs, show (su.scheme ++ 58 :: p1) ++ qt =
          su.scheme ++ 58 :: (p1 ++ qt) from by simp]
        exact splitSchemeOfScheme _ _ hs hf1 (hf2 hs) hf3
    have hnet : splitNetloc (p1 ++ qt) = some ([], p1 ++ qt) :=
      splitNetlocNone _ htk2q
    rw [hnet0] at hsch hrem ⊢
    simp only [urlsplit, hrem, hsch, hnet, hfq]

/-- Helper: the uppercase hex digit of a value below sixteen decodes
back to that value. -/
theorem hexDigitVal_hexUpper (n : Nat) (h : n < 16) :
    hexDigitVal (hexUpper n) = some n := by
  unfold hexDigitVal hexUpper
  by_cases h10 : n < 10
  · rw [if_pos h10, if_pos (by omega)]
    congr 1
    omega
  · rw [if_neg h10, if_neg (by omega), if_pos (by omega)]
    congr 1
    omega

/-- Helper: the utf-8 bytes of a code point below the Unicode bound are
bytes. -/
theorem utf8EncodeChar_lt256 (c : Nat) (h : c < 1114112) :
    ∀ b ∈ utf8EncodeChar c, b < 256 := by
  intro b hb
  simp only [utf8EncodeChar] at hb
  by_cases h1 : c < 128
  · rw [if_pos h1] at hb
    simp at hb
    omega
  · rw [if_neg h1] at hb
    by_cases h2 : c < 2048
    · rw [if_pos h2] at hb
      simp at hb
      rcases hb with rfl | rfl <;> omega
    · rw [if_neg h2] at hb
      by_cases h3 : c < 65536
      · rw [if_pos h3] at hb
        simp at hb
        rcases hb with rfl | rfl | rfl <;> omega
      · rw [if_neg h3] at hb
        simp at hb
        rcases hb with rfl | rfl | rfl | rfl <;> omega

/-- Helper: a byte below 128 in utf-8 output encodes exactly itself. -/
theorem utf8EncodeChar_ascii (c b : Nat) (hb : b ∈ utf8EncodeChar c)
    (hlt : b < 128) : c = b := by
  simp only [utf8EncodeChar] at hb
  by_cases h1 : c < 128
  · rw [if_pos h1] at hb
    simp at hb
    omega
  · rw [if_neg h1] at hb
    by_cases h2 : c < 2048
    · rw [if_pos h2] at hb
      simp at hb
      rcases hb with rfl | rfl <;> omega
    · rw [if_neg h2] at hb
      by_cases h3 : c < 65536
      · rw [if_pos h3] at hb
        simp at hb
        rcases hb with rfl | rfl | rfl <;> omega
      · rw [if_neg h3] at hb
        simp at hb
        rcases hb with rfl | rfl | rfl | rfl <;> omega

/-- Helper: unquote on a character other than the percent sign. -/
theorem unquote_to_bytes_cons_other (c : Nat) (rest : PyStr)
    (h : (c == 37) = false) :
    unquote_to_bytes (c :: rest) = c :: unquote_to_bytes rest := by
  rw [unquote_to_bytes.eq_def]
  simp [h]

/-- Helper: unquote on a percent escape with two hex digits. -/
theorem unquote_to_bytes_cons_escape (a b : Nat) (va vb : Nat) (r : PyStr)
    (ha : hexDigitVal a = some va) (hb : hexDigitVal b = some vb) :
    unquote_to_bytes (37 :: a :: b :: r) =
      (16 * va + vb) :: unquote_to_bytes r := by
  rw [unquote_to_bytes.eq_def]
  simp [ha, hb]

/-- Helper: percent-unquoting inverts byte quoting with space kept
safe. -/
theorem unquote_quoteBytes (bs : List Nat) (h : ∀ b ∈ bs, b < 256) :
    unquote_to_bytes (quoteBytes [32] bs) = bs := by
  induction bs with
  | nil =>
    rw [show quoteBytes [32] ([] : List Nat) = [] from rfl,
      unquote_to_bytes.eq_def]
  | cons b rest ih =>
    have hb := h b (List.mem_cons_self _ _)
    have ih2 := ih (fun x hx => h x (List.mem_cons_of_mem _ hx))
    show unquote_to_bytes ((if isAlwaysSafe b || [32].contains b then [b]
      else [37, hexUpper (b / 16), hexUpper (b % 16)]) ++
      quoteBytes [32] rest) = b :: rest
    by_cases hk : (isAlwaysSafe b || [32].contains b) = true
    · rw [if_pos hk, List.singleton_append]
      have hb37 : (b == 37) = false := by
        have hne : b ≠ 37 := by
          intro he
          subst he
          exact absurd hk (by decide)
        simp [hne]
      rw [unquote_to_bytes_cons_other _ _ hb37, ih2]
    · rw [if_neg hk]
      rw [show ([37, hexUpper (b / 16), hexUpper (b % 16)] ++
        quoteBytes [32] rest) = 37 :: hexUpper (b / 16) ::
        hexUpper (b % 16) :: quoteBytes [32] rest from rfl]
      rw [unquote_to_bytes_cons_escape _ _ (b / 16) (b % 16) _
        (hexDigitVal_hexUpper _ (by omega)) (hexDigitVal_hexUpper _ (by omega))]
      rw [ih2]
      congr 1
      omega

/-- Helper: decoding after encoding one valid scalar yields the scalar
back and continues with the remaining bytes. -/
theorem utf8DecodeEncodeChar (c : Nat) (h : validScalar c)
    (rest : List Nat) :
    utf8DecodeReplace (utf8EncodeChar c ++ rest) =
      c :: utf8DecodeReplace rest := by
  have hlt : c < 1114112 := by
    rcases h with h | h <;> omega
  by_cases h1 : c < 128
  · rw [show utf8EncodeChar c = [c] from by
      rw [utf8EncodeChar, if_pos h1]]
    rw [List.singleton_append, utf8DecodeReplace.eq_def]
    simp [h1]
  · by_cases h2 : c < 2048
    · rw [show utf8EncodeChar c = [192 + c / 64, 128 + c % 64] from by
        rw [utf8EncodeChar, if_neg h1, if_pos h2]]
      rw [List.cons_append, List.cons_append, List.nil_append,
        utf8DecodeReplace.eq_def]
      have e1 : ¬(192 + c / 64 < 128) := by omega
      have e2 : 194 ≤ 192 + c / 64 ∧ 192 + c / 64 ≤ 223 := by omega
      have e3 : isUtf8Cont (128 + c % 64) = true := by
        simp only [isUtf8Cont, decide_eq_true_eq]
        omega
      simp only [e1, e2, e3, if_true, if_false, and_self,
        iff_true, eq_self_iff_true, not_false_iff]
      simp [e1, e2, e3]
      congr 1
      omega
    · by_cases h3 : c < 65536
      · rw [show utf8EncodeChar c =
          [224 + c / 4096, 128 + c / 64 % 64, 128 + c % 64] from by
          rw [utf8EncodeChar, if_neg h1, if_neg h2, if_pos h3]]
        rw [List.cons_append, List.cons_append, List.cons_append,
          List.nil_append, utf8DecodeReplace.eq_def]
        have e1 : ¬(224 + c / 4096 < 128) := by omega
        have e2 : ¬(194 ≤ 224 + c / 4096 ∧ 224 + c / 4096 ≤ 223) := by omega
        have e3 : 224 ≤ 224 + c / 4096 ∧ 224 + c / 4096 ≤ 239 := by omega
        have e4 : utf8Cont3First (224 + c / 4096) (128 + c / 64 % 64) =
            true := by
          simp only [utf8Cont3First]
          by_cases hb1 : c < 4096
          · rw [if_pos (by rw [beq_iff_eq]; omega :
              ((224 + c / 4096 == 224) : Bool) = true)]
            rw [decide_eq_true_eq]
            omega
          · rw [if_neg (by simp only [beq_iff_eq]; omega :
              ¬(((224 + c / 4096 == 224) : Bool) = true))]
            by_cases hb2 : 53248 ≤ c ∧ c < 57344
            · rw [if_pos (by rw [beq_iff_eq]; omega :
                ((224 + c / 4096 == 237) : Bool) = true)]
              rw [decide_eq_true_eq]
              rcases h with h | h <;> omega
            · rw [if_neg (by simp only [beq_iff_eq]; omega :
                ¬(((224 + c / 4096 == 237) : Bool) = true))]
              simp only [isUtf8Cont, decide_eq_true_eq]
              omega
        have e5 : isUtf8Cont (128 + c % 64) = true := by
          simp only [isUtf8Cont, decide_eq_true_eq]
          omega
        simp [e1, e2, e3, e4, e5]
        congr 1
        omega
      · rw [show utf8EncodeChar c =
          [240 + c / 262144, 128 + c / 4096 % 64, 128 + c / 64 % 64,
            128 + c % 64] from by
          rw [utf8EncodeChar, if_neg h1, if_neg h2, if_neg h3]]
        rw [List.cons_append, List.cons_append, List.cons_append,
          List.cons_append, List.nil_append, utf8DecodeReplace.eq_def]
        have e1 : ¬(240 + c / 262144 < 128) := by omega
        have e2 : ¬(194 ≤ 240 + c / 262144 ∧ 240 + c / 262144 ≤ 223) := by
          omega
        have e3 : ¬(224 ≤ 240 + c / 262144 ∧ 240 + c / 262144 ≤ 239) := by
          omega
        have e4 : 240 ≤ 240 + c / 262144 ∧ 240 + c / 262144 ≤ 244 := by
          omega
        have e5 : utf8Cont4First (240 + c / 262144) (128 + c / 4096 % 64) =
            true := by
          simp only [utf8Cont4First]
          by_cases hb1 : c < 262144
          · rw [if_pos (by rw [beq_iff_eq]; omega :
              ((240 + c / 262144 == 240) : Bool) = true)]
            rw [decide_eq_true_eq]
            omega
          · rw [if_neg (by simp only [beq_iff_eq]; omega :
              ¬(((240 + c / 262144 == 240) : Bool) = true))]
            by_cases hb2 : 1048576 ≤ c
            · rw [if_pos (by rw [beq_iff_eq]; omega :
                ((240 + c / 262144 == 244) : Bool) = true)]
              rw [decide_eq_true_eq]
              omega
            · rw [if_neg (by simp only [beq_iff_eq]; omega :
                ¬(((240 + c / 262144 == 244) : Bool) = true))]
              simp only [isUtf8Cont, decide_eq_true_eq]
              omega
        have e6 : isUtf8Cont (128 + c / 64 % 64) = true := by
          simp only [isUtf8Cont, decide_eq_true_eq]
          omega
        have e7 : isUtf8Cont (128 + c % 64) = true := by
          simp only [isUtf8Cont, decide_eq_true_eq]
          omega
        simp [e1, e2, e3, e4, e5, e6, e7]
        congr 1
        omega

/-- Helper: decoding inverts encoding for valid strings. -/
theorem utf8DecodeEncode (s : PyStr) (h : ValidStr s) :
    utf8DecodeReplace (utf8Encode s) = s := by
  induction s with
  | nil =>
    rw [show utf8Encode [] = [] from rfl, utf8DecodeReplace.eq_def]
  | cons c rest ih =>
    rw [show utf8Encode (c :: rest) = utf8EncodeChar c ++ utf8Encode rest
      from rfl]
    rw [utf8DecodeEncodeChar c (h c (List.mem_cons_self _ _)) _]
    rw [ih (fun x hx => h x (List.mem_cons_of_mem _ hx))]

/-- Helper: split a true boolean disjunction. -/
theorem orSplit (a b : Bool) (h : (a || b) = true) :
    a = true ∨ b = true := by
  cases a
  · right
    simpa using h
  · left
    rfl

/-- Helper: an uppercase hex digit is a never-escaped byte. -/
theorem hexUpperSafe (n : Nat) (h : n < 16) :
    isAlwaysSafe (hexUpper n) = true := by
  unfold hexUpper isAlwaysSafe
  by_cases h10 : n < 10
  · rw [if_pos h10]
    simp only [Bool.or_eq_true, decide_eq_true_eq, beq_iff_eq]
    omega
  · rw [if_neg h10]
    simp only [Bool.or_eq_true, decide_eq_true_eq, beq_iff_eq]
    omega

/-- Helper: characters quoteBytes can emit: kept safe bytes and percent
escapes made of the percent sign and safe hex digits. -/
theorem quoteBytes_chars (safe bs : List Nat) (hb : ∀ b ∈ bs, b < 256) :
    ∀ c ∈ quoteBytes safe bs,
      (isAlwaysSafe c || safe.contains c || c == 37) = true := by
  intro c hc
  unfold quoteBytes at hc
  rcases List.mem_flatMap.mp hc with ⟨b, hbmem, hcb⟩
  by_cases hk : (isAlwaysSafe b || safe.contains b) = true
  · rw [if_pos hk] at hcb
    have hcbe : c = b := by simpa using hcb
    subst hcbe
    rcases orSplit _ _ hk with hk2 | hk2
    · simp [hk2]
    · simp [List.elem_iff.mp hk2]
  · rw [if_neg hk] at hcb
    have hblt := hb b hbmem
    rcases (by simpa using hcb :
        c = 37 ∨ c = hexUpper (b / 16) ∨ c = hexUpper (b % 16)) with
      rfl | rfl | rfl
    · simp
    · simp [hexUpperSafe (b / 16) (by omega)]
    · simp [hexUpperSafe (b % 16) (by omega)]

/-- Helper: arithmetic consequences of the quote output charset. -/
theorem quoteOutChar_facts (c : Nat) (h : quoteOutChar c = true) :
    c < 128 ∧ c ≠ 61 ∧ c ≠ 38 ∧ c ≠ 63 ∧ c ≠ 35 ∧ c ≠ 58 ∧
      isTabCrLf c = false := by
  simp only [quoteOutChar, isAlwaysSafe, Bool.or_eq_true,
    decide_eq_true_eq, beq_iff_eq] at h
  refine ⟨by omega, by omega, by omega, by omega, by omega, by omega, ?_⟩
  simp only [isTabCrLf, Bool.or_eq_false_iff, beq_eq_false_iff_ne, ne_eq]
  omega

/-- Helper: every character quote_plus emits is in the quote output
charset. -/
theorem quote_plus_chars (s : PyStr) (h : ∀ c ∈ s, c < 1114112) :
    ∀ c ∈ quote_plus s, quoteOutChar c = true := by
  have hbytes : ∀ b ∈ utf8Encode s, b < 256 := by
    intro b hb
    rcases List.mem_flatMap.mp hb with ⟨d, hd, hbd⟩
    exact utf8EncodeChar_lt256 d (h d hd) b hbd
  intro c hc
  unfold quote_plus pyQuote at hc
  by_cases h32 : (s.contains 32) = true
  · rw [if_pos h32] at hc
    rcases List.mem_map.mp hc with ⟨d, hd, rfl⟩
    have hq := quoteBytes_chars [32] _ hbytes d hd
    by_cases hd32 : d = 32
    · subst hd32
      decide
    · rw [if_neg (by simp [hd32] :
        ¬(((d == 32) : Bool) = true))]
      have h32d : ¬(([32] : List Nat).contains d = true) := fun hcc =>
        hd32 (by simpa using List.elem_iff.mp hcc)
      rcases orSplit _ _ hq with hq | hq
      · rcases orSplit _ _ hq with hq | hq
        · simp [quoteOutChar, hq]
        · exact absurd hq h32d
      · simp [quoteOutChar, hq]
  · rw [if_neg h32] at hc
    have hq := quoteBytes_chars [] _ hbytes c hc
    rcases orSplit _ _ hq with hq | hq
    · rcases orSplit _ _ hq with hq | hq
      · simp [quoteOutChar, hq]
      · simp at hq
    · simp [quoteOutChar, hq]

/-- Helper: a kept safe byte is ASCII. -/
theorem safeKeep_lt128 (b : Nat)
    (h : (isAlwaysSafe b || [32].contains b) = true) : b < 128 := by
  rcases orSplit _ _ h with h | h
  · simp only [isAlwaysSafe, Bool.or_eq_true, decide_eq_true_eq,
      beq_iff_eq] at h
    omega
  · have h32 : b = 32 := by simpa using List.elem_iff.mp h
    omega

/-- Helper: quoteBytes output with space safe is ASCII. -/
theorem quoteBytes_lt128 (bs : List Nat) (hb : ∀ b ∈ bs, b < 256) :
    ∀ c ∈ quoteBytes [32] bs, c < 128 := by
  intro c hc
  have hq := quoteBytes_chars [32] bs hb c hc
  rcases orSplit _ _ hq with h | h
  · exact safeKeep_lt128 c h
  · have h37 : c = 37 := by simpa using h
    omega

/-- Helper: a percent-free quoting kept every byte, so the bytes were
all safe. -/
theorem quoteBytes_no37_keep (bs : List Nat)
    (h : ∀ c ∈ quoteBytes [32] bs, c ≠ 37) :
    quoteBytes [32] bs = bs ∧
      ∀ b ∈ bs, (isAlwaysSafe b || [32].contains b) = true := by
  induction bs with
  | nil => exact ⟨rfl, by simp⟩
  | cons b rest ih =>
    have hsplit : quoteBytes [32] (b :: rest) =
        (if isAlwaysSafe b || [32].contains b then [b]
          else [37, hexUpper (b / 16), hexUpper (b % 16)]) ++
        quoteBytes [32] rest := rfl
    by_cases hk : (isAlwaysSafe b || [32].contains b) = true
    · have hrest : ∀ c ∈ quoteBytes [32] rest, c ≠ 37 := by
        intro c hc
        apply h
        rw [hsplit, if_pos hk, List.singleton_append]
        exact List.mem_cons_of_mem _ hc
      obtain ⟨ih1, ih2⟩ := ih hrest
      refine ⟨?_, ?_⟩
      · rw [hsplit, if_pos hk, List.singleton_append, ih1]
      · intro x hx
        rcases List.mem_cons.mp hx with rfl | hx
        · exact hk
        · exact ih2 x hx
    · exact absurd rfl (h 37 (by
        rw [hsplit, if_neg hk]
        exact List.mem_append_left _ (List.mem_cons_self _ _)))

/-- Helper: no encoded byte of a space-free string is a space. -/
theorem utf8Encode_no32 (s : PyStr) (h : ∀ c ∈ s, c ≠ 32) :
    ∀ b ∈ utf8Encode s, b ≠ 32 := by
  intro b hb he
  subst he
  rcases List.mem_flatMap.mp hb with ⟨d, hd, hbd⟩
  exact h d hd (utf8EncodeChar_ascii d 32 hbd (by omega))

/-- Helper: a string whose utf-8 encoding is all ASCII equals its
encoding. -/
theorem utf8Encode_allAscii (s : PyStr) (h : ∀ b ∈ utf8Encode s, b < 128) :
    utf8Encode s = s := by
  induction s with
  | nil => rfl
  | cons c rest ih =>
    have hc : utf8EncodeChar c = [c] := by
      by_cases h1 : c < 128
      · rw [utf8EncodeChar, if_pos h1]
      · exfalso
        have hhead : ∃ b ∈ utf8EncodeChar c, 128 ≤ b := by
          simp only [utf8EncodeChar, if_neg h1]
          by_cases h2 : c < 2048
          · rw [if_pos h2]
            exact ⟨192 + c / 64, by simp, by omega⟩
          · rw [if_neg h2]
            by_cases h3 : c < 65536
            · rw [if_pos h3]
              exact ⟨224 + c / 4096, by simp, by omega⟩
            · rw [if_neg h3]
              exact ⟨240 + c / 262144, by simp, by omega⟩
        obtain ⟨b, hbmem, hble⟩ := hhead
        have hb2 : b ∈ utf8Encode (c :: rest) := by
          rw [show utf8Encode (c :: rest) =
            utf8EncodeChar c ++ utf8Encode rest from rfl]
          exact List.mem_append_left _ hbmem
        have := h b hb2
        omega
    rw [show utf8Encode (c :: rest) =
      utf8EncodeChar c ++ utf8Encode rest from rfl, hc,
      List.singleton_append]
    congr 1
    apply ih
    intro b hb
    apply h
    rw [show utf8Encode (c :: rest) =
      utf8EncodeChar c ++ utf8Encode rest from rfl]
    exact List.mem_append_right _ hb

/-- Helper: with no space byte present, keeping space safe changes
nothing. -/
theorem quoteBytes_nil32 (bs : List Nat) (h32 : ∀ b ∈ bs, b ≠ 32) :
    quoteBytes [] bs = quoteBytes [32] bs := by
  induction bs with
  | nil => rfl
  | cons b rest ih =>
    have hb := h32 b (List.mem_cons_self _ _)
    have hc32 : ([32] : List Nat).contains b = false := by
      rw [← Bool.not_eq_true]
      intro hcc
      exact hb (by simpa using List.elem_iff.mp hcc)
    show (if isAlwaysSafe b || ([] : List Nat).contains b then [b]
        else [37, hexUpper (b / 16), hexUpper (b % 16)]) ++
        quoteBytes [] rest =
      (if isAlwaysSafe b || ([32] : List Nat).contains b then [b]
        else [37, hexUpper (b / 16), hexUpper (b % 16)]) ++
        quoteBytes [32] rest
    rw [hc32, show (([] : List Nat).contains b) = false from rfl]
    rw [ih (fun x hx => h32 x (List.mem_cons_of_mem _ hx))]

/-- Helper: mapping space to plus and back is the identity on plus-free
strings. -/
theorem plusToSpace_spaceToPlus (l : PyStr) (h43 : ∀ c ∈ l, c ≠ 43) :
    (l.map (fun c => if c == 32 then 43 else c)).map
      (fun c => if c == 43 then 32 else c) = l := by
  rw [List.map_map]
  have hcong : ∀ a ∈ l, ((fun c => if c == 43 then 32 else c) ∘
      (fun c => if c == 32 then 43 else c)) a = id a := by
    intro a ha
    simp only [Function.comp_apply, id]
    by_cases h32 : a = 32
    · subst h32
      rfl
    · rw [if_neg (by simp [h32] : ¬(((a == 32) : Bool) = true))]
      rw [if_neg (by simp [h43 a ha] : ¬(((a == 43) : Bool) = true))]
  rw [List.map_congr_left hcong, List.map_id]

/-- Helper: mapping plus to space does nothing on plus-free strings. -/
theorem mapPlusToSpace_id (l : PyStr) (h43 : ∀ c ∈ l, c ≠ 43) :
    l.map (fun c => if c == 43 then 32 else c) = l := by
  have hcong : ∀ a ∈ l, (fun c => if c == 43 then 32 else c) a = id a := by
    intro a ha
    simp only [id]
    rw [if_neg (by simp [h43 a ha] : ¬(((a == 43) : Bool) = true))]
  rw [List.map_congr_left hcong, List.map_id]

/-- Helper: the unquote run loop on the empty string. -/
theorem unquoteRuns_nil : unquoteRuns [] = [] := by
  rw [unquoteRuns.eq_def]

/-- Helper: on an all-ASCII string the unquote run loop is one percent
decode. -/
theorem unquoteRuns_ascii (u : PyStr) (hlt : ∀ c ∈ u, c < 128) :
    unquoteRuns u = utf8DecodeReplace (unquote_to_bytes u) := by
  cases u with
  | nil =>
    rw [unquoteRuns_nil,
      show unquote_to_bytes [] = [] from by rw [unquote_to_bytes.eq_def],
      utf8DecodeReplace.eq_def]
  | cons c rest =>
    have hc := hlt c (List.mem_cons_self _ _)
    have hstep : unquoteRuns (c :: rest) =
        utf8DecodeReplace (unquote_to_bytes ((c :: rest).takeWhile
          (fun x => decide (x < 128)))) ++
        unquoteRuns ((c :: rest).dropWhile (fun x => decide (x < 128))) := by
      rw [unquoteRuns.eq_def]
      exact dif_pos hc
    rw [hstep]
    rw [takeWhileAll _ _ (fun x hx => by simpa using hlt x hx)]
    rw [dropWhileAll _ _ (fun x hx => by simpa using hlt x hx)]
    rw [unquoteRuns_nil, List.append_nil]

/-- Helper: the encoded bytes of a valid string are bytes. -/
theorem utf8Encode_lt256 (s : PyStr) (h : ValidStr s) :
    ∀ b ∈ utf8Encode s, b < 256 := by
  intro b hb
  rcases List.mem_flatMap.mp hb with ⟨d, hd, hbd⟩
  apply utf8EncodeChar_lt256 d _ b hbd
  rcases h d hd with hh | hh <;> omega

/-- Helper: unquote_plus inverts quote_plus on valid strings. -/
theorem unquote_plus_quote_plus (s : PyStr) (h : ValidStr s) :
    unquote_plus (quote_plus s) = s := by
  have hlt : ∀ c ∈ s, c < 1114112 := fun c hc => by
    rcases h c hc with hh | hh <;> omega
  have hbytes : ∀ b ∈ utf8Encode s, b < 256 := utf8Encode_lt256 s h
  have hmap : (quote_plus s).map (fun c => if c == 43 then 32 else c) =
      quoteBytes [32] (utf8Encode s) := by
    unfold quote_plus pyQuote
    by_cases h32 : (s.contains 32) = true
    · rw [if_pos h32]
      apply plusToSpace_spaceToPlus
      intro c hc he
      subst he
      have hq := quoteBytes_chars [32] _ hbytes 43 hc
      exact absurd hq (by decide)
    · rw [if_neg h32]
      rw [mapPlusToSpace_id _ (by
        intro c hc he
        subst he
        have hq := quoteBytes_chars [] _ hbytes 43 hc
        exact absurd hq (by decide))]
      apply quoteBytes_nil32
      apply utf8Encode_no32
      intro c hc he
      subst he
      exact h32 (List.elem_iff.mpr hc)
  unfold unquote_plus
  rw [hmap]
  have hult : ∀ c ∈ quoteBytes [32] (utf8Encode s), c < 128 :=
    quoteBytes_lt128 _ hbytes
  unfold pyUnquote
  by_cases h37 : ((quoteBytes [32] (utf8Encode s)).contains 37) = true
  · rw [if_pos h37]
    rw [unquoteRuns_ascii _ hult]
    rw [unquote_quoteBytes _ hbytes]
    exact utf8DecodeEncode s h
  · rw [if_neg h37]
    have hno37 : ∀ c ∈ quoteBytes [32] (utf8Encode s), c ≠ 37 := by
      intro c hc he
      subst he
      exact h37 (List.elem_iff.mpr hc)
    obtain ⟨heq, hkeep⟩ := quoteBytes_no37_keep _ hno37
    rw [heq]
    apply utf8Encode_allAscii
    intro b hb
    exact safeKeep_lt128 b (hkeep b hb)

/-- Helper: ranges guaranteed by a valid first continuation byte of a
three-byte sequence. -/
theorem utf8Cont3First_facts (b b1 : Nat) (h : utf8Cont3First b b1 = true) :
    128 ≤ b1 ∧ b1 ≤ 191 ∧ (b = 237 → b1 ≤ 159) ∧ (b = 224 → 160 ≤ b1) := by
  unfold utf8Cont3First at h
  by_cases h224 : b = 224
  · rw [if_pos (by simp [h224] : ((b == 224) : Bool) = true)] at h
    rw [decide_eq_true_eq] at h
    exact ⟨by omega, by omega, fun hb => by omega, fun hb => by omega⟩
  · rw [if_neg (by simp [h224])] at h
    by_cases h237 : b = 237
    · rw [if_pos (by simp [h237] : ((b == 237) : Bool) = true)] at h
      rw [decide_eq_true_eq] at h
      exact ⟨by omega, by omega, fun hb => by omega, fun hb => by omega⟩
    · rw [if_neg (by simp [h237])] at h
      simp only [isUtf8Cont, decide_eq_true_eq] at h
      exact ⟨by omega, by omega, fun hb => by omega, fun hb => by omega⟩

/-- Helper: ranges guaranteed by a valid first continuation byte of a
four-byte sequence. -/
theorem utf8Cont4First_facts (b b1 : Nat) (h : utf8Cont4First b b1 = true) :
    128 ≤ b1 ∧ b1 ≤ 191 ∧ (b = 240 → 144 ≤ b1) ∧ (b = 244 → b1 ≤ 143) := by
  unfold utf8Cont4First at h
  by_cases h240 : b = 240
  · rw [if_pos (by simp [h240] : ((b == 240) : Bool) = true)] at h
    rw [decide_eq_true_eq] at h
    exact ⟨by omega, by omega, fun hb => by omega, fun hb => by omega⟩
  · rw [if_neg (by simp [h240])] at h
    by_cases h244 : b = 244
    · rw [if_pos (by simp [h244] : ((b == 244) : Bool) = true)] at h
      rw [decide_eq_true_eq] at h
      exact ⟨by omega, by omega, fun hb => by omega, fun hb => by omega⟩
    · rw [if_neg (by simp [h244])] at h
      simp only [isUtf8Cont, decide_eq_true_eq] at h
      exact ⟨by omega, by omega, fun hb => by omega, fun hb => by omega⟩

set_option maxRecDepth 8000 in
/-- Helper: every code point the replacing utf-8 decoder emits is a
valid scalar, by strong induction on the byte count. -/
theorem utf8DecodeReplace_valid_aux (n : Nat) :
    ∀ bs : List Nat, bs.length ≤ n →
      ∀ c ∈ utf8DecodeReplace bs, validScalar c := by
  induction n with
  | zero =>
    intro bs hlen c hc
    have hbs : bs = [] := List.length_eq_zero.mp (Nat.le_zero.mp hlen)
    subst hbs
    rw [utf8DecodeReplace.eq_def] at hc
    cases hc
  | succ n ih =>
    intro bs hlen c hc
    cases bs with
    | nil =>
      rw [utf8DecodeReplace.eq_def] at hc
      cases hc
    | cons b rest =>
      by_cases h1 : b < 128
      · have hstep : utf8DecodeReplace (b :: rest) =
            b :: utf8DecodeReplace rest := by
          rw [utf8DecodeReplace.eq_def]
          simp [h1]
        rw [hstep] at hc
        rcases List.mem_cons.mp hc with rfl | hc
        · left
          omega
        · exact ih rest (by simp only [List.length_cons] at hlen; omega) c hc
      · by_cases h2 : 194 ≤ b ∧ b ≤ 223
        · cases rest with
          | nil =>
            have hstep : utf8DecodeReplace [b] = [65533] := by
              rw [utf8DecodeReplace.eq_def]
              simp [h1, h2]
            rw [hstep] at hc
            have hce : c = 65533 := by simpa using hc
            subst hce
            right
            exact ⟨by omega, by omega⟩
          | cons b1 r =>
            by_cases hcont : isUtf8Cont b1 = true
            · have hstep : utf8DecodeReplace (b :: b1 :: r) =
                  ((b - 192) * 64 + (b1 - 128)) :: utf8DecodeReplace r := by
                rw [utf8DecodeReplace.eq_def]
                simp [h1, h2, hcont]
              rw [hstep] at hc
              rcases List.mem_cons.mp hc with rfl | hc
              · have hcf : 128 ≤ b1 ∧ b1 ≤ 191 := by
                  simpa [isUtf8Cont, decide_eq_true_eq] using hcont
                left
                omega
              · exact ih r (by simp only [List.length_cons] at hlen; omega) c hc
            · have hstep : utf8DecodeReplace (b :: b1 :: r) =
                  65533 :: utf8DecodeReplace (b1 :: r) := by
                rw [utf8DecodeReplace.eq_def]
                simp [h1, h2, hcont]
              rw [hstep] at hc
              rcases List.mem_cons.mp hc with rfl | hc
              · right
                exact ⟨by omega, by omega⟩
              · exact ih (b1 :: r) (by simp only [List.length_cons] at hlen ⊢; omega) c hc
        · by_cases h3 : 224 ≤ b ∧ b ≤ 239
          · cases rest with
            | nil =>
              have hstep : utf8DecodeReplace [b] = [65533] := by
                rw [utf8DecodeReplace.eq_def]
                simp [h1, h2, h3]
              rw [hstep] at hc
              have hce : c = 65533 := by simpa using hc
              subst hce
              right
              exact ⟨by omega, by omega⟩
            | cons b1 rest1 =>
              by_cases hc3 : utf8Cont3First b b1 = true
              · cases rest1 with
                | nil =>
                  have hstep : utf8DecodeReplace [b, b1] = [65533] := by
                    rw [utf8DecodeReplace.eq_def]
                    simp [h1, h2, h3, hc3]
                  rw [hstep] at hc
                  have hce : c = 65533 := by simpa using hc
                  subst hce
                  right
                  exact ⟨by omega, by omega⟩
                | cons b2 r =>
                  by_cases hcont : isUtf8Cont b2 = true
                  · have hstep : utf8DecodeReplace (b :: b1 :: b2 :: r) =
                        ((b - 224) * 4096 + (b1 - 128) * 64 + (b2 - 128)) ::
                          utf8DecodeReplace r := by
                      rw [utf8DecodeReplace.eq_def]
                      simp [h1, h2, h3, hc3, hcont]
                    rw [hstep] at hc
                    rcases List.mem_cons.mp hc with rfl | hc
                    · obtain ⟨e1, e2, e3, e4⟩ := utf8Cont3First_facts _ _ hc3
                      have hcf : 128 ≤ b2 ∧ b2 ≤ 191 := by
                        simpa [isUtf8Cont, decide_eq_true_eq] using hcont
                      rcases Nat.lt_or_ge b 237 with hb | hb
                      · left
                        omega
                      · rcases Nat.lt_or_ge b 238 with hb2 | hb2
                        · left
                          omega
                        · right
                          exact ⟨by omega, by omega⟩
                    · exact ih r (by simp only [List.length_cons] at hlen; omega) c hc
                  · have hstep : utf8DecodeReplace (b :: b1 :: b2 :: r) =
                        65533 :: utf8DecodeReplace (b2 :: r) := by
                      rw [utf8DecodeReplace.eq_def]
                      simp [h1, h2, h3, hc3, hcont]
                    rw [hstep] at hc
                    rcases List.mem_cons.mp hc with rfl | hc
                    · right
                      exact ⟨by omega, by omega⟩
                    · exact ih (b2 :: r) (by simp only [List.length_cons] at hlen ⊢; omega) c hc
              · have hstep : utf8DecodeReplace (b :: b1 :: rest1) =
                    65533 :: utf8DecodeReplace (b1 :: rest1) := by
                  rw [utf8DecodeReplace.eq_def]
                  simp [h1, h2, h3, hc3]
                rw [hstep] at hc
                rcases List.mem_cons.mp hc with rfl | hc
                · right
                  exact ⟨by omega, by omega⟩
                · exact ih (b1 :: rest1) (by simp only [List.length_cons] at hlen ⊢; omega) c hc
          · by_cases h4 : 240 ≤ b ∧ b ≤ 244
            · cases rest with
              | nil =>
                have hstep : utf8DecodeReplace [b] = [65533] := by
                  rw [utf8DecodeReplace.eq_def]
                  simp [h1, h2, h3, h4]
                rw [hstep] at hc
                have hce : c = 65533 := by simpa using hc
                subst hce
                right
                exact ⟨by omega, by omega⟩
              | cons b1 rest1 =>
                by_cases hc4 : utf8Cont4First b b1 = true
                · cases rest1 with
                  | nil =>
                    have hstep : utf8DecodeReplace [b, b1] = [65533] := by
                      rw [utf8DecodeReplace.eq_def]
                      simp [h1, h2, h3, h4, hc4]
                    rw [hstep] at hc
                    have hce : c = 65533 := by simpa using hc
                    subst hce
                    right
                    exact ⟨by omega, by omega⟩
                  | cons b2 rest2 =>
                    by_cases hcont : isUtf8Cont b2 = true
                    · cases rest2 with
                      | nil =>
                        have hstep : utf8DecodeReplace [b, b1, b2] =
                            [65533] := by
                          rw [utf8DecodeReplace.eq_def]
                          simp [h1, h2, h3, h4, hc4, hcont]
                        rw [hstep] at hc
                        have hce : c = 65533 := by simpa using hc
                        subst hce
                        right
                        exact ⟨by omega, by omega⟩
                      | cons b3 r =>
                        by_cases hcont3 : isUtf8Cont b3 = true
                        · have hstep :
                              utf8DecodeReplace (b :: b1 :: b2 :: b3 :: r) =
                              ((b - 240) * 262144 + (b1 - 128) * 4096 +
                                (b2 - 128) * 64 + (b3 - 128)) ::
                                utf8DecodeReplace r := by
                            rw [utf8DecodeReplace.eq_def]
                            simp [h1, h2, h3, h4, hc4, hcont, hcont3]
                          rw [hstep] at hc
                          rcases List.mem_cons.mp hc with rfl | hc
                          · obtain ⟨e1, e2, e3, e4⟩ :=
                              utf8Cont4First_facts _ _ hc4
                            have hcf2 : 128 ≤ b2 ∧ b2 ≤ 191 := by
                              simpa [isUtf8Cont, decide_eq_true_eq] using hcont
                            have hcf3 : 128 ≤ b3 ∧ b3 ≤ 191 := by
                              simpa [isUtf8Cont, decide_eq_true_eq] using hcont3
                            right
                            constructor
                            · rcases Nat.lt_or_ge b 241 with hb | hb
                              · omega
                              · omega
                            · rcases Nat.lt_or_ge b 244 with hb | hb
                              · omega
                              · omega
                          · exact ih r (by simp only [List.length_cons] at hlen; omega) c hc
                        · have hstep :
                              utf8DecodeReplace (b :: b1 :: b2 :: b3 :: r) =
                              65533 :: utf8DecodeReplace (b3 :: r) := by
                            rw [utf8DecodeReplace.eq_def]
                            simp [h1, h2, h3, h4, hc4, hcont, hcont3]
                          rw [hstep] at hc
                          rcases List.mem_cons.mp hc with rfl | hc
                          · right
                            exact ⟨by omega, by omega⟩
                          · exact ih (b3 :: r) (by simp only [List.length_cons] at hlen ⊢; omega) c hc
                    · have hstep : utf8DecodeReplace (b :: b1 :: b2 :: rest2) =
                          65533 :: utf8DecodeReplace (b2 :: rest2) := by
                        rw [utf8DecodeReplace.eq_def]
                        simp [h1, h2, h3, h4, hc4, hcont]
                      rw [hstep] at hc
                      rcases List.mem_cons.mp hc with rfl | hc
                      · right
                        exact ⟨by omega, by omega⟩
                      · exact ih (b2 :: rest2) (by simp only [List.length_cons] at hlen ⊢; omega) c hc
                · have hstep : utf8DecodeReplace (b :: b1 :: rest1) =
                      65533 :: utf8DecodeReplace (b1 :: rest1) := by
                    rw [utf8DecodeReplace.eq_def]
                    simp [h1, h2, h3, h4, hc4]
                  rw [hstep] at hc
                  rcases List.mem_cons.mp hc with rfl | hc
                  · right
                    exact ⟨by omega, by omega⟩
                  · exact ih (b1 :: rest1) (by simp only [List.length_cons] at hlen ⊢; omega) c hc
            · have hstep : utf8DecodeReplace (b :: rest) =
                  65533 :: utf8DecodeReplace rest := by
                rw [utf8DecodeReplace.eq_def]
                simp [h1, h2, h3, h4]
              rw [hstep] at hc
              rcases List.mem_cons.mp hc with rfl | hc
              · right
                exact ⟨by omega, by omega⟩
              · exact ih rest (by simp only [List.length_cons] at hlen; omega) c hc

/-- Helper: every code point the replacing utf-8 decoder emits is a
valid scalar. -/
theorem utf8DecodeReplace_valid (bs : List Nat) :
    ∀ c ∈ utf8DecodeReplace bs, validScalar c :=
  utf8DecodeReplace_valid_aux bs.length bs (Nat.le_refl _)

/-- Helper: valid scalars are below the Unicode bound. -/
theorem validLt (s : PyStr) (h : ValidStr s) : ∀ c ∈ s, c < 1114112 :=
  fun c hc => by rcases h c hc with hh | hh <;> omega

/-- Helper: the unquote run loop emits only valid scalars when fed a
valid string, by strong induction on the length. -/
theorem unquoteRuns_valid_aux (n : Nat) :
    ∀ s : PyStr, s.length ≤ n → ValidStr s → ValidStr (unquoteRuns s) := by
  induction n with
  | zero =>
    intro s hlen hv
    have hs : s = [] := List.length_eq_zero.mp (Nat.le_zero.mp hlen)
    subst hs
    rw [unquoteRuns_nil]
    intro c hc
    cases hc
  | succ n ih =>
    intro s hlen hv
    cases s with
    | nil =>
      rw [unquoteRuns_nil]
      intro c hc
      cases hc
    | cons a rest =>
      by_cases ha : a < 128
      · have hstep : unquoteRuns (a :: rest) =
            utf8DecodeReplace (unquote_to_bytes ((a :: rest).takeWhile
              (fun x => decide (x < 128)))) ++
            unquoteRuns ((a :: rest).dropWhile
              (fun x => decide (x < 128))) := by
          rw [unquoteRuns.eq_def]
          exact dif_pos ha
        rw [hstep]
        intro c hc
        rcases List.mem_append.mp hc with hc | hc
        · exact utf8DecodeReplace_valid _ c hc
        · have hdw : (a :: rest).dropWhile (fun x => decide (x < 128)) =
              rest.dropWhile (fun x => decide (x < 128)) := by
            rw [List.dropWhile_cons, if_pos (by simpa using ha)]
          rw [hdw] at hc
          refine ih (rest.dropWhile _) ?_ ?_ c hc
          · have h1 : (rest.dropWhile (fun x => decide (x < 128))).length ≤
                rest.length := (List.dropWhile_sublist _).length_le
            simp only [List.length_cons] at hlen
            omega
          · intro x hx
            exact hv x (List.mem_cons_of_mem _
              ((List.dropWhile_sublist _).mem hx))
      · have hstep : unquoteRuns (a :: rest) =
            (a :: rest).takeWhile (fun x => !(decide (x < 128))) ++
            unquoteRuns ((a :: rest).dropWhile
              (fun x => !(decide (x < 128)))) := by
          rw [unquoteRuns.eq_def]
          exact dif_neg ha
        rw [hstep]
        intro c hc
        rcases List.mem_append.mp hc with hc | hc
        · exact hv c ((List.takeWhile_sublist _).mem hc)
        · have hdw : (a :: rest).dropWhile (fun x => !(decide (x < 128))) =
              rest.dropWhile (fun x => !(decide (x < 128))) := by
            rw [List.dropWhile_cons, if_pos (by simpa using ha)]
          rw [hdw] at hc
          refine ih (rest.dropWhile _) ?_ ?_ c hc
          · have h1 : (rest.dropWhile
                (fun x => !(decide (x < 128)))).length ≤ rest.length :=
              (List.dropWhile_sublist _).length_le
            simp only [List.length_cons] at hlen
            omega
          · intro x hx
            exact hv x (List.mem_cons_of_mem _
              ((List.dropWhile_sublist _).mem hx))

/-- Helper: unquote_plus preserves scalar validity. -/
theorem unquote_plus_valid (s : PyStr) (h : ValidStr s) :
    ValidStr (unquote_plus s) := by
  have hm : ValidStr (s.map (fun c => if c == 43 then 32 else c)) := by
    intro c hc
    rcases List.mem_map.mp hc with ⟨d, hd, rfl⟩
    by_cases hd43 : ((d == 43) : Bool) = true
    · rw [if_pos hd43]
      exact Or.inl (by omega)
    · rw [if_neg hd43]
      exact h d hd
  unfold unquote_plus pyUnquote
  by_cases h37 : ((s.map (fun c => if c == 43 then 32 else c)).contains 37)
      = true
  · rw [if_pos h37]
    exact unquoteRuns_valid_aux _ _ (Nat.le_refl _) hm
  · rw [if_neg h37]
    exact hm

/-- Helper: characters of split query segments come from the split
string. -/
theorem queryPairsGo_mem (sep : Nat) (fuel : Nat) :
    ∀ s : PyStr, ∀ seg ∈ queryPairsGo sep fuel s, ∀ c ∈ seg, c ∈ s := by
  induction fuel with
  | zero =>
    intro s seg hseg c hc
    have hss : seg = s := by simpa [queryPairsGo] using hseg
    subst hss
    exact hc
  | succ fuel ih =>
    intro s seg hseg c hc
    simp only [queryPairsGo, splitFirstAt] at hseg
    by_cases hcon : (s.contains sep) = true
    · rw [if_pos hcon] at hseg
      rcases List.mem_cons.mp hseg with rfl | hseg
      · exact (List.takeWhile_sublist _).mem hc
      · have hmem := ih _ seg hseg c hc
        exact ((List.drop_sublist _ _).trans (List.dropWhile_sublist _)).mem
          hmem
    · rw [if_neg hcon] at hseg
      have hss : seg = s := by simpa using hseg
      subst hss
      exact hc

/-- Helper: the source of each element of a successful mapOrNone. -/
theorem mapOrNoneMem {α β : Type} (f : α → Option β) (l : List α)
    (bs : List β) (h : mapOrNone f l = some bs) :
    ∀ b ∈ bs, ∃ a ∈ l, f a = some b := by
  induction l generalizing bs with
  | nil =>
    simp only [mapOrNone] at h
    injection h with h
    subst h
    intro b hb
    cases hb
  | cons x rest ih =>
    simp only [mapOrNone] at h
    rcases hfx : f x with _ | b0
    · rw [hfx] at h
      cases h
    · rw [hfx] at h
      rcases hmr : mapOrNone f rest with _ | bs0
      · rw [hmr] at h
        cases h
      · rw [hmr] at h
        injection h with h
        subst h
        intro b hb
        rcases List.mem_cons.mp hb with rfl | hb
        · exact ⟨x, List.mem_cons_self _ _, hfx⟩
        · obtain ⟨a, ha, hfa⟩ := ih bs0 hmr b hb
          exact ⟨a, List.mem_cons_of_mem _ ha, hfa⟩

/-- Helper: a successful mapOrNone on a nonempty list is nonempty. -/
theorem mapOrNoneNeNil {α β : Type} (f : α → Option β) (l : List α)
    (bs : List β) (h : mapOrNone f l = some bs) (hl : l ≠ []) :
    bs ≠ [] := by
  cases l with
  | nil => exact absurd rfl hl
  | cons x rest =>
    simp only [mapOrNone] at h
    rcases hfx : f x with _ | b0
    · rw [hfx] at h
      cases h
    · rw [hfx] at h
      rcases hmr : mapOrNone f rest with _ | bs0
      · rw [hmr] at h
        cases h
      · rw [hmr] at h
        injection h with h
        subst h
        exact List.cons_ne_nil _ _

/-- Helper: every decoded query pair of a valid query string has valid
key and value. -/
theorem decodeQuery_valid (q : PyStr) (hq : ValidStr q)
    (pairs : List (PyStr × PyStr)) (h : decodeQuery q = some pairs) :
    ∀ p ∈ pairs, ValidStr p.1 ∧ ValidStr p.2 := by
  intro p hp
  obtain ⟨seg, hseg, hdec⟩ := mapOrNoneMem _ _ _ h p hp
  have hsegmem : ∀ c ∈ seg, c ∈ q := fun c hc =>
    queryPairsGo_mem 38 (q.length + 1) q seg hseg c hc
  unfold decodeSegment at hdec
  by_cases h61 : (seg.contains 61) = true
  · rw [if_pos h61] at hdec
    injection hdec with hdec
    subst hdec
    constructor
    · apply unquote_plus_valid
      intro x hx
      exact hq x (hsegmem x ((List.takeWhile_sublist _).mem hx))
    · apply unquote_plus_valid
      intro x hx
      exact hq x (hsegmem x
        (((List.drop_sublist _ _).trans (List.dropWhile_sublist _)).mem hx))
  · rw [if_neg h61] at hdec
    cases hdec

/-- Helper: characters of a separator join are the separator or segment
characters. -/
theorem joinSep_mem (sep : Nat) (segs : List PyStr) :
    ∀ c ∈ joinSep sep segs, c = sep ∨ ∃ seg ∈ segs, c ∈ seg := by
  induction segs with
  | nil =>
    intro c hc
    cases hc
  | cons x rest ih =>
    cases rest with
    | nil =>
      intro c hc
      right
      exact ⟨x, List.mem_cons_self _ _, hc⟩
    | cons y rest2 =>
      intro c hc
      rw [show joinSep sep (x :: y :: rest2) =
        x ++ sep :: joinSep sep (y :: rest2) from rfl] at hc
      rcases List.mem_append.mp hc with hc | hc
      · right
        exact ⟨x, List.mem_cons_self _ _, hc⟩
      · rcases List.mem_cons.mp hc with rfl | hc
        · left
          rfl
        · rcases ih c hc with h | ⟨seg, hseg, hcs⟩
          · left
            exact h
          · right
            exact ⟨seg, List.mem_cons_of_mem _ hseg, hcs⟩

/-- Helper: a separator join is at most one shorter than its segment
count. -/
theorem joinSep_length (sep : Nat) (segs : List PyStr) :
    segs.length ≤ (joinSep sep segs).length + 1 := by
  induction segs with
  | nil => simp [joinSep]
  | cons x rest ih =>
    cases rest with
    | nil => simp [joinSep]
    | cons y rest2 =>
      rw [show joinSep sep (x :: y :: rest2) =
        x ++ sep :: joinSep sep (y :: rest2) from rfl]
      simp only [List.length_cons, List.length_append] at ih ⊢
      omega

/-- Helper: splitting undoes joining when no segment contains the
separator, given enough fuel. -/
theorem queryPairsGo_joinSep (segs : List PyStr) (hne : segs ≠ [])
    (h38 : ∀ seg ∈ segs, ∀ c ∈ seg, c ≠ 38) :
    ∀ fuel, segs.length ≤ fuel + 1 →
      queryPairsGo 38 fuel (joinSep 38 segs) = segs := by
  induction segs with
  | nil => exact absurd rfl hne
  | cons x rest ih =>
    intro fuel hlen
    cases rest with
    | nil =>
      have hx38 : ¬(x.contains 38 = true) := by
        intro hcc
        exact h38 x (List.mem_cons_self _ _) 38 (List.elem_iff.mp hcc) rfl
      cases fuel with
      | zero => rfl
      | succ f =>
        show queryPairsGo 38 (f + 1) x = [x]
        simp only [queryPairsGo]
        rw [if_neg hx38]
    | cons y rest2 =>
      cases fuel with
      | zero =>
        simp only [List.length_cons] at hlen
        omega
      | succ f =>
        have hj : joinSep 38 (x :: y :: rest2) =
            x ++ 38 :: joinSep 38 (y :: rest2) := rfl
        have hcon : (x ++ 38 :: joinSep 38 (y :: rest2)).contains 38 = true :=
          List.elem_iff.mpr
            (List.mem_append_right _ (List.mem_cons_self _ _))
        have hsplit : splitFirstAt 38 (x ++ 38 :: joinSep 38 (y :: rest2)) =
            (x, joinSep 38 (y :: rest2)) :=
          splitFirstAtAppend _ _ _
            (fun c hc => h38 x (List.mem_cons_self _ _) c hc)
        rw [hj]
        simp only [queryPairsGo]
        rw [if_pos hcon, hsplit]
        show x :: queryPairsGo 38 f (joinSep 38 (y :: rest2)) =
          x :: y :: rest2
        rw [ih (List.cons_ne_nil _ _)
          (fun seg hseg => h38 seg (List.mem_cons_of_mem _ hseg)) f
          (by simp only [List.length_cons] at hlen ⊢; omega)]

/-- Helper: splitting the joined encoded query restores the segments. -/
theorem queryPairs_joinSep (segs : List PyStr) (hne : segs ≠ [])
    (h38 : ∀ seg ∈ segs, ∀ c ∈ seg, c ≠ 38) :
    queryPairs 38 (joinSep 38 segs) = segs := by
  apply queryPairsGo_joinSep segs hne h38
  have := joinSep_length 38 segs
  omega

/-- Helper: decoding inverts encoding of one query pair with valid key
and value. -/
theorem decodeSegment_encodePair (k v : PyStr) (hk : ValidStr k)
    (hv : ValidStr v) :
    decodeSegment (encodePair (k, v)) = some (k, v) := by
  have hk61 : ∀ c ∈ quote_plus k, c ≠ 61 := fun c hc =>
    (quoteOutChar_facts c (quote_plus_chars k (validLt k hk) c hc)).2.1
  unfold encodePair decodeSegment
  have hcon : ((quote_plus k ++ 61 :: quote_plus v).contains 61) = true :=
    List.elem_iff.mpr (List.mem_append_right _ (List.mem_cons_self _ _))
  rw [if_pos hcon]
  rw [splitFirstAtAppend _ _ _ hk61]
  show some (unquote_plus (quote_plus k), unquote_plus (quote_plus v)) =
    some (k, v)
  rw [unquote_plus_quote_plus k hk, unquote_plus_quote_plus v hv]

/-- Helper: mapOrNone inverts a pointwise-inverted map. -/
theorem mapOrNoneMap {α β : Type} (f : β → Option α) (g : α → β)
    (l : List α) (h : ∀ a ∈ l, f (g a) = some a) :
    mapOrNone f (l.map g) = some l := by
  induction l with
  | nil => rfl
  | cons x rest ih =>
    show (match f (g x) with
      | none => none
      | some b =>
        match mapOrNone f (rest.map g) with
        | none => none
        | some bs => some (b :: bs)) = some (x :: rest)
    rw [h x (List.mem_cons_self _ _),
      ih (fun a ha => h a (List.mem_cons_of_mem _ ha))]

/-- Helper: sorting is idempotent. -/
theorem pySorted_idem (l : List (PyStr × PyStr)) :
    pySorted (pySorted l) = pySorted l :=
  List.Sorted.insertionSort_eq (pySorted_sorted l)

/-- Claim C4: for every URL accepted by Request.from_url -- so its
query, when present, parsed as well-formed
application/x-www-form-urlencoded data -- parsing, serializing with
str() and parsing again is idempotent: from_url of the string form of
the parsed request returns exactly the parsed request.  The URL ranges
over strings of Unicode scalar values, the domain on which the str()
serialization of Python is defined (a lone surrogate would make the
quoting step raise UnicodeEncodeError). -/
theorem request_from_url_roundtrip (url : PyStr) (r : Request)
    (hv : ValidStr url) (h : Request.from_url url = some r) :
    Request.from_url (Request.toStr r) = some r := by
  rcases hsplit : urlsplit url with _ | su
  · simp only [Request.from_url, hsplit, Option.none_bind] at h
    cases h
  · obtain ⟨hUF, hqmem⟩ := urlsplit_facts url su hsplit
    have hpne : (if su.path = [] then pys "/" else su.path) ≠ [] := by
      by_cases hsp : su.path = []
      · rw [if_pos hsp]
        decide
      · rw [if_neg hsp]
        exact hsp
    simp only [Request.from_url, hsplit, Option.some_bind] at h
    by_cases hq : su.query = []
    · have hopt : (if su.query ≠ [] then decodeQuery su.query
          else some ([] : List (PyStr × PyStr))) = some [] := by
        rw [if_neg (fun hh => hh hq)]
      rw [hopt, Option.map_some'] at h
      obtain rfl := Option.some.inj h
      have hresplit : urlsplit (urlunsplit su.scheme su.netloc
          (if su.path = [] then pys "/" else su.path) [] []) =
          some ⟨su.scheme, su.netloc,
            if su.path = [] then pys "/" else su.path, [], []⟩ := by
        have hr := urlsplit_unsplit su hUF [] (by intro c hc; cases hc)
        simpa using hr
      have htos : Request.toStr (Request.make (urlunsplit su.scheme
          su.netloc (if su.path = [] then pys "/" else su.path) [] [])
          [] false) = urlunsplit su.scheme su.netloc
          (if su.path = [] then pys "/" else su.path) [] [] := by
        simp only [Request.toStr, Request.make]
        rw [if_neg (fun hh => hh rfl)]
      rw [htos]
      simp only [Request.from_url, hresplit, Option.some_bind]
      rw [if_neg hpne]
      rw [if_neg (fun hh : ([] : PyStr) ≠ [] => hh rfl)]
      rw [Option.map_some']
    · have hopt : (if su.query ≠ [] then decodeQuery su.query
          else some ([] : List (PyStr × PyStr))) = decodeQuery su.query := by
        rw [if_pos hq]
      rw [hopt] at h
      cases hdec : decodeQuery su.query with
      | none =>
        rw [hdec, Option.map_none'] at h
        cases h
      | some pairs0 =>
        rw [hdec, Option.map_some'] at h
        obtain rfl := Option.some.inj h
        have hqvalid : ValidStr su.query := fun c hc => hv c (hqmem c hc)
        have hpv : ∀ p ∈ pairs0, ValidStr p.1 ∧ ValidStr p.2 :=
          decodeQuery_valid su.query hqvalid pairs0 hdec
        have hpv2 : ∀ p ∈ pySorted pairs0, ValidStr p.1 ∧ ValidStr p.2 :=
          fun p hp => hpv p ((pySorted_perm pairs0).mem_iff.mp hp)
        have hQchars : ∀ c ∈ joinSep 38 ((pySorted pairs0).map encodePair),
            c ≠ 63 ∧ c ≠ 35 ∧ c ≠ 58 ∧ isTabCrLf c = false := by
          intro c hc
          rcases joinSep_mem 38 _ c hc with rfl | ⟨seg, hseg, hcs⟩
          · exact ⟨by omega, by omega, by omega, by decide⟩
          · rcases List.mem_map.mp hseg with ⟨p, hp, rfl⟩
            obtain ⟨hv1, hv2⟩ := hpv2 p hp
            rcases List.mem_append.mp hcs with hcs | hcs
            · have hf := quoteOutChar_facts c
                (quote_plus_chars p.1 (validLt _ hv1) c hcs)
              exact ⟨hf.2.2.2.1, hf.2.2.2.2.1, hf.2.2.2.2.2.1,
                hf.2.2.2.2.2.2⟩
            · rcases List.mem_cons.mp hcs with rfl | hcs
              · exact ⟨by omega, by omega, by omega, by decide⟩
              · have hf := quoteOutChar_facts c
                  (quote_plus_chars p.2 (validLt _ hv2) c hcs)
                exact ⟨hf.2.2.2.1, hf.2.2.2.2.1, hf.2.2.2.2.2.1,
                  hf.2.2.2.2.2.2⟩
        have hp0ne : pairs0 ≠ [] :=
          mapOrNoneNeNil _ _ _ hdec (queryPairs_ne_nil 38 su.query)
        have hsne : pySorted pairs0 ≠ [] := by
          intro he
          apply hp0ne
          have hlen := (pySorted_perm pairs0).length_eq
          rw [he] at hlen
          exact List.length_eq_zero.mp (by simpa using hlen.symm)
        have hQne : joinSep 38 ((pySorted pairs0).map encodePair) ≠ [] := by
          cases hps : pySorted pairs0 with
          | nil => exact absurd hps hsne
          | cons p prest =>
            cases prest with
            | nil =>
              simp only [List.map_cons, List.map_nil]
              show encodePair p ≠ []
              unfold encodePair
              simp
            | cons p2 prest2 =>
              simp only [List.map_cons]
              show encodePair p ++ 38 :: joinSep 38
                (encodePair p2 :: prest2.map encodePair) ≠ []
              simp
        have hsegs38 : ∀ seg ∈ (pySorted pairs0).map encodePair,
            ∀ c ∈ seg, c ≠ 38 := by
          intro seg hseg c hc
          rcases List.mem_map.mp hseg with ⟨p, hp, rfl⟩
          obtain ⟨hv1, hv2⟩ := hpv2 p hp
          rcases List.mem_append.mp hc with hc | hc
          · exact (quoteOutChar_facts c
              (quote_plus_chars p.1 (validLt _ hv1) c hc)).2.2.1
          · rcases List.mem_cons.mp hc with rfl | hc
            · omega
            · exact (quoteOutChar_facts c
                (quote_plus_chars p.2 (validLt _ hv2) c hc)).2.2.1
        have hmapne : (pySorted pairs0).map encodePair ≠ [] := by
          intro he
          exact hsne (List.map_eq_nil_iff.mp he)
        have hdecQ : decodeQuery (joinSep 38 ((pySorted pairs0).map
            encodePair)) = some (pySorted pairs0) := by
          unfold decodeQuery
          rw [queryPairs_joinSep _ hmapne hsegs38]
          apply mapOrNoneMap
          intro p hp
          obtain ⟨hv1, hv2⟩ := hpv2 p hp
          exact decodeSegment_encodePair p.1 p.2 hv1 hv2
        have hresplit : urlsplit (urlunsplit su.scheme su.netloc
            (if su.path = [] then pys "/" else su.path) [] [] ++
            63 :: joinSep 38 ((pySorted pairs0).map encodePair)) =
            some ⟨su.scheme, su.netloc,
              if su.path = [] then pys "/" else su.path,
              joinSep 38 ((pySorted pairs0).map encodePair), []⟩ := by
          have hr := urlsplit_unsplit su hUF _ hQchars
          rw [if_neg hQne] at hr
          exact hr
        have htos : Request.toStr (Request.make (urlunsplit su.scheme
            su.netloc (if su.path = [] then pys "/" else su.path) [] [])
            pairs0 false) = urlunsplit su.scheme su.netloc
            (if su.path = [] then pys "/" else su.path) [] [] ++
            63 :: joinSep 38 ((pySorted pairs0).map encodePair) := by
          simp only [Request.toStr, Request.make]
          rw [if_pos hsne]
        rw [htos]
        simp only [Request.from_url, hresplit, Option.some_bind]
        rw [if_neg hpne]
        rw [if_pos hQne]
        rw [hdecQ, Option.map_some']
        have hmk : Request.make (urlunsplit su.scheme su.netloc
            (if su.path = [] then pys "/" else su.path) [] [])
            (pySorted pairs0) false = Request.make (urlunsplit su.scheme
            su.netloc (if su.path = [] then pys "/" else su.path) [] [])
            pairs0 false := by
          unfold Request.make
          rw [pySorted_idem]
        rw [hmk]

/-- Witness for claim C4: the round trip applied at a concrete URL,
with both hypotheses evaluated on concrete data. -/
theorem request_from_url_roundtrip_witness :
    ValidStr (pys "http://h/p?x=5") ∧
    Request.from_url (pys "http://h/p?x=5") =
      some ⟨pys "http://h/p", [(pys "x", pys "5")], false⟩ ∧
    Request.from_url (Request.toStr
      (⟨pys "http://h/p", [(pys "x", pys "5")], false⟩ : Request)) =
      some ⟨pys "http://h/p", [(pys "x", pys "5")], false⟩ :=
  ⟨by show ∀ c ∈ pys "http://h/p?x=5",
      c < 55296 ∨ (57344 ≤ c ∧ c < 1114112); decide, by rfl,
    request_from_url_roundtrip (pys "http://h/p?x=5") _
      (by show ∀ c ∈ pys "http://h/p?x=5",
        c < 55296 ∨ (57344 ≤ c ∧ c < 1114112); decide)
      (by rfl)⟩

/-! ## Helper lemmas for the Spider claims (C8, C9) -/

/-- Helper: request equality is reflexive. -/
theorem reqEqRefl (a : Request) : reqEq a a = true := by
  simp [reqEq]

/-- Helper: request equality is symmetric. -/
theorem reqEqSymm (a b : Request) : reqEq a b = reqEq b a := by
  unfold reqEq
  rw [Bool.eq_iff_iff]
  simp only [Bool.and_eq_true, beq_iff_eq]
  constructor
  · rintro ⟨h1, h2⟩
    exact ⟨h1.symm, h2.symm⟩
  · rintro ⟨h1, h2⟩
    exact ⟨h1.symm, h2.symm⟩

/-- Helper: equal requests are members of the same sets. -/
theorem reqMemCongr (a b : Request) (h : reqEq a b = true)
    (l : List Request) : reqMem a l = reqMem b l := by
  unfold reqMem
  simp only [reqEq, Bool.and_eq_true, beq_iff_eq] at h
  congr 1
  funext x
  unfold reqEq
  rw [h.1, h.2]

/-- Helper: membership in a cons request set. -/
theorem reqMem_cons (r x : Request) (l : List Request) :
    reqMem r (x :: l) = (reqEq x r || reqMem r l) := by
  simp [reqMem, List.any_cons]

/-- Helper: membership transfers along sublists. -/
theorem reqMem_sublist (x : Request) (l1 l2 : List Request)
    (hs : List.Sublist l1 l2) (h : reqMem x l1 = true) :
    reqMem x l2 = true := by
  simp only [reqMem, List.any_eq_true] at h ⊢
  obtain ⟨y, hy, he⟩ := h
  exact ⟨y, hs.mem hy, he⟩

/-- Helper: the minimum of a request set is a member. -/
theorem minReq?_mem (l : List Request) (r : Request)
    (h : minReq? l = some r) : r ∈ l := by
  induction l generalizing r with
  | nil => cases h
  | cons x rest ih =>
    simp only [minReq?] at h
    rcases hm : minReq? rest with _ | m
    · rw [hm] at h
      injection h with h
      subst h
      exact List.mem_cons_self _ _
    · rw [hm] at h
      injection h with h
      subst h
      by_cases hlt : (reqLtB m x) = true
      · rw [if_pos hlt]
        exact List.mem_cons_of_mem _ (ih m hm)
      · rw [if_neg hlt]
        exact List.mem_cons_self _ _

/-- Helper: a duplicate-free list stays duplicate-free after
filtering. -/
theorem reqNodup_filter (p : Request → Bool) (l : List Request)
    (h : reqNodup l = true) : reqNodup (l.filter p) = true := by
  induction l with
  | nil => rfl
  | cons x rest ih =>
    simp only [reqNodup, Bool.and_eq_true] at h
    rw [List.filter_cons]
    by_cases hp : p x = true
    · rw [if_pos hp]
      simp only [reqNodup, Bool.and_eq_true]
      constructor
      · cases hc : reqMem x (List.filter p rest) with
        | false => rfl
        | true =>
          exfalso
          have hmr := reqMem_sublist x _ _ (List.filter_sublist rest) hc
          rw [hmr] at h
          simp at h
      · exact ih h.2
    · rw [if_neg hp]
      exact ih h.2

/-- Helper: the structure of a successful iteration step. -/
theorem iterStep_spec (st : SpiderState) (r : Request) (st2 : SpiderState)
    (h : iterStep st = some (r, st2)) :
    r ∈ st.requests_to_check ∧
    st2 = { st with
      requests_to_check := reqRemove r st.requests_to_check,
      requests_checked := r :: st.requests_checked } := by
  unfold iterStep at h
  rcases hm : minReq? st.requests_to_check with _ | m
  · rw [hm] at h
    cases h
  · rw [hm] at h
    injection h with h
    injection h with h1 h2
    subst h1
    subst h2
    exact ⟨minReq?_mem _ _ hm, rfl⟩

/-- Helper: the inner request loop never touches the checked set. -/
theorem addReqLoop_checked (maxq : Nat) (url : PyStr) :
    ∀ (reqs : List Request) (st : SpiderState),
      (addReqLoop maxq url reqs st).requests_checked =
        st.requests_checked := by
  intro reqs
  induction reqs with
  | nil => intro st; rfl
  | cons r rest ih =>
    intro st
    simp only [addReqLoop]
    by_cases h1 : (reqMem r st.requests_checked ||
        reqMem r st.requests_to_check) = true
    · rw [if_pos h1]
      exact ih st
    · rw [if_neg h1]
      by_cases h2 : maxq ≤ qppGet st.queries_per_page url
      · rw [if_pos h2]
      · rw [if_neg h2]
        exact ih _

/-- Helper: the outer referrer loop never touches the checked set. -/
theorem addRefLoop_checked (maxq : Nat) (source : Request) :
    ∀ (refs : List Referrer) (st : SpiderState),
      (addRefLoop maxq source refs st).requests_checked =
        st.requests_checked := by
  intro refs
  induction refs with
  | nil => intro st; rfl
  | cons ref rest ih =>
    intro st
    simp only [addRefLoop]
    rw [ih, addReqLoop_checked]

/-- Helper: add_requests never touches the checked set. -/
theorem add_requests_checked (st : SpiderState) (src : Request)
    (refs : List Referrer) (st2 : SpiderState)
    (h : add_requests st src refs = some st2) :
    st2.requests_checked = st.requests_checked := by
  rcases hf : filterAllowed st refs with _ | allowed
  · simp only [add_requests, hf] at h
    cases h
  · simp only [add_requests, hf] at h
    by_cases hsg : (sgMem st.site_graph src) = true
    · rw [if_pos hsg] at h
      cases h
    · rw [if_neg hsg] at h
      injection h with h
      subst h
      rw [addRefLoop_checked]

/-- Helper: the inner request loop preserves the frontier invariants. -/
theorem addReqLoop_inv (maxq : Nat) (url : PyStr) :
    ∀ (reqs : List Request) (st : SpiderState),
      reqNodup st.requests_to_check = true →
      reqDisjoint st.requests_to_check st.requests_checked = true →
      reqNodup (addReqLoop maxq url reqs st).requests_to_check = true ∧
      reqDisjoint (addReqLoop maxq url reqs st).requests_to_check
        (addReqLoop maxq url reqs st).requests_checked = true := by
  intro reqs
  induction reqs with
  | nil => intro st h1 h2; exact ⟨h1, h2⟩
  | cons r rest ih =>
    intro st h1 h2
    simp only [addReqLoop]
    by_cases hg : (reqMem r st.requests_checked ||
        reqMem r st.requests_to_check) = true
    · rw [if_pos hg]
      exact ih st h1 h2
    · rw [if_neg hg]
      by_cases hcap : maxq ≤ qppGet st.queries_per_page url
      · rw [if_pos hcap]
        exact ⟨h1, h2⟩
      · rw [if_neg hcap]
        have hgf : (reqMem r st.requests_checked ||
            reqMem r st.requests_to_check) = false :=
          Bool.eq_false_iff.mpr hg
        obtain ⟨hgc, hgt⟩ := Bool.or_eq_false_iff.mp hgf
        apply ih
        · simp only [reqNodup, Bool.and_eq_true]
          exact ⟨by rw [hgt]; rfl, h1⟩
        · simp only [reqDisjoint, List.all_eq_true] at h2 ⊢
          intro x hx
          rcases List.mem_cons.mp hx with rfl | hx
          · rw [hgc]
            rfl
          · exact h2 x hx

/-- Helper: the outer referrer loop preserves the frontier
invariants. -/
theorem addRefLoop_inv (maxq : Nat) (source : Request) :
    ∀ (refs : List Referrer) (st : SpiderState),
      reqNodup st.requests_to_check = true →
      reqDisjoint st.requests_to_check st.requests_checked = true →
      reqNodup (addRefLoop maxq source refs st).requests_to_check = true ∧
      reqDisjoint (addRefLoop maxq source refs st).requests_to_check
        (addRefLoop maxq source refs st).requests_checked = true := by
  intro refs
  induction refs with
  | nil => intro st h1 h2; exact ⟨h1, h2⟩
  | cons ref rest ih =>
    intro st h1 h2
    simp only [addRefLoop]
    apply ih
    · refine (addReqLoop_inv maxq ref.page_url ref.requests _ ?_ ?_).1
      · exact h1
      · exact h2
    · refine (addReqLoop_inv maxq ref.page_url ref.requests _ ?_ ?_).2
      · exact h1
      · exact h2

/-- Helper: add_requests preserves the frontier invariants. -/
theorem add_requests_inv (st : SpiderState) (src : Request)
    (refs : List Referrer) (st2 : SpiderState)
    (h : add_requests st src refs = some st2)
    (h1 : reqNodup st.requests_to_check = true)
    (h2 : reqDisjoint st.requests_to_check st.requests_checked = true) :
    reqNodup st2.requests_to_check = true ∧
    reqDisjoint st2.requests_to_check st2.requests_checked = true := by
  rcases hf : filterAllowed st refs with _ | allowed
  · simp only [add_requests, hf] at h
    cases h
  · simp only [add_requests, hf] at h
    by_cases hsg : (sgMem st.site_graph src) = true
    · rw [if_pos hsg] at h
      cases h
    · rw [if_neg hsg] at h
      injection h with h
      subst h
      exact addRefLoop_inv _ _ _ _ h1 h2

/-- Helper: incrementing a page counter increments exactly that page. -/
theorem qppGet_inc_self (m : List (PyStr × Nat)) (url : PyStr) :
    qppGet (qppInc m url) url = qppGet m url + 1 := by
  induction m with
  | nil => simp [qppInc, qppGet]
  | cons p rest ih =>
    simp only [qppInc]
    by_cases hp : (p.1 == url) = true
    · rw [if_pos hp]
      simp only [qppGet, List.find?, hp]
    · rw [if_neg hp]
      have hpf : (p.1 == url) = false := Bool.eq_false_iff.mpr hp
      simp only [qppGet, List.find?, hpf]
      exact ih

/-- Helper: incrementing a page counter leaves other pages alone. -/
theorem qppGet_inc_other (m : List (PyStr × Nat)) (url url2 : PyStr)
    (h : url2 ≠ url) : qppGet (qppInc m url) url2 = qppGet m url2 := by
  induction m with
  | nil =>
    have hne : ((url == url2) : Bool) = false := by
      rw [beq_eq_false_iff_ne]
      exact fun he => h he.symm
    simp [qppInc, qppGet, List.find?, hne]
  | cons p rest ih =>
    simp only [qppInc]
    by_cases hp : (p.1 == url) = true
    · rw [if_pos hp]
      have hp2 : (p.1 == url2) = false := by
        rw [beq_iff_eq] at hp
        rw [beq_eq_false_iff_ne, hp]
        exact fun he => h he.symm
      simp only [qppGet, List.find?, hp2]
    · rw [if_neg hp]
      by_cases hp2 : (p.1 == url2) = true
      · simp only [qppGet, List.find?, hp2]
      · have hp2f : (p.1 == url2) = false := Bool.eq_false_iff.mpr hp2
        simp only [qppGet, List.find?, hp2f]
        exact ih

/-- Helper: the inner request loop keeps every page counter at or below
the cap. -/
theorem addReqLoop_cap (url : PyStr) :
    ∀ (reqs : List Request) (st : SpiderState),
      (∀ u, qppGet st.queries_per_page u ≤ 100) →
      ∀ u, qppGet (addReqLoop 100 url reqs st).queries_per_page u
        ≤ 100 := by
  intro reqs
  induction reqs with
  | nil => intro st h u; exact h u
  | cons r rest ih =>
    intro st h u
    simp only [addReqLoop]
    by_cases hg : (reqMem r st.requests_checked ||
        reqMem r st.requests_to_check) = true
    · rw [if_pos hg]
      exact ih st h u
    · rw [if_neg hg]
      by_cases hcap : 100 ≤ qppGet st.queries_per_page url
      · rw [if_pos hcap]
        exact h u
      · rw [if_neg hcap]
        apply ih
        intro u2
        show qppGet (qppInc st.queries_per_page url) u2 ≤ 100
        by_cases hu : u2 = url
        · subst hu
          rw [qppGet_inc_self]
          omega
        · rw [qppGet_inc_other _ _ _ hu]
          exact h u2

/-- Helper: the outer referrer loop keeps every page counter at or
below the cap. -/
theorem addRefLoop_cap (source : Request) :
    ∀ (refs : List Referrer) (st : SpiderState),
      (∀ u, qppGet st.queries_per_page u ≤ 100) →
      ∀ u, qppGet (addRefLoop 100 source refs st).queries_per_page u
        ≤ 100 := by
  intro refs
  induction refs with
  | nil => intro st h u; exact h u
  | cons ref rest ih =>
    intro st h u
    simp only [addRefLoop]
    apply ih
    intro u2
    refine addReqLoop_cap ref.page_url ref.requests _ ?_ u2
    intro u3
    exact h u3

/-- Helper: add_requests keeps every page counter at or below the
cap. -/
theorem add_requests_cap (st : SpiderState) (src : Request)
    (refs : List Referrer) (st2 : SpiderState)
    (h : add_requests st src refs = some st2)
    (hc : ∀ u, qppGet st.queries_per_page u ≤ 100) :
    ∀ u, qppGet st2.queries_per_page u ≤ 100 := by
  rcases hf : filterAllowed st refs with _ | allowed
  · simp only [add_requests, hf] at h
    cases h
  · simp only [add_requests, hf] at h
    by_cases hsg : (sgMem st.site_graph src) = true
    · rw [if_pos hsg] at h
      cases h
    · rw [if_neg hsg] at h
      injection h with h
      subst h
      refine addRefLoop_cap src allowed _ ?_
      intro u
      exact hc u

/-- Helper: every page counter of a reachable spider state is at or
below the cap. -/
theorem spiderRun_cap :
    ∀ (ops : List SpiderOp) (st : SpiderState) (out : List Request)
      (st2 : SpiderState),
      (∀ u, qppGet st.queries_per_page u ≤ 100) →
      spiderRun ops st = some (out, st2) →
      ∀ u, qppGet st2.queries_per_page u ≤ 100 := by
  intro ops
  induction ops with
  | nil =>
    intro st out st2 hc h
    simp only [spiderRun] at h
    injection h with h
    injection h with h1 h2
    subst h2
    exact hc
  | cons op rest ih =>
    intro st out st2 hc h
    cases op with
    | check =>
      simp only [spiderRun] at h
      rcases hi : iterStep st with _ | rs
      · simp only [hi] at h
        exact ih st out st2 hc h
      · simp only [hi] at h
        rcases hr : spiderRun rest rs.2 with _ | p
        · simp only [hr] at h
          cases h
        · simp only [hr] at h
          injection h with h
          injection h with h1 h2
          subst h2
          obtain ⟨-, hshape⟩ := iterStep_spec st rs.1 rs.2 (by
            rw [hi])
          refine ih rs.2 p.1 p.2 ?_ hr
          rw [hshape]
          exact hc
    | add src refs =>
      simp only [spiderRun] at h
      rcases ha : add_requests st src refs with _ | stx
      · simp only [ha] at h
        cases h
      · simp only [ha] at h
        exact ih stx out st2 (add_requests_cap st src refs stx ha hc) h

/-- Helper: exact characterisation of the inner request loop on fresh,
duplicate-free requests: exactly the first 100 - k of them are enqueued
(in reverse order, on top of the old frontier), the page counter
saturates at 100, and the counters of other pages are untouched. -/
theorem addReqLoop_spec (url : PyStr) :
    ∀ (reqs : List Request) (st : SpiderState) (k : Nat),
      qppGet st.queries_per_page url = k → k ≤ 100 →
      (∀ r ∈ reqs, reqMem r st.requests_checked = false ∧
        reqMem r st.requests_to_check = false) →
      reqNodup reqs = true →
      (addReqLoop 100 url reqs st).requests_to_check =
          (reqs.take (100 - k)).reverse ++ st.requests_to_check ∧
      qppGet (addReqLoop 100 url reqs st).queries_per_page url =
          min 100 (k + reqs.length) ∧
      (∀ u2, u2 ≠ url →
        qppGet (addReqLoop 100 url reqs st).queries_per_page u2 =
          qppGet st.queries_per_page u2) := by
  intro reqs
  induction reqs with
  | nil =>
    intro st k hk hk100 _ _
    simp only [addReqLoop, List.take_nil, List.reverse_nil,
      List.nil_append, List.length_nil]
    refine ⟨trivial, ?_, fun u2 _ => trivial⟩
    rw [hk]
    omega
  | cons r rest ih =>
    intro st k hk hk100 hfresh hnd
    have hr := hfresh r (List.mem_cons_self _ _)
    have hgne : ¬ ((reqMem r st.requests_checked ||
        reqMem r st.requests_to_check) = true) := by
      rw [hr.1, hr.2]
      decide
    simp only [addReqLoop]
    rw [if_neg hgne]
    by_cases hcap : 100 ≤ qppGet st.queries_per_page url
    · rw [if_pos hcap]
      have hke : k = 100 := by
        rw [hk] at hcap
        omega
      refine ⟨?_, ?_, fun u2 _ => rfl⟩
      · rw [hke]
        simp
      · rw [hk, hke]
        simp only [List.length_cons]
        omega
    · rw [if_neg hcap]
      have hklt : k < 100 := by
        rw [hk] at hcap
        omega
      have hnd2 := hnd
      simp only [reqNodup, Bool.and_eq_true] at hnd2
      obtain ⟨hnr, hndr⟩ := hnd2
      have hmf : reqMem r rest = false := by
        cases hmm : reqMem r rest with
        | false => rfl
        | true =>
          rw [hmm] at hnr
          exact absurd hnr (by decide)
      have hex : ∀ x ∈ rest, reqEq x r = false := by
        intro x hx
        have hmx := hmf
        simp only [reqMem, List.any_eq_false] at hmx
        exact Bool.eq_false_iff.mpr (hmx x hx)
      have hfresh1 : ∀ x ∈ rest,
          reqMem x st.requests_checked = false ∧
          reqMem x (r :: st.requests_to_check) = false := by
        intro x hx
        obtain ⟨hc1, hc2⟩ := hfresh x (List.mem_cons_of_mem _ hx)
        refine ⟨hc1, ?_⟩
        rw [reqMem_cons, reqEqSymm r x, hex x hx, hc2]
        rfl
      have hk1 : qppGet (qppInc st.queries_per_page url) url = k + 1 := by
        rw [qppGet_inc_self, hk]
      obtain ⟨ht, hcnt, ho⟩ := ih { st with queries_per_page := qppInc st.queries_per_page url, requests_to_check := r :: st.requests_to_check } (k + 1) hk1 (by omega) hfresh1 hndr
      refine ⟨?_, ?_, ?_⟩
      · have h100 : 100 - k = (100 - (k + 1)) + 1 := by omega
        rw [h100, List.take_succ_cons, List.reverse_cons,
          List.append_assoc, List.singleton_append]
        exact ht
      · rw [hcnt]
        simp only [List.length_cons]
        omega
      · intro u2 hu
        rw [ho u2 hu]
        exact qppGet_inc_other _ _ _ hu

/-- Helper: the checked set only grows along a spider run. -/
theorem spiderRun_checked_mono :
    ∀ (ops : List SpiderOp) (st : SpiderState) (out : List Request)
      (st2 : SpiderState),
      spiderRun ops st = some (out, st2) →
      ∀ x, reqMem x st.requests_checked = true →
        reqMem x st2.requests_checked = true := by
  intro ops
  induction ops with
  | nil =>
    intro st out st2 h x hx
    simp only [spiderRun] at h
    injection h with h
    injection h with h1 h2
    subst h2
    exact hx
  | cons op rest ih =>
    intro st out st2 h x hx
    cases op with
    | check =>
      simp only [spiderRun] at h
      rcases hi : iterStep st with _ | rs
      · simp only [hi] at h
        exact ih st out st2 h x hx
      · simp only [hi] at h
        rcases hr : spiderRun rest rs.2 with _ | p
        · simp only [hr] at h
          cases h
        · simp only [hr] at h
          injection h with h
          injection h with h1 h2
          subst h2
          obtain ⟨-, hshape⟩ := iterStep_spec st rs.1 rs.2 (by rw [hi])
          refine ih rs.2 p.1 p.2 hr x ?_
          rw [hshape]
          show reqMem x (rs.1 :: st.requests_checked) = true
          rw [reqMem_cons, hx]
          simp
    | add src refs =>
      simp only [spiderRun] at h
      rcases ha : add_requests st src refs with _ | stx
      · simp only [ha] at h
        cases h
      · simp only [ha] at h
        refine ih stx out st2 h x ?_
        rw [add_requests_checked st src refs stx ha]
        exact hx

/-- Helper: master invariant of a spider run: the frontier stays
duplicate-free and disjoint from the checked set, the yielded requests
are pairwise distinct, end up in the checked set, and none of them was
checked at the start. -/
theorem spiderRun_inv :
    ∀ (ops : List SpiderOp) (st : SpiderState) (out : List Request)
      (st2 : SpiderState),
      reqNodup st.requests_to_check = true →
      reqDisjoint st.requests_to_check st.requests_checked = true →
      spiderRun ops st = some (out, st2) →
      reqNodup st2.requests_to_check = true ∧
      reqDisjoint st2.requests_to_check st2.requests_checked = true ∧
      reqNodup out = true ∧
      (∀ x ∈ out, reqMem x st2.requests_checked = true) ∧
      (∀ x ∈ out, reqMem x st.requests_checked = false) := by
  intro ops
  induction ops with
  | nil =>
    intro st out st2 h1 h2 h
    simp only [spiderRun] at h
    injection h with h
    injection h with ho hs
    subst hs
    subst ho
    refine ⟨h1, h2, rfl, ?_, ?_⟩
    · intro x hx
      exact absurd hx (List.not_mem_nil x)
    · intro x hx
      exact absurd hx (List.not_mem_nil x)
  | cons op rest ih =>
    intro st out st2 h1 h2 h
    cases op with
    | check =>
      simp only [spiderRun] at h
      rcases hi : iterStep st with _ | rs
      · simp only [hi] at h
        exact ih st out st2 h1 h2 h
      · simp only [hi] at h
        rcases hr : spiderRun rest rs.2 with _ | p
        · simp only [hr] at h
          cases h
        · simp only [hr] at h
          injection h with h
          injection h with ho hs
          subst hs
          subst ho
          obtain ⟨hmem, hshape⟩ := iterStep_spec st rs.1 rs.2 (by rw [hi])
          have h1b : reqNodup rs.2.requests_to_check = true := by
            rw [hshape]
            exact reqNodup_filter _ _ h1
          have h2b : reqDisjoint rs.2.requests_to_check
              rs.2.requests_checked = true := by
            rw [hshape]
            show reqDisjoint (reqRemove rs.1 st.requests_to_check)
              (rs.1 :: st.requests_checked) = true
            simp only [reqDisjoint, List.all_eq_true] at h2 ⊢
            intro x hx
            simp only [reqRemove, List.mem_filter] at hx
            obtain ⟨hxl, hxe⟩ := hx
            have hxe2 : reqEq x rs.1 = false := by
              cases hq : reqEq x rs.1 with
              | false => rfl
              | true =>
                rw [hq] at hxe
                exact absurd hxe (by decide)
            have hxc := h2 x hxl
            have hxc2 : reqMem x st.requests_checked = false := by
              cases hq : reqMem x st.requests_checked with
              | false => rfl
              | true =>
                rw [hq] at hxc
                exact absurd hxc (by decide)
            rw [reqMem_cons, reqEqSymm rs.1 x, hxe2, hxc2]
            rfl
          obtain ⟨g1, g2, g3, g4, g5⟩ := ih rs.2 p.1 p.2 h1b h2b hr
          refine ⟨g1, g2, ?_, ?_, ?_⟩
          · have hnotin : reqMem rs.1 p.1 = false := by
              simp only [reqMem, List.any_eq_false]
              intro x hx he
              have h5 := g5 x hx
              rw [hshape] at h5
              have h5b : reqMem x (rs.1 :: st.requests_checked) = false := h5
              rw [reqMem_cons] at h5b
              have hsp := Bool.or_eq_false_iff.mp h5b
              rw [reqEqSymm rs.1 x, he] at hsp
              exact absurd hsp.1 (by decide)
            simp only [reqNodup, Bool.and_eq_true]
            refine ⟨?_, g3⟩
            rw [hnotin]
            rfl
          · intro x hx
            rcases List.mem_cons.mp hx with rfl | hx2
            · refine spiderRun_checked_mono rest rs.2 p.1 p.2 hr rs.1 ?_
              rw [hshape]
              show reqMem rs.1 (rs.1 :: st.requests_checked) = true
              rw [reqMem_cons, reqEqRefl]
              rfl
            · exact g4 x hx2
          · intro x hx
            rcases List.mem_cons.mp hx with rfl | hx2
            · have hd := h2
              simp only [reqDisjoint, List.all_eq_true] at hd
              have hdx := hd rs.1 hmem
              cases hq : reqMem rs.1 st.requests_checked with
              | false => rfl
              | true =>
                rw [hq] at hdx
                exact absurd hdx (by decide)
            · have h5 := g5 x hx2
              rw [hshape] at h5
              have h5b : reqMem x (rs.1 :: st.requests_checked) = false := h5
              rw [reqMem_cons] at h5b
              exact (Bool.or_eq_false_iff.mp h5b).2
    | add src refs =>
      simp only [spiderRun] at h
      rcases ha : add_requests st src refs with _ | stx
      · simp only [ha] at h
        cases h
      · simp only [ha] at h
        obtain ⟨hn, hd⟩ := add_requests_inv st src refs stx ha h1 h2
        obtain ⟨g1, g2, g3, g4, g5⟩ := ih stx out st2 hn hd h
        refine ⟨g1, g2, g3, g4, ?_⟩
        intro x hx
        have hx5 := g5 x hx
        rw [add_requests_checked st src refs stx ha] at hx5
        exact hx5

/-- C8: the per-page query cap: (1) along any run of a fresh spider,
every page counter stays at or below max_queries_per_page (100); (2)
when add_requests processes a referrer holding fresh, pairwise distinct
requests for a page whose counter is zero — in particular 150 of them —
exactly the first 100 are enqueued, the counter for that page ends at
the cap (so enqueuing stops deterministically after the 100th accepted
request), and the counters of every other page are untouched; (3) a
fresh request for a page whose counter is below the cap is still
enqueued. -/
theorem spider_query_cap :
    (∀ (first : Request) (rules : List RobotsRule) (ops : List SpiderOp)
        (out : List Request) (st : SpiderState),
      spiderRun ops (spiderInit first rules) = some (out, st) →
      ∀ url, qppGet st.queries_per_page url ≤ max_queries_per_page) ∧
    (∀ (st : SpiderState) (url : PyStr) (reqs : List Request),
      qppGet st.queries_per_page url = 0 →
      (∀ r ∈ reqs, reqMem r st.requests_checked = false ∧
        reqMem r st.requests_to_check = false) →
      reqNodup reqs = true →
      reqs.length = 150 →
      (addReqLoop max_queries_per_page url reqs st).requests_to_check =
          (reqs.take 100).reverse ++ st.requests_to_check ∧
      qppGet (addReqLoop max_queries_per_page url reqs
          st).queries_per_page url = max_queries_per_page ∧
      (∀ u2, u2 ≠ url →
        qppGet (addReqLoop max_queries_per_page url reqs
            st).queries_per_page u2 = qppGet st.queries_per_page u2)) ∧
    (∀ (st : SpiderState) (url2 : PyStr) (r2 : Request),
      reqMem r2 st.requests_checked = false →
      reqMem r2 st.requests_to_check = false →
      qppGet st.queries_per_page url2 < max_queries_per_page →
      (addReqLoop max_queries_per_page url2 [r2] st).requests_to_check =
        r2 :: st.requests_to_check) := by
  refine ⟨?_, ?_, ?_⟩
  · intro first rules ops out st h url
    refine spiderRun_cap ops (spiderInit first rules) out st ?_ h url
    intro u
    show (0 : Nat) ≤ 100
    decide
  · intro st url reqs h0 hfresh hnd hlen
    obtain ⟨ht, hcnt, ho⟩ :=
      addReqLoop_spec url reqs st 0 h0 (by omega) hfresh hnd
    rw [Nat.sub_zero] at ht
    rw [hlen] at hcnt
    refine ⟨ht, ?_, ho⟩
    show qppGet (addReqLoop 100 url reqs st).queries_per_page url = 100
    rw [hcnt]
    decide
  · intro st url2 r2 hc1 hc2 hlt
    simp only [max_queries_per_page] at hlt ⊢
    have hg : ¬ ((reqMem r2 st.requests_checked ||
        reqMem r2 st.requests_to_check) = true) := by
      rw [hc1, hc2]
      decide
    simp only [addReqLoop]
    rw [if_neg hg]
    have hcap : ¬ (100 ≤ qppGet st.queries_per_page url2) := by omega
    rw [if_neg hcap]

set_option maxRecDepth 8000 in
/-- Witness for C8: a one-step run keeps the counter of any page at or
below the cap; feeding 150 distinct query requests for one page into an
empty spider enqueues exactly the first 100, saturates that page's
counter and leaves another page's counter at zero; and a single fresh
request for a page below the cap is enqueued. -/
theorem spider_query_cap_witness :
    qppGet stW9.queries_per_page (pys "z") ≤ max_queries_per_page ∧
    (addReqLoop max_queries_per_page (pys "http://h/p") reqsW8
        stW8).requests_to_check =
      (reqsW8.take 100).reverse ++ stW8.requests_to_check ∧
    qppGet (addReqLoop max_queries_per_page (pys "http://h/p") reqsW8
        stW8).queries_per_page (pys "http://h/p") = max_queries_per_page ∧
    qppGet (addReqLoop max_queries_per_page (pys "http://h/p") reqsW8
        stW8).queries_per_page (pys "http://h/x") =
      qppGet stW8.queries_per_page (pys "http://h/x") ∧
    (addReqLoop max_queries_per_page (pys "http://h/x") [rqW9]
        stW8).requests_to_check = rqW9 :: stW8.requests_to_check := by
  have hA := spider_query_cap.1 rqW9 [] [SpiderOp.check] [rqW9] stW9
    (by decide) (pys "z")
  have hB := spider_query_cap.2.1 stW8 (pys "http://h/p") reqsW8 rfl
    (fun r hr => ⟨rfl, rfl⟩) (by decide) (by decide)
  have hC := spider_query_cap.2.2 stW8 (pys "http://h/x") rqW9 rfl rfl
    (by decide)
  exact ⟨hA, hB.1, hB.2.1, hB.2.2 (pys "http://h/x") (by decide), hC⟩

/-- C9: the spider never repeats a request: along any run of a fresh
spider, the yielded requests are pairwise distinct, each of them sits
permanently in the checked set afterwards, and the frontier remains
duplicate-free and disjoint from the checked set, so a request equal to
a checked or queued one is never re-enqueued by later add_requests
calls, even when requests are added during iteration. -/
theorem spider_no_repeat (first : Request) (rules : List RobotsRule)
    (ops : List SpiderOp) (out : List Request) (st : SpiderState)
    (h : spiderRun ops (spiderInit first rules) = some (out, st)) :
    reqNodup out = true ∧
    (∀ x ∈ out, reqMem x st.requests_checked = true) ∧
    reqNodup st.requests_to_check = true ∧
    reqDisjoint st.requests_to_check st.requests_checked = true := by
  have hinit1 : reqNodup (spiderInit first rules).requests_to_check
      = true := rfl
  have hinit2 : reqDisjoint (spiderInit first rules).requests_to_check
      (spiderInit first rules).requests_checked = true := rfl
  obtain ⟨g1, g2, g3, g4, g5⟩ :=
    spiderRun_inv ops (spiderInit first rules) out st hinit1 hinit2 h
  exact ⟨g3, g4, g1, g2⟩

/-- Witness for C9: a two-step run of a spider seeded with one request
yields it exactly once, it ends up checked, and the final frontier is
duplicate-free. -/
theorem spider_no_repeat_witness :
    reqNodup [rqW9] = true ∧
    reqMem rqW9 stW9.requests_checked = true ∧
    reqNodup stW9.requests_to_check = true := by
  have h := spider_no_repeat rqW9 [] [SpiderOp.check, SpiderOp.check]
    [rqW9] stW9 (by decide)
  exact ⟨h.1, h.2.1 rqW9 (by decide), h.2.2.1⟩
